import Mathlib

/-!
# cppdnn: layer kernels and the selection utility

A shallow embedding of `src/batchnormalization.cpp`, `src/activation.cpp` and
`src/fullyconnected.hpp`.

* `vec_t` is a `List K`, `tensor_t` a `List (List K)`; `flt` is an arbitrary linearly
  ordered field `K` (exact arithmetic), `std::sqrt` and `std::exp` are parameters.
* Where the rounding of `flt` decides a property, `Sigmoid::forward` and
  `BatchNormalization::forward` have a second embedding, `forwardRounded`, that rounds
  after every arithmetic operation; `binary64` is the rounding of `double`.
* `std::size_t` indices are natural numbers; the one place where an index can wrap
  (`right-1` at `right = 0`) is modelled explicitly.
* Every operation that can go wrong returns `Except Fault _`.
* Member functions take the layer object and return the new layer object next to their
  result.
-/

namespace Cppdnn

/-- The ways a call can fail to return. -/
inductive Fault
  /-- an `assert(...)` did not hold -/
  | assertion
  /-- `std::vector::at` threw `std::out_of_range` -/
  | outOfRange
  /-- `operator[]` or an iterator was used outside the vector (undefined behaviour) -/
  | undefined
  /-- the iteration budget of a modelled `while` loop was used up -/
  | fuel
deriving DecidableEq, Repr

deriving instance DecidableEq for Except

/-- Result of a call. -/
abbrev Res (α : Type) : Type := Except Fault α

section Vectors

variable {α : Type}

/-- The bounds-checked read `vec.at(i)`. -/
def vat (v : List α) (i : Nat) : Res α :=
  match v[i]? with
  | some x => .ok x
  | none => .error .outOfRange

/-- The unchecked read `vec[i]`. -/
def idx (v : List α) (i : Nat) : Res α :=
  match v[i]? with
  | some x => .ok x
  | none => .error .undefined

/-- The unchecked write `vec[i] = x`. -/
def put (v : List α) (i : Nat) (x : α) : Res (List α) :=
  if i < v.length then .ok (v.set i x) else .error .undefined

/-- Runs `body i` for `i = start, start+1, ...`, `count` times. -/
def loop {σ : Type} (body : Nat → σ → Res σ) : Nat → Nat → σ → Res σ
  | _, 0, s => .ok s
  | i, n + 1, s => body i s >>= loop body (i + 1) n

/-- The loop `for (i = lo; i < hi; i++) body`. -/
def forLoop {σ : Type} (lo hi : Nat) (body : Nat → σ → Res σ) (s : σ) : Res σ :=
  loop body lo (hi - lo) s

/-- The call `std::swap(vec.at(a), vec.at(b))`. -/
def swapAt (v : List α) (a b : Nat) : Res (List α) := do
  let x ← vat v a
  let y ← vat v b
  pure ((v.set a y).set b x)

end Vectors

section Selection

variable {α : Type} [LinearOrder α]

/-- Body of the `for` loop of `partition`; the state is `(vec, tmp)`. -/
def partitionStep (pivot : α) (i : Nat) (s : List α × Nat) : Res (List α × Nat) := do
  let x ← vat s.1 i
  if x < pivot then
    let v ← swapAt s.1 s.2 i
    pure (v, s.2 + 1)
  else
    pure s

/-- The function `partition(vec, left, right)`: returns the vector as the call leaves it
together with the returned index. At `right = 0` the index `right-1` wraps around to
the largest `std::size_t`, which no vector reaches, so `vec.at(right-1)` throws. -/
def partition (vec : List α) (left right : Nat) : Res (List α × Nat) := do
  let pivot ← vat vec left
  if right = 0 then throw Fault.outOfRange
  let vec ← swapAt vec left (right - 1)
  let (vec, tmp) ← forLoop left right (partitionStep pivot) (vec, left)
  let vec ← swapAt vec (right - 1) tmp
  pure (vec, tmp)

/-- The `while (left != right)` loop of `k_th_smallest`, at most `fuel` iterations. -/
def kthLoop (k left_ : Nat) : Nat → List α → Nat → Nat → Res (List α)
  | 0, vec, left, right => if left = right then .ok vec else .error .fuel
  | fuel + 1, vec, left, right =>
    if left = right then .ok vec
    else do
      let (vec, tmp) ← partition vec left right
      if tmp > k + left_ then kthLoop k left_ fuel vec left tmp
      else if tmp < k + left_ then kthLoop k left_ fuel vec (tmp + 1) right
      else pure vec

/-- The function `k_th_smallest(vec, k, left, right)`; `vec` is passed by value. -/
def k_th_smallest (fuel : Nat) (vec : List α) (k left right : Nat) : Res α := do
  let vec ← kthLoop k left fuel vec left right
  vat vec k

end Selection

section SelectionSpec

variable {α : Type}

/-- The vector `w` arises from `v` by rearranging the entries at the indices in
`[left, right)` and nothing else. -/
structure Shuffle (left right : Nat) (v w : List α) : Prop where
  len : w.length = v.length
  perm : w.Perm v
  outside : ∀ i (hw : i < w.length) (hv : i < v.length), (i < left ∨ right ≤ i) → w[i] = v[i]
  inside : ∀ i (hw : i < w.length), left ≤ i → i < right →
    ∃ j, ∃ (hv : j < v.length), left ≤ j ∧ j < right ∧ w[i] = v[j]

/-- Invariant of the `for` loop of `partition` before the iteration with index `j`. -/
structure PartInv [LinearOrder α] (vec : List α) (left right : Nat) (pv : α) (j : Nat)
    (s : List α × Nat) : Prop where
  sh : Shuffle left right vec s.1
  lo : left ≤ s.2
  le_j : s.2 ≤ j
  lt_r : s.2 < right
  last : ∀ (h : right - 1 < s.1.length), s.1[right - 1] = pv
  below : ∀ i (h : i < s.1.length), left ≤ i → i < s.2 → s.1[i] < pv
  above : ∀ i (h : i < s.1.length), s.2 ≤ i → i < j → pv ≤ s.1[i]

end SelectionSpec

section Tensors

variable {α β : Type}

/-- The loop over the batch: `body` is run once for every item (a row, or a batch index)
and yields that item's outputs. The iterations of the source loop
(`#pragma omp parallel for`) touch disjoint rows, so they are run one after the other. -/
def mapRows (body : α → Res β) : List α → Res (List β)
  | [] => .ok []
  | x :: xs => do
    let y ← body x
    let ys ← mapRows body xs
    pure (y :: ys)

/-- The unchecked read `t[i][j]`. -/
def idx2 (t : List (List α)) (i j : Nat) : Res α := do
  let r ← idx t i
  idx r j

/-- The unchecked read `t[b][i][j]`. -/
def idx3 (t : List (List (List α))) (b i j : Nat) : Res α := do
  let r ← idx t b
  idx2 r i j

/-- The unchecked write `t[i][j] = x`. -/
def put2 (t : List (List α)) (i j : Nat) (x : α) : Res (List (List α)) := do
  let r ← idx t i
  let r ← put r j x
  put t i r

end Tensors

section Layers

variable {K : Type} [LinearOrderedField K]

/-- A `vec_t(n)` or `vec_t(n, 0.0)`: `n` zeros. -/
def zeros (n : Nat) : List K := List.replicate n 0

/-! ### MeanNormalization -/

/-- The class `MeanNormalization`. -/
structure MeanNormalization where
  len : Nat

/-- Body of the batch loop of `MeanNormalization::forward`, on the row `ret[b]`. -/
def MeanNormalization.forwardRow (L : MeanNormalization) (row : List K) : Res (List K) := do
  let mean ← forLoop 0 L.len (fun i mean => do
    let x ← idx row i
    pure (mean + x)) (0 : K)
  let mean := mean / (row.length : K)
  forLoop 0 L.len (fun i ret => do
    let x ← idx ret i
    put ret i (x - mean)) row

/-- The function `MeanNormalization::forward`. -/
def MeanNormalization.forward (L : MeanNormalization) (data : List (List K)) :
    Res (List (List K)) :=
  mapRows L.forwardRow data

/-- The function `MeanNormalization::backward`. -/
def MeanNormalization.backward (_L : MeanNormalization) (data : List (List K)) :
    List (List K) :=
  data

/-! ### CenterNormalization -/

/-- The class `CenterNormalization`. -/
structure CenterNormalization where
  len : Nat

/-- Body of the batch loop of `CenterNormalization::forward`, on the row `ret[b]`;
`k_th_smallest` receives a copy of the row. -/
def CenterNormalization.forwardRow (fuel : Nat) (L : CenterNormalization) (row : List K) :
    Res (List K) := do
  let center ← k_th_smallest fuel row (row.length / 2) 0 row.length
  forLoop 0 L.len (fun i ret => do
    let x ← idx ret i
    put ret i (x - center)) row

/-- The function `CenterNormalization::forward`; `fuel` bounds the iterations of each
selection loop. -/
def CenterNormalization.forward (fuel : Nat) (L : CenterNormalization)
    (data : List (List K)) : Res (List (List K)) :=
  mapRows (L.forwardRow fuel) data

/-- The function `CenterNormalization::backward`. -/
def CenterNormalization.backward (_L : CenterNormalization) (data : List (List K)) :
    List (List K) :=
  data

/-! ### FullyConnected -/

/-- The class `FullyConnected<usebias>`. -/
structure FullyConnected (K : Type) where
  usebias : Bool
  inlen : Nat
  outlen : Nat
  weight : List (List K)
  weightgrad : List (List (List K))
  bias : List K
  biasgrad : List (List K)
  lastdata : List (List K)

/-- Body of the batch loop of `FullyConnected::forward`: from `data[b]` to `ret[b]`. -/
def FullyConnected.forwardRow (L : FullyConnected K) (row : List K) : Res (List K) := do
  if row.length ≠ L.inlen then throw Fault.assertion
  forLoop 0 L.outlen (fun i ret => do
    let ret ← forLoop 0 L.inlen (fun j ret => do
      let w ← idx2 L.weight i j
      let x ← idx row j
      let r ← idx ret i
      put ret i (r + w * x)) ret
    if L.usebias then do
      let b ← idx L.bias i
      let r ← idx ret i
      put ret i (r + b)
    else pure ret) (zeros L.outlen)

/-- The function `FullyConnected::forward`. -/
def FullyConnected.forward (L : FullyConnected K) (data : List (List K)) :
    Res (List (List K) × FullyConnected K) := do
  let ret ← mapRows L.forwardRow data
  pure (ret, { L with lastdata := data })

/-- Body of the first batch loop of `FullyConnected::backward`: the row `inputgrad[b]`. -/
def FullyConnected.inputgradRow (L : FullyConnected K) (data : List (List K)) (b : Nat) :
    Res (List K) := do
  let dy ← idx data b
  if dy.length ≠ L.outlen then throw Fault.assertion
  forLoop 0 L.inlen (fun i inputgrad => do
    let sum ← forLoop 0 L.outlen (fun j sum => do
      let w ← idx2 L.weight j i
      let d ← idx dy j
      pure (sum + w * d)) (0 : K)
    put inputgrad i sum) (zeros L.inlen)

/-- Body of the second batch loop of `FullyConnected::backward`: `weightgrad[b]` and
`biasgrad[b]`, both starting from zeros. -/
def FullyConnected.gradRow (L : FullyConnected K) (data : List (List K)) (b : Nat) :
    Res (List (List K) × List K) :=
  forLoop 0 L.outlen (fun i s => do
    let wg ← forLoop 0 L.inlen (fun j wg => do
      let d ← idx2 data b i
      let x ← idx2 L.lastdata b j
      let g ← idx2 wg i j
      put2 wg i j (g + d * x)) s.1
    if L.usebias then do
      let d ← idx2 data b i
      let g ← idx s.2 i
      let bg ← put s.2 i (g + d)
      pure (wg, bg)
    else pure (wg, s.2)) (List.replicate L.outlen (zeros L.inlen), zeros L.outlen)

/-- The function `FullyConnected::backward`. -/
def FullyConnected.backward (L : FullyConnected K) (data : List (List K)) :
    Res (List (List K) × FullyConnected K) := do
  if data.length ≠ L.lastdata.length then throw Fault.assertion
  let batchsize := data.length
  let inputgrad ← mapRows (L.inputgradRow data) (List.range batchsize)
  let grads ← mapRows (L.gradRow data) (List.range batchsize)
  pure (inputgrad, { L with weightgrad := grads.map Prod.fst, biasgrad := grads.map Prod.snd })

/-- The function `FullyConnected::update`. -/
def FullyConnected.update (L : FullyConnected K) (learningrate : K) :
    Res (FullyConnected K) := do
  let batchsize := L.weightgrad.length
  let s ← forLoop 0 batchsize (fun b s =>
    forLoop 0 L.outlen (fun i s => do
      let w ← forLoop 0 L.inlen (fun j w => do
        let g ← idx3 L.weightgrad b i j
        let x ← idx2 w i j
        put2 w i j (x - learningrate * g)) s.1
      if L.usebias then do
        let g ← idx2 L.biasgrad b i
        let x ← idx s.2 i
        let bias ← put s.2 i (x - learningrate * g)
        pure (w, bias)
      else pure (w, s.2)) s) (L.weight, L.bias)
  pure { L with weight := s.1, bias := s.2 }

end Layers

section Layers2

variable {K : Type} [LinearOrderedField K]

/-! ### BatchNormalization -/

/-- The class `BatchNormalization`; `epsilon` is the class constant of that name. -/
structure BatchNormalization (K : Type) where
  len : Nat
  epsilon : K
  gamma : List K
  beta : List K
  lastdata : List (List K)
  mu : List K
  var : List K
  sqrtvar : List K
  ivar : List K
  normx : List (List K)
  mux : List (List K)
  betagrad : List (List K)
  gammagrad : List (List K)

/-- What one iteration of the batch loop of `BatchNormalization::forward` stores for its
row `b`: `ret[b]`, `mu[b]`, `var[b]`, `sqrtvar[b]`, `ivar[b]`, `normx[b]`, `mux[b]`. -/
structure BNRow (K : Type) where
  ret : List K
  mu : K
  var : K
  sqrtvar : K
  ivar : K
  normx : List K
  mux : List K

/-- Body of the batch loop of `BatchNormalization::forward`, on the row `ret[b]`;
`sqrt` stands for `std::sqrt`. -/
def BatchNormalization.forwardRow (sqrt : K → K) (L : BatchNormalization K) (row : List K) :
    Res (BNRow K) := do
  let mean ← forLoop 0 L.len (fun i mean => do
    let x ← idx row i
    pure (mean + x)) (0 : K)
  let mean := mean / (L.len : K)
  let variance ← forLoop 0 L.len (fun i variance => do
    let x ← idx row i
    pure (variance + (x - mean) * (x - mean))) (0 : K)
  let variance := variance / (L.len : K)
  let sqrtvar := sqrt (variance + L.epsilon)
  let ivar := 1 / sqrtvar
  let s ← forLoop 0 L.len (fun i (s : List K × List K) => do
    let x ← idx row i
    let mux ← put s.1 i (x - mean)
    let m ← idx mux i
    let normx ← put s.2 i (m * ivar)
    pure (mux, normx)) (zeros L.len, zeros L.len)
  let ret ← forLoop 0 L.len (fun i ret => do
    let n ← idx s.2 i
    let g ← idx L.gamma i
    let b ← idx L.beta i
    put ret i (n * g + b)) row
  pure ⟨ret, mean, variance, sqrtvar, ivar, s.2, s.1⟩

/-- The function `BatchNormalization::forward`. -/
def BatchNormalization.forward (sqrt : K → K) (L : BatchNormalization K)
    (data : List (List K)) : Res (List (List K) × BatchNormalization K) := do
  let rows ← mapRows (L.forwardRow sqrt) data
  pure (rows.map BNRow.ret,
    { L with
      lastdata := data
      mu := rows.map BNRow.mu
      var := rows.map BNRow.var
      sqrtvar := rows.map BNRow.sqrtvar
      ivar := rows.map BNRow.ivar
      normx := rows.map BNRow.normx
      mux := rows.map BNRow.mux })

/-- Body of the batch loop of `BatchNormalization::backward` for the batch index `b`:
yields `inputgrad[b]`, `betagrad[b]` and `gammagrad[b]`. -/
def BatchNormalization.backwardRow (sqrt : K → K) (L : BatchNormalization K)
    (data : List (List K)) (b : Nat) : Res (List K × List K × List K) := do
  let inputgrad ← idx data b
  let size := (inputgrad.length : K)
  -- compute beta gradient
  let betagrad ← forLoop 0 L.len (fun i bg => do
    let d ← idx2 data b i
    put bg i d) (zeros L.len)
  -- compute gamma gradient
  let gammagrad ← forLoop 0 L.len (fun i gg => do
    let d ← idx2 data b i
    let n ← idx2 L.normx b i
    put gg i (d * n)) (zeros L.len)
  -- compute normx gradient
  let inputgrad ← forLoop 0 L.len (fun i ig => do
    let x ← idx ig i
    let g ← idx L.gamma i
    put ig i (x * g)) inputgrad
  -- compute ivar gradient
  let divar ← forLoop 0 L.len (fun i divar => do
    let m ← idx2 L.mux b i
    let x ← idx inputgrad i
    pure (divar + m * x)) (0 : K)
  -- compute mux gradient
  let inputgrad ← forLoop 0 L.len (fun i ig => do
    let x ← idx ig i
    let iv ← idx L.ivar b
    put ig i (x * iv)) inputgrad
  let sv ← idx L.sqrtvar b
  let dsqrtvar := -divar / (sv * sv)
  let v ← idx L.var b
  let dvar := dsqrtvar / sqrt (v + L.epsilon) / 2
  let s ← forLoop 0 L.len (fun i (s : List K × K) => do
    let x ← idx s.1 i
    let m ← idx L.mu b
    let ig ← put s.1 i (x + dvar * m * 2 / size)
    let y ← idx ig i
    pure (ig, s.2 - y)) (inputgrad, (0 : K))
  let dmu := s.2 / size
  let inputgrad ← forLoop 0 L.len (fun i ig => do
    let x ← idx ig i
    put ig i (x + dmu)) s.1
  pure (inputgrad, betagrad, gammagrad)

/-- The function `BatchNormalization::backward`. -/
def BatchNormalization.backward (sqrt : K → K) (L : BatchNormalization K)
    (data : List (List K)) : Res (List (List K) × BatchNormalization K) := do
  let batchsize := data.length
  let rows ← mapRows (L.backwardRow sqrt data) (List.range batchsize)
  pure (rows.map (fun r => r.1),
    { L with
      betagrad := rows.map (fun r => r.2.1)
      gammagrad := rows.map (fun r => r.2.2) })

/-- The function `BatchNormalization::update`. -/
def BatchNormalization.update (L : BatchNormalization K) (learningrate : K) :
    Res (BatchNormalization K) := do
  let s ← forLoop 0 L.gammagrad.length (fun b s =>
    forLoop 0 L.gamma.length (fun i (s : List K × List K) => do
      let gg ← idx2 L.gammagrad b i
      let g ← idx s.1 i
      let gamma ← put s.1 i (g - learningrate * gg)
      let bg ← idx2 L.betagrad b i
      let be ← idx s.2 i
      let beta ← put s.2 i (be - learningrate * bg)
      pure (gamma, beta)) s) (L.gamma, L.beta)
  pure { L with gamma := s.1, beta := s.2 }

/-! ### ReLU -/

/-- The class `ReLU`. -/
structure ReLU (K : Type) where
  lastdata : List (List K)

/-- The function `ReLU::forward`. -/
def ReLU.forward (_L : ReLU K) (data : List (List K)) : Res (List (List K) × ReLU K) := do
  let first ← idx data 0
  let len := first.length
  let ret ← mapRows (fun row =>
    forLoop 0 row.length (fun i r => do
      let x ← idx row i
      put r i (max 0 x)) (zeros len)) data
  pure (ret, { lastdata := data })

/-- The function `ReLU::backward`. -/
def ReLU.backward (L : ReLU K) (data : List (List K)) : Res (List (List K) × ReLU K) := do
  if data.length ≠ L.lastdata.length then throw Fault.assertion
  let first ← idx data 0
  let len := first.length
  let ret ← mapRows (fun b => do
    let dy ← idx data b
    let x ← idx L.lastdata b
    if dy.length ≠ x.length then throw Fault.assertion
    forLoop 0 dy.length (fun i r => do
      let xi ← idx x i
      let di ← idx dy i
      put r i (if xi > 0 then di else 0)) (zeros len)) (List.range data.length)
  pure (ret, L)

/-! ### SoftMax -/

/-- The call `*std::max_element(v.begin(), v.end())`: on an empty vector the returned
iterator is `end()` and must not be dereferenced. -/
def maxElement (v : List K) : Res K :=
  match v with
  | [] => .error .undefined
  | x :: xs => .ok (xs.foldl (fun largest y => if largest < y then y else largest) x)

/-- Body of the batch loop of `SoftMax::forward`: from `data[b]` to `ret[b]`, which has
`len` entries; `exp` stands for `std::exp`. -/
def SoftMax.forwardRow (exp : K → K) (len : Nat) (row : List K) : Res (List K) := do
  let maxelm ← maxElement row
  let sum := row.foldl (fun sum num => sum + exp (num - maxelm)) (0 : K)
  forLoop 0 row.length (fun i r => do
    let x ← idx row i
    put r i (exp (x - maxelm) / sum)) (zeros len)

/-- The function `SoftMax::forward`. -/
def SoftMax.forward (exp : K → K) (data : List (List K)) : Res (List (List K)) := do
  let first ← idx data 0
  let len := first.length
  mapRows (SoftMax.forwardRow exp len) data

/-- The function `SoftMax::backward`. -/
def SoftMax.backward (data : List (List K)) : List (List K) :=
  data

end Layers2

section Layers3

variable {K : Type} [LinearOrderedField K]

/-! ### Linear -/

/-- The function `Linear::forward`. -/
def Linear.forward (data : List (List K)) : List (List K) :=
  data

/-- The function `Linear::backward`. -/
def Linear.backward (data : List (List K)) : List (List K) :=
  data

/-! ### Sigmoid -/

/-- The class `Sigmoid`. -/
structure Sigmoid (K : Type) where
  lastdata : List (List K)

/-- The function `Sigmoid::forward`; `exp` stands for `std::exp`. The output is what
the layer caches. -/
def Sigmoid.forward (exp : K → K) (_L : Sigmoid K) (data : List (List K)) :
    Res (List (List K) × Sigmoid K) := do
  let first ← idx data 0
  let len := first.length
  let ret ← mapRows (fun row =>
    forLoop 0 row.length (fun i r => do
      let x ← idx row i
      put r i (1 / (exp (-x) + 1))) (zeros len)) data
  pure (ret, { lastdata := ret })

/-- The function `Sigmoid::backward`. -/
def Sigmoid.backward (L : Sigmoid K) (data : List (List K)) :
    Res (List (List K) × Sigmoid K) := do
  if data.length ≠ L.lastdata.length then throw Fault.assertion
  let first ← idx data 0
  let len := first.length
  let ret ← mapRows (fun b => do
    let dy ← idx data b
    let y ← idx L.lastdata b
    if y.length ≠ dy.length then throw Fault.assertion
    forLoop 0 dy.length (fun i r => do
      let di ← idx dy i
      let yi ← idx y i
      put r i (di * (1 - yi) * yi)) (zeros len)) (List.range data.length)
  pure (ret, L)

/-! ### BinaryAct -/

/-- The class `BinaryAct`. -/
structure BinaryAct (K : Type) where
  lastdata : List (List K)

/-- The function `BinaryAct::forward`; `sign` stands for the function of that name of
`binarize.hpp`. Every row is read up to the length of the first row. -/
def BinaryAct.forward (sign : K → K) (_L : BinaryAct K) (data : List (List K)) :
    Res (List (List K) × BinaryAct K) := do
  let first ← idx data 0
  let len := first.length
  let ret ← mapRows (fun row =>
    forLoop 0 len (fun i r => do
      let x ← idx row i
      put r i (sign x)) (zeros len)) data
  pure (ret, { lastdata := data })

/-- The function `BinaryAct::backward`; `hard_tanh_back` stands for the function of that
name of `binarize.hpp`. The length of the first row is taken before the assertion on the
batch size, and there is no assertion on the row lengths. -/
def BinaryAct.backward (hard_tanh_back : K → K) (L : BinaryAct K) (data : List (List K)) :
    Res (List (List K) × BinaryAct K) := do
  let first ← idx data 0
  let len := first.length
  if data.length ≠ L.lastdata.length then throw Fault.assertion
  let ret ← mapRows (fun b => do
    let dy ← idx data b
    let x ← idx L.lastdata b
    forLoop 0 len (fun i r => do
      let xi ← idx x i
      let di ← idx dy i
      put r i (hard_tanh_back xi * di)) (zeros len)) (List.range data.length)
  pure (ret, L)

end Layers3

section Results

variable {α : Type}

/-- The vector `v` after its first `n` entries were replaced by `f 0, ..., f (n-1)`. -/
def overwrite (n : Nat) (f : Nat → α) (v : List α) : List α :=
  (List.range n).map f ++ v.drop n

/-- The entry `v[i]` of a vector, `0` outside it (used to state results). -/
def entry1 {K : Type} [Zero K] (v : List K) (i : Nat) : K := v.getD i 0

/-- The entry `t[b][i]` of a tensor, `0` outside it (used to state results). -/
def entry {K : Type} [Zero K] (t : List (List K)) (b i : Nat) : K := (t.getD b []).getD i 0

/-- The entry `t[b][i][j]` of a vector of tensors, `0` outside it (used to state
results). -/
def entry3 {K : Type} [Zero K] (t : List (List (List K))) (b i j : Nat) : K :=
  ((t.getD b []).getD i []).getD j 0

/-- Follows the spec's words for `MeanNormalization`: the mean of the first `len`
features of a row. -/
def meanOfFirst {K : Type} [LinearOrderedField K] (len : Nat) (x : List K) : K :=
  (x.take len).sum / (len : K)

/-- The shape the constructor of `FullyConnected` gives the parameters: `weight` is
`outlen` rows of `inlen` entries, `bias` has `outlen` entries. -/
structure FullyConnected.WF {K : Type} (L : FullyConnected K) : Prop where
  weight_len : L.weight.length = L.outlen
  weight_row : ∀ r ∈ L.weight, r.length = L.inlen
  bias_len : L.bias.length = L.outlen

/-- The row mean that `BatchNormalization::forward` computes: over the first `len`
features. -/
def BatchNormalization.rowMean {K : Type} [LinearOrderedField K] (L : BatchNormalization K)
    (row : List K) : K :=
  (∑ i ∈ Finset.range L.len, entry1 row i) / (L.len : K)

/-- The biased row variance that `BatchNormalization::forward` computes. -/
def BatchNormalization.rowVar {K : Type} [LinearOrderedField K] (L : BatchNormalization K)
    (row : List K) : K :=
  (∑ i ∈ Finset.range L.len,
    (entry1 row i - L.rowMean row) * (entry1 row i - L.rowMean row)) / (L.len : K)

/-- The inverse standard deviation that `BatchNormalization::forward` computes. -/
def BatchNormalization.rowIvar {K : Type} [LinearOrderedField K] (sqrt : K → K)
    (L : BatchNormalization K) (row : List K) : K :=
  1 / sqrt (L.rowVar row + L.epsilon)

/-- The gradient that reaches the normalized values in `BatchNormalization::backward`:
`g[i] = dy[i] * gamma[i]`. -/
def BatchNormalization.gradNormx {K : Type} [LinearOrderedField K] (L : BatchNormalization K)
    (dy : List K) (i : Nat) : K :=
  entry1 dy i * entry1 L.gamma i

/-- The constant `dvar * mu[b] * 2 / data[b].size()` that `BatchNormalization::backward`
adds to every feature of row `b`. -/
def BatchNormalization.dvarShift {K : Type} [LinearOrderedField K] (sqrt : K → K)
    (L : BatchNormalization K) (data : List (List K)) (b : Nat) : K :=
  (-(∑ i ∈ Finset.range L.len, entry L.mux b i * L.gradNormx (data.getD b []) i) /
      (entry1 L.sqrtvar b * entry1 L.sqrtvar b)) / sqrt (entry1 L.var b + L.epsilon) / 2 *
    entry1 L.mu b * 2 / ((data.getD b []).length : K)

/-- Follows the words of the claim on the standard batch-norm backward pass: with
`g[i] = dy[i] * gamma[i]`,
`dx[i] = ivar * (g[i] - mean(g)) - mux[i] * ivar^3 * (Σ_j mux[j] * g[j]) / len`. -/
def stdInputGrad {K : Type} [LinearOrderedField K] (len : Nat) (ivar : K) (mux g : Nat → K)
    (i : Nat) : K :=
  ivar * (g i - (∑ j ∈ Finset.range len, g j) / (len : K)) -
    mux i * ivar ^ 3 * (∑ j ∈ Finset.range len, mux j * g j) / (len : K)

/-- A `BatchNormalization` layer on which `forward` has not run yet. -/
def BatchNormalization.fresh {K : Type} (len : Nat) (epsilon : K) (gamma beta : List K) :
    BatchNormalization K :=
  { len := len, epsilon := epsilon, gamma := gamma, beta := beta, lastdata := [],
    mu := [], var := [], sqrtvar := [], ivar := [], normx := [], mux := [],
    betagrad := [], gammagrad := [] }

/-- The caches hold the statistics of a batch of `n` rows, as
`BatchNormalization::forward` leaves them. -/
structure BatchNormalization.Cached {K : Type} (L : BatchNormalization K) (n : Nat) :
    Prop where
  mu_len : L.mu.length = n
  var_len : L.var.length = n
  sqrtvar_len : L.sqrtvar.length = n
  ivar_len : L.ivar.length = n
  normx_len : L.normx.length = n
  normx_row : ∀ r ∈ L.normx, r.length = L.len
  mux_len : L.mux.length = n
  mux_row : ∀ r ∈ L.mux, r.length = L.len

/-- A batch-normalisation layer of two features whose caches hold the statistics of the
one row `[0, 2]` (mean 1, variance 1). -/
def bnCached {K : Type} [LinearOrderedField K] (sqrt : K → K) (epsilon : K) :
    BatchNormalization K :=
  { len := 2, epsilon := epsilon, gamma := [3, -2], beta := [7, 9], lastdata := [[0, 2]],
    mu := [1], var := [1], sqrtvar := [sqrt (1 + epsilon)], ivar := [1 / sqrt (1 + epsilon)],
    normx := [[-(1 / sqrt (1 + epsilon)), 1 / sqrt (1 + epsilon)]], mux := [[-1, 1]],
    betagrad := [], gammagrad := [] }

/-- A 2-in/1-out layer with bias that holds the gradients of a batch of two rows. -/
def fcSample : FullyConnected ℚ :=
  { usebias := true, inlen := 2, outlen := 1, weight := [[1, 2]],
    weightgrad := [[[6, 8]], [[3, 3]]], bias := [5], biasgrad := [[2], [3]],
    lastdata := [[3, 4], [1, 1]] }

/-- A batch-normalisation layer of two features that holds the gradients of a batch of
two rows. -/
def bnSample : BatchNormalization ℚ :=
  { len := 2, epsilon := 1 / 100, gamma := [1, 1], beta := [0, 0], lastdata := [],
    mu := [], var := [], sqrtvar := [], ivar := [], normx := [], mux := [],
    betagrad := [[1, 0], [2, 2]], gammagrad := [[-1 / 2, 0], [1, 1]] }

end Results

section Rounding

variable {K : Type} [LinearOrderedField K]

/-! ### The arithmetic of `flt`

The layers above compute in an exact ordered field. The definitions of this section make
the rounding of the floating-point type `flt` explicit: `rnd` is applied to the result of
every arithmetic operation, as the hardware does, and the library functions `std::exp`
and `std::sqrt` are parameters that return values of `flt`. With `rnd = id` they are the
exact definitions above. -/

/-- Nearest integer of `t`, a tie going to the even neighbour. -/
def roundEven [FloorRing K] (t : K) : Int :=
  if t - (Int.floor t : K) < 1 / 2 then Int.floor t
  else if 1 / 2 < t - (Int.floor t : K) then Int.floor t + 1
  else if Int.floor t % 2 = 0 then Int.floor t
  else Int.floor t + 1

/-- The spacing of the floating-point numbers of precision `p` around `x`:
`2 ^ (e - (p - 1))` with `e` the binary exponent of `x`, at least `emin` (below
`2 ^ emin` lie the subnormal numbers, equally spaced). -/
def ulp [FloorRing K] (p : Nat) (emin : Int) (x : K) : K :=
  (2 : K) ^ (max (Int.log 2 |x|) emin - ((p : Int) - 1))

/-- Rounding to the nearest floating-point number with `p` significant bits and least
normal exponent `emin`, ties to even (the default rounding of IEEE 754). Overflow to an
infinity is left out: the values rounded here are far below the largest finite number. -/
def roundFloat [FloorRing K] (p : Nat) (emin : Int) (x : K) : K :=
  (roundEven (x / ulp p emin x) : K) * ulp p emin x

/-- Rounding to IEEE 754 binary64, the C++ type `double`. -/
def binary64 [FloorRing K] (x : K) : K :=
  roundFloat 53 (-1022) x

/-- The function `Sigmoid::forward` with the rounding of `flt` explicit: `exp (-x) + 1`
and the quotient are rounded by `rnd`; `exp` stands for `std::exp`. -/
def Sigmoid.forwardRounded (rnd exp : K → K) (_L : Sigmoid K) (data : List (List K)) :
    Res (List (List K) × Sigmoid K) := do
  let first ← idx data 0
  let len := first.length
  let ret ← mapRows (fun row =>
    forLoop 0 row.length (fun i r => do
      let x ← idx row i
      put r i (rnd (1 / rnd (exp (-x) + 1)))) (zeros len)) data
  pure (ret, { lastdata := ret })

/-- Body of the batch loop of `BatchNormalization::forward` with the rounding of `flt`
explicit; `sqrt` stands for `std::sqrt`. -/
def BatchNormalization.forwardRowRounded (rnd sqrt : K → K) (L : BatchNormalization K)
    (row : List K) : Res (BNRow K) := do
  let mean ← forLoop 0 L.len (fun i mean => do
    let x ← idx row i
    pure (rnd (mean + x))) (0 : K)
  let mean := rnd (mean / (L.len : K))
  let variance ← forLoop 0 L.len (fun i variance => do
    let x ← idx row i
    pure (rnd (variance + rnd (rnd (x - mean) * rnd (x - mean))))) (0 : K)
  let variance := rnd (variance / (L.len : K))
  let sqrtvar := sqrt (rnd (variance + L.epsilon))
  let ivar := rnd (1 / sqrtvar)
  let s ← forLoop 0 L.len (fun i (s : List K × List K) => do
    let x ← idx row i
    let mux ← put s.1 i (rnd (x - mean))
    let m ← idx mux i
    let normx ← put s.2 i (rnd (m * ivar))
    pure (mux, normx)) (zeros L.len, zeros L.len)
  let ret ← forLoop 0 L.len (fun i ret => do
    let n ← idx s.2 i
    let g ← idx L.gamma i
    let b ← idx L.beta i
    put ret i (rnd (rnd (n * g) + b))) row
  pure ⟨ret, mean, variance, sqrtvar, ivar, s.2, s.1⟩

/-- The function `BatchNormalization::forward` with the rounding of `flt` explicit. -/
def BatchNormalization.forwardRounded (rnd sqrt : K → K) (L : BatchNormalization K)
    (data : List (List K)) : Res (List (List K) × BatchNormalization K) := do
  let rows ← mapRows (L.forwardRowRounded rnd sqrt) data
  pure (rows.map BNRow.ret,
    { L with
      lastdata := data
      mu := rows.map BNRow.mu
      var := rows.map BNRow.var
      sqrtvar := rows.map BNRow.sqrtvar
      ivar := rows.map BNRow.ivar
      normx := rows.map BNRow.normx
      mux := rows.map BNRow.mux })

end Rounding

/-! ## Theorems -/

section Lemmas
variable {α : Type}

theorem ok_bind {β : Type} (a : α) (f : α → Res β) : (Except.ok a >>= f) = f a := rfl

theorem error_bind {β : Type} (e : Fault) (f : α → Res β) :
    ((Except.error e : Res α) >>= f) = Except.error e := rfl

theorem vat_ok {v : List α} {i : Nat} (h : i < v.length) : vat v i = .ok v[i] := by
  simp [vat, h]

theorem vat_error {v : List α} {i : Nat} (h : v.length ≤ i) : vat v i = .error .outOfRange := by
  simp [vat, List.getElem?_eq_none h]

theorem idx_ok {v : List α} {i : Nat} (h : i < v.length) : idx v i = .ok v[i] := by
  simp [idx, h]

theorem put_ok {v : List α} {i : Nat} (x : α) (h : i < v.length) : put v i x = .ok (v.set i x) := by
  simp [put, h]

theorem set_same {v : List α} {i : Nat} (h : i < v.length) : v.set i v[i] = v := by
  apply List.ext_getElem (by simp)
  intro n h1 h2
  rw [List.getElem_set]
  split
  · next e => subst e; rfl
  · rfl

theorem swapAt_ok {v : List α} {a b : Nat} (ha : a < v.length) (hb : b < v.length) :
    swapAt v a b = .ok ((v.set a v[b]).set b v[a]) := by
  simp only [swapAt, vat_ok ha, vat_ok hb]
  rfl

theorem getElem_swap {v : List α} {a b : Nat} (ha : a < v.length) (hb : b < v.length)
    (i : Nat) (h : i < ((v.set a v[b]).set b v[a]).length) (h' : i < v.length) :
    ((v.set a v[b]).set b v[a])[i] = if i = b then v[a] else if i = a then v[b] else v[i] := by
  simp only [List.getElem_set]
  by_cases h1 : b = i
  · simp [h1]
  · by_cases h2 : a = i
    · simp [h1, h2, Ne.symm h1]
    · simp [h1, h2, Ne.symm h1, Ne.symm h2]

theorem swap_perm [DecidableEq α] {v : List α} {a b : Nat} (ha : a < v.length) (hb : b < v.length) :
    ((v.set a v[b]).set b v[a]).Perm v := by
  rw [List.perm_iff_count]
  intro x
  have hb' : b < (v.set a v[b]).length := by simpa using hb
  rw [List.count_set _ _ _ _ hb', List.count_set _ _ _ _ ha]
  have h1 : (v.set a v[b])[b] = v[b] := by
    rw [List.getElem_set]; split <;> rfl
  rw [h1]
  have pa : v[a] = x → 1 ≤ List.count x v := fun e =>
    List.count_pos_iff.mpr (e ▸ List.getElem_mem ha)
  have pb : v[b] = x → 1 ≤ List.count x v := fun e =>
    List.count_pos_iff.mpr (e ▸ List.getElem_mem hb)
  by_cases ea : v[a] = x
  · have c := pa ea
    by_cases eb : v[b] = x <;> simp [ea, eb] <;> omega
  · by_cases eb : v[b] = x
    · have c := pb eb
      simp [ea, eb]
    · simp [ea, eb]

theorem loop_inv {σ : Type} (body : Nat → σ → Res σ) (Inv : Nat → σ → Prop) :
    ∀ (n i : Nat) (s : σ), Inv i s →
      (∀ j t, i ≤ j → j < i + n → Inv j t → ∃ t', body j t = .ok t' ∧ Inv (j + 1) t') →
      ∃ t, loop body i n s = .ok t ∧ Inv (i + n) t := by
  intro n
  induction n with
  | zero => intro i s h _; exact ⟨s, rfl, by simpa using h⟩
  | succ n ih =>
    intro i s h step
    obtain ⟨t', e, h'⟩ := step i s (le_refl _) (by omega) h
    obtain ⟨t, e2, h2⟩ := ih (i + 1) t' h' (fun j t hj hj' hI => step j t (by omega) (by omega) hI)
    refine ⟨t, ?_, ?_⟩
    · simp only [loop, e]; exact e2
    · have : i + (n + 1) = i + 1 + n := by omega
      rw [this]; exact h2

theorem forLoop_inv {σ : Type} (body : Nat → σ → Res σ) (Inv : Nat → σ → Prop)
    (lo hi : Nat) (hle : lo ≤ hi) (s : σ) (h0 : Inv lo s)
    (step : ∀ j t, lo ≤ j → j < hi → Inv j t → ∃ t', body j t = .ok t' ∧ Inv (j + 1) t') :
    ∃ t, forLoop lo hi body s = .ok t ∧ Inv hi t := by
  obtain ⟨t, e, h⟩ := loop_inv body Inv (hi - lo) lo s h0
    (fun j t hj hj' hI => step j t hj (by omega) hI)
  refine ⟨t, e, ?_⟩
  have : lo + (hi - lo) = hi := by omega
  rwa [this] at h


end Lemmas


section SelectionLemmas
variable {α : Type}

theorem Shuffle.refl (left right : Nat) (v : List α) : Shuffle left right v v :=
  ⟨rfl, List.Perm.refl _, fun _ _ _ _ => rfl, fun i hw h1 h2 => ⟨i, hw, h1, h2, rfl⟩⟩

theorem Shuffle.swap [DecidableEq α] {left right : Nat} {v w : List α} (h : Shuffle left right v w)
    {a b : Nat} (ha : a < w.length) (hb : b < w.length)
    (ha1 : left ≤ a) (ha2 : a < right) (hb1 : left ≤ b) (hb2 : b < right) :
    Shuffle left right v ((w.set a w[b]).set b w[a]) := by
  refine ⟨by simp [h.len], (swap_perm ha hb).trans h.perm, ?_, ?_⟩
  · intro i hw hv ho
    have hiw : i < w.length := by simpa using hw
    rw [getElem_swap ha hb i hw hiw]
    have h1 : i ≠ b := by omega
    have h2 : i ≠ a := by omega
    simp only [h1, h2, if_false]
    exact h.outside i hiw hv ho
  · intro i hw h1 h2
    have hiw : i < w.length := by simpa using hw
    rw [getElem_swap ha hb i hw hiw]
    by_cases e1 : i = b
    · simp only [e1, if_true]; exact h.inside a ha ha1 ha2
    · by_cases e2 : i = a
      · subst e2
        simp only [e1, if_true, if_false]; exact h.inside b hb hb1 hb2
      · simp only [e1, e2, if_false]; exact h.inside i hiw h1 h2

end SelectionLemmas

section PartitionLemmas
variable {α : Type} [LinearOrder α]

theorem partitionStep_inv (vec : List α) (left right : Nat) (hr : right ≤ vec.length) (pv : α)
    (j : Nat) (s : List α × Nat) (hj1 : left ≤ j) (hj2 : j < right)
    (h : PartInv vec left right pv j s) :
    ∃ t, partitionStep pv j s = .ok t ∧ PartInv vec left right pv (j + 1) t := by
  obtain ⟨v, tmp⟩ := s
  obtain ⟨sh, lo, le_j, lt_r, last, below, above⟩ := h
  simp only at sh lo le_j lt_r last below above
  have hlen : v.length = vec.length := sh.len
  have hjv : j < v.length := by omega
  have htv : tmp < v.length := by omega
  have hrv : right - 1 < v.length := by omega
  simp only [partitionStep, vat_ok hjv, bind, Except.bind]
  by_cases hlt : v[j] < pv
  · have hjr : j < right - 1 := by
      rcases Nat.lt_or_ge j (right - 1) with h1 | h1
      · exact h1
      · have e : j = right - 1 := by omega
        subst e
        rw [last hrv] at hlt
        exact absurd hlt (lt_irrefl _)
    simp only [if_pos hlt, swapAt_ok htv hjv, pure, Except.pure]
    refine ⟨_, rfl, ?_⟩
    refine ⟨sh.swap htv hjv lo (by omega) hj1 hj2, by simp; omega, by simp; omega, by simp; omega,
      ?_, ?_, ?_⟩
    · intro hh
      rw [getElem_swap htv hjv _ hh hrv]
      have h1 : right - 1 ≠ j := by omega
      have h2 : right - 1 ≠ tmp := by omega
      simp only [h1, h2, if_false]
      exact last hrv
    · intro i hh hi1 hi2
      have hiv : i < v.length := by simpa using hh
      simp only at hi2
      rw [getElem_swap htv hjv _ hh hiv]
      by_cases e1 : i = j
      · subst e1
        have : tmp = i := by omega
        subst this
        simpa using hlt
      · by_cases e2 : i = tmp
        · subst e2; simpa [e1] using hlt
        · simp only [e1, e2, if_false]
          exact below i hiv hi1 (by omega)
    · intro i hh hi1 hi2
      have hiv : i < v.length := by simpa using hh
      simp only at hi1
      rw [getElem_swap htv hjv _ hh hiv]
      by_cases e1 : i = j
      · subst e1
        simp only [if_true]
        exact above tmp htv (le_refl _) (by omega)
      · have e2 : i ≠ tmp := by omega
        simp only [e1, e2, if_false]
        exact above i hiv (by omega) (by omega)
  · simp only [if_neg hlt, pure, Except.pure]
    refine ⟨_, rfl, ?_⟩
    refine ⟨sh, lo, by simp; omega, lt_r, last, below, ?_⟩
    intro i hh hi1 hi2
    by_cases e1 : i = j
    · subst e1; exact not_lt.mp hlt
    · exact above i hh hi1 (by omega)

end PartitionLemmas

section PartitionSpec
variable {α : Type} [LinearOrder α]

/-- What `partition` establishes on a non-empty range inside the vector. -/
theorem partition_post (vec : List α) (left right : Nat) (hlr : left < right)
    (hr : right ≤ vec.length) :
    ∃ out p, partition vec left right = .ok (out, p) ∧ Shuffle left right vec out ∧
      left ≤ p ∧ p < right ∧
      (∀ (h : p < out.length), out[p] = vec[left]) ∧
      (∀ i (h : i < out.length), left ≤ i → i < p → out[i] < vec[left]) ∧
      (∀ i (h : i < out.length), p < i → i < right → vec[left] ≤ out[i]) := by
  have hl : left < vec.length := by omega
  have hr1 : right - 1 < vec.length := by omega
  have hr0 : right ≠ 0 := by omega
  let v1 := (vec.set left vec[right - 1]).set (right - 1) vec[left]
  have hv1 : v1.length = vec.length := by simp [v1]
  have sh1 : Shuffle left right vec v1 :=
    (Shuffle.refl left right vec).swap hl hr1 (le_refl _) hlr (by omega) (by omega)
  have inv0 : PartInv vec left right vec[left] left (v1, left) := by
    refine ⟨sh1, le_refl _, le_refl _, hlr, ?_, ?_, ?_⟩
    · intro h
      show v1[right - 1] = vec[left]
      simp [v1]
    · intro i h h1 h2
      simp only at h2
      omega
    · intro i h h1 h2
      simp only at h1
      omega
  obtain ⟨⟨v2, tmp⟩, e2, inv2⟩ := forLoop_inv (partitionStep vec[left])
    (PartInv vec left right vec[left]) left right (le_of_lt hlr) (v1, left) inv0
    (fun j t h1 h2 hI => partitionStep_inv vec left right hr vec[left] j t h1 h2 hI)
  obtain ⟨sh, lo, le_j, lt_r, last, below, above⟩ := inv2
  simp only at sh lo le_j lt_r last below above
  have hlen2 : v2.length = vec.length := sh.len
  have hr2 : right - 1 < v2.length := by omega
  have ht2 : tmp < v2.length := by omega
  refine ⟨(v2.set (right - 1) v2[tmp]).set tmp v2[right - 1], tmp, ?_, ?_, lo, lt_r, ?_, ?_, ?_⟩
  · simp only [partition, vat_ok hl, bind, Except.bind, if_neg hr0, swapAt_ok hl hr1]
    have e2' : forLoop left right (partitionStep vec[left])
        ((vec.set left vec[right - 1]).set (right - 1) vec[left], left) = .ok (v2, tmp) := e2
    simp only [pure, Except.pure, e2', swapAt_ok hr2 ht2]
  · exact sh.swap hr2 ht2 (by omega) (by omega) lo lt_r
  · intro h
    rw [getElem_swap hr2 ht2 _ h ht2]
    simp only [if_true]
    exact last hr2
  · intro i h h1 h2
    have hiv : i < v2.length := by simpa using h
    rw [getElem_swap hr2 ht2 _ h hiv]
    have e1 : i ≠ tmp := by omega
    have e2 : i ≠ right - 1 := by omega
    simp only [e1, e2, if_false]
    exact below i hiv h1 h2
  · intro i h h1 h2
    have hiv : i < v2.length := by simpa using h
    rw [getElem_swap hr2 ht2 _ h hiv]
    have e1 : i ≠ tmp := by omega
    simp only [e1, if_false]
    by_cases e2 : i = right - 1
    · simp only [e2, if_true]
      exact above tmp ht2 (le_refl _) lt_r
    · simp only [e2, if_false]
      exact above i hiv (by omega) h2

end PartitionSpec

section SelectLemmas
variable {α : Type} [LinearOrder α]

/-- The `while` loop of `k_th_smallest` (called with `left = 0`) ends, within
`right - left` iterations, with rank `k` in its sorted place. -/
theorem kthLoop_post (k : Nat) (vec0 : List α) :
    ∀ (fuel : Nat) (vec : List α) (left right : Nat),
      vec.Perm vec0 → left ≤ k → k < right → right ≤ vec.length → right - left ≤ fuel →
      (∀ i j (hi : i < vec.length) (hj : j < vec.length), i < left → left ≤ j → vec[i] ≤ vec[j]) →
      (∀ i j (hi : i < vec.length) (hj : j < vec.length), i < right → right ≤ j → vec[i] ≤ vec[j]) →
      ∃ out, kthLoop k 0 fuel vec left right = .ok out ∧ out.Perm vec0 ∧
        (∀ i (hi : i < out.length) (hk : k < out.length), i < k → out[i] ≤ out[k]) ∧
        (∀ j (hj : j < out.length) (hk : k < out.length), k < j → out[k] ≤ out[j]) := by
  intro fuel
  induction fuel with
  | zero => intro vec left right _ h1 h2 _ h3; omega
  | succ fuel ih =>
    intro vec left right hperm hlk hkr hr hfuel hA hB
    have hne : left ≠ right := by omega
    obtain ⟨out, p, e, sh, hp1, hp2, hpiv, hbelow, habove⟩ :=
      partition_post vec left right (by omega) hr
    have hlen : out.length = vec.length := sh.len
    have hpo : p < out.length := by omega
    have hlv : left < vec.length := by omega
    have hA' : ∀ i j (hi : i < out.length) (hj : j < out.length), i < left → left ≤ j →
        out[i] ≤ out[j] := by
      intro i j hi hj h1 h2
      rw [sh.outside i hi (by omega) (Or.inl h1)]
      by_cases hjr : j < right
      · obtain ⟨j', hj', h3, _, e'⟩ := sh.inside j hj h2 hjr
        rw [e']; exact hA i j' _ hj' h1 h3
      · rw [sh.outside j hj (by omega) (Or.inr (by omega))]
        exact hA i j _ _ h1 h2
    have hB' : ∀ i j (hi : i < out.length) (hj : j < out.length), i < right → right ≤ j →
        out[i] ≤ out[j] := by
      intro i j hi hj h1 h2
      rw [sh.outside j hj (by omega) (Or.inr h2)]
      by_cases hil : i < left
      · rw [sh.outside i hi (by omega) (Or.inl hil)]
        exact hB i j _ _ h1 h2
      · obtain ⟨i', hi', _, h3, e'⟩ := sh.inside i hi (by omega) h1
        rw [e']; exact hB i' j hi' _ h3 h2
    have hL : ∀ i (hi : i < out.length), i ≤ p → out[i] ≤ out[p] := by
      intro i hi h1
      by_cases hil : i < left
      · exact hA' i p hi hpo hil hp1
      · by_cases hip : i = p
        · subst hip; exact le_refl _
        · rw [hpiv hpo]
          exact le_of_lt (hbelow i hi (by omega) (by omega))
    have hR : ∀ j (hj : j < out.length), p ≤ j → out[p] ≤ out[j] := by
      intro j hj h1
      by_cases hjr : j < right
      · by_cases hjp : j = p
        · subst hjp; exact le_refl _
        · rw [hpiv hpo]
          exact habove j hj (by omega) hjr
      · exact hB' p j hpo hj hp2 (by omega)
    simp only [kthLoop, if_neg hne, e, bind, Except.bind, Nat.add_zero]
    by_cases h1 : p > k
    · simp only [if_pos h1]
      exact ih out left p (sh.perm.trans hperm) hlk h1 (by omega) (by omega) hA'
        (fun i j hi hj h2 h3 => le_trans (hL i hi (by omega)) (hR j hj h3))
    · by_cases h2 : p < k
      · simp only [if_neg h1, if_pos h2]
        exact ih out (p + 1) right (sh.perm.trans hperm) (by omega) hkr (by omega) (by omega)
          (fun i j hi hj h3 h4 => le_trans (hL i hi (by omega)) (hR j hj (by omega))) hB'
      · have hpk : p = k := by omega
        subst hpk
        simp only [if_neg h1, if_neg h2, pure, Except.pure]
        exact ⟨out, rfl, sh.perm.trans hperm, fun i hi hk h3 => hL i hi (by omega),
          fun j hj hk h3 => hR j hj (by omega)⟩

/-- A rearrangement whose entry at `k` is at least the entries before it and at most the
entries after it holds at `k` what the sorted list holds at `k`. -/
theorem getElem_eq_sorted_of_pivot (out s : List α) (k : Nat) (hk : k < out.length)
    (hperm : out.Perm s) (hs : s.Sorted (· ≤ ·))
    (hL : ∀ i (hi : i < out.length), i < k → out[i] ≤ out[k])
    (hR : ∀ j (hj : j < out.length), k < j → out[k] ≤ out[j]) :
    s[k]? = some out[k] := by
  let A := (out.take k).insertionSort (· ≤ ·)
  let B := (out.drop (k + 1)).insertionSort (· ≤ ·)
  have hA : ∀ a ∈ A, a ≤ out[k] := by
    intro a ha
    have ha' : a ∈ out.take k := (List.perm_insertionSort _ _).mem_iff.mp ha
    obtain ⟨i, hi, rfl⟩ := List.mem_iff_getElem.mp ha'
    rw [List.getElem_take]
    have hi' : i < k := by
      have := hi; simp at this; omega
    exact hL i (by omega) hi'
  have hB : ∀ b ∈ B, out[k] ≤ b := by
    intro b hb
    have hb' : b ∈ out.drop (k + 1) := (List.perm_insertionSort _ _).mem_iff.mp hb
    obtain ⟨j, hj, rfl⟩ := List.mem_iff_getElem.mp hb'
    rw [List.getElem_drop]
    have hj' : k + 1 + j < out.length := by
      have := hj; simp at this; omega
    exact hR (k + 1 + j) hj' (by omega)
  have hsorted : (A ++ out[k] :: B).Sorted (· ≤ ·) := by
    refine List.pairwise_append.mpr ⟨List.sorted_insertionSort _ _, ?_, ?_⟩
    · exact List.pairwise_cons.mpr ⟨hB, List.sorted_insertionSort _ _⟩
    · intro a ha b hb
      rcases List.mem_cons.mp hb with rfl | hb
      · exact hA a ha
      · exact le_trans (hA a ha) (hB b hb)
  have hsplit : out = out.take k ++ out[k] :: out.drop (k + 1) := by
    rw [List.getElem_cons_drop, List.take_append_drop]
  have hperm' : (A ++ out[k] :: B).Perm s := by
    refine List.Perm.trans ?_ hperm
    conv_rhs => rw [hsplit]
    exact List.Perm.append (List.perm_insertionSort _ _)
      (List.Perm.cons _ (List.perm_insertionSort _ _))
  have heq : A ++ out[k] :: B = s := List.eq_of_perm_of_sorted hperm' hsorted hs
  have hAlen : A.length = k := by
    simp only [A, List.length_insertionSort, List.length_take]; omega
  rw [← heq, List.getElem?_append_right (by omega), hAlen]
  simp

end SelectLemmas

section SelectionTheorems
variable {α : Type} [LinearOrder α]

/-- On a non-empty vector and a rank `k` inside it, `k_th_smallest(vec, k, 0, vec.size())`
returns, and what it returns sits at position `k` of every ascending rearrangement. -/
theorem k_th_smallest_post (vec : List α) (k fuel : Nat) (hk : k < vec.length)
    (hfuel : vec.length ≤ fuel) :
    ∃ x, k_th_smallest fuel vec k 0 vec.length = .ok x ∧
      ∀ s : List α, s.Perm vec → s.Sorted (· ≤ ·) → s[k]? = some x := by
  obtain ⟨out, e, hperm, hL, hR⟩ := kthLoop_post k vec fuel vec 0 vec.length
    (List.Perm.refl _) (Nat.zero_le _) hk (le_refl _) (by omega)
    (fun i j _ _ h _ => absurd h (Nat.not_lt_zero _))
    (fun i j _ hj _ h => absurd hj (by omega))
  have hko : k < out.length := by rw [hperm.length_eq]; exact hk
  refine ⟨out[k], ?_, ?_⟩
  · simp only [k_th_smallest, e, bind, Except.bind, vat_ok hko]
  · intro s hs hsorted
    exact getElem_eq_sorted_of_pivot out s k hko (hperm.trans hs.symm) hsorted
      (fun i hi h => hL i hi hko h) (fun j hj h => hR j hj hko h)

/-- C1: for a non-empty `vec` and a rank `k < vec.size()`, the call
`k_th_smallest(vec, k, 0, vec.size())` returns (its loop needs at most `vec.size()`
iterations) the element at position `k` of `vec` sorted ascending, duplicates
included. -/
theorem k_th_smallest_is_sorted_rank (vec : List α) (k fuel : Nat) (hk : k < vec.length)
    (hfuel : vec.length ≤ fuel) :
    ∃ x, k_th_smallest fuel vec k 0 vec.length = .ok x ∧
      (vec.insertionSort (· ≤ ·))[k]? = some x ∧
      ∀ s : List α, s.Perm vec → s.Sorted (· ≤ ·) → s[k]? = some x := by
  obtain ⟨x, e, h⟩ := k_th_smallest_post vec k fuel hk hfuel
  exact ⟨x, e, h _ (List.perm_insertionSort _ _) (List.sorted_insertionSort _ _), h⟩

/-- C1 at `[5, 1, 5, 2, 2, 1, 9]`, rank 4: the sorted vector is `[1, 1, 2, 2, 5, 5, 9]`. -/
theorem k_th_smallest_is_sorted_rank_witness :
    (4 < ([5, 1, 5, 2, 2, 1, 9] : List Nat).length ∧
      ([5, 1, 5, 2, 2, 1, 9] : List Nat).length ≤ 7) ∧
    ∃ x, k_th_smallest 7 ([5, 1, 5, 2, 2, 1, 9] : List Nat) 4 0 7 = .ok x ∧
      (([5, 1, 5, 2, 2, 1, 9] : List Nat).insertionSort (· ≤ ·))[4]? = some x ∧
      ∀ s : List Nat, s.Perm [5, 1, 5, 2, 2, 1, 9] → s.Sorted (· ≤ ·) → s[4]? = some x :=
  ⟨by decide, k_th_smallest_is_sorted_rank [5, 1, 5, 2, 2, 1, 9] 4 7 (by decide) (by decide)⟩

end SelectionTheorems

section LoopLemmas
variable {α β : Type}

theorem overwrite_zero (f : Nat → α) (v : List α) : overwrite 0 f v = v := by
  simp [overwrite]

theorem length_overwrite (n : Nat) (f : Nat → α) (v : List α) (hn : n ≤ v.length) :
    (overwrite n f v).length = v.length := by
  simp [overwrite]; omega

theorem overwrite_succ (j : Nat) (f : Nat → α) (v : List α) (hj : j < v.length) :
    (overwrite j f v).set j (f j) = overwrite (j + 1) f v := by
  simp only [overwrite]
  rw [List.set_append_right _ _ (by simp)]
  simp only [List.length_map, List.length_range, Nat.sub_self]
  rw [← List.getElem_cons_drop v j hj]
  simp [List.range_succ]
  rw [← List.getElem_cons_drop v j hj]
  rfl

theorem overwrite_full (f : Nat → α) (v : List α) :
    overwrite v.length f v = (List.range v.length).map f := by
  simp [overwrite]

theorem getElem?_overwrite_lt {n : Nat} (f : Nat → α) (v : List α) {i : Nat} (h : i < n) :
    (overwrite n f v)[i]? = some (f i) := by
  simp only [overwrite]
  rw [List.getElem?_append_left (by simpa using h)]
  simp [h, List.getElem?_range h]

theorem getElem?_overwrite_ge {n : Nat} (f : Nat → α) (v : List α) {i : Nat} (h : n ≤ i) :
    (overwrite n f v)[i]? = v[i]? := by
  simp only [overwrite]
  rw [List.getElem?_append_right (by simpa using h)]
  have : n + (i - n) = i := by omega
  simp [this]

theorem idx_overwrite_lt {n : Nat} (f : Nat → α) (v : List α) {i : Nat} (h : i < n) :
    idx (overwrite n f v) i = .ok (f i) := by
  simp [idx, getElem?_overwrite_lt f v h]

theorem idx_overwrite_ge {n : Nat} (f : Nat → α) (v : List α) {i : Nat} (h : n ≤ i)
    (hi : i < v.length) : idx (overwrite n f v) i = .ok v[i] := by
  simp [idx, getElem?_overwrite_ge f v h, hi]

theorem put_overwrite {n : Nat} (f : Nat → α) (v : List α) {i : Nat} (x : α)
    (hn : n ≤ v.length) (hi : i < v.length) :
    put (overwrite n f v) i x = .ok ((overwrite n f v).set i x) := by
  apply put_ok
  rw [length_overwrite n f v hn]; exact hi

/-- A loop whose iteration `i` stores `f i` at index `i` overwrites the first `n`
entries. -/
theorem forLoop_overwrite (n : Nat) (v : List α) (f : Nat → α) (body : Nat → List α → Res (List α))
    (hbody : ∀ i, i < n → body i (overwrite i f v) = .ok ((overwrite i f v).set i (f i)))
    (hn : n ≤ v.length) :
    forLoop 0 n body v = .ok (overwrite n f v) := by
  obtain ⟨t, e, h⟩ := forLoop_inv body (fun j s => s = overwrite j f v) 0 n (Nat.zero_le _) v
    (overwrite_zero f v).symm
    (fun j t _ hj hI => by
      subst hI
      exact ⟨_, hbody j hj, overwrite_succ j f v (by omega)⟩)
  rw [e, h]

/-- A loop whose iteration `i` adds `g i` to the accumulator computes a sum. -/
theorem forLoop_sum {K : Type} [AddCommMonoid K] (n : Nat) (g : Nat → K)
    (body : Nat → K → Res K) (a : K)
    (hbody : ∀ i acc, i < n → body i acc = .ok (acc + g i)) :
    forLoop 0 n body a = .ok (a + ∑ i ∈ Finset.range n, g i) := by
  obtain ⟨t, e, h⟩ := forLoop_inv body (fun j s => s = a + ∑ i ∈ Finset.range j, g i) 0 n
    (Nat.zero_le _) a (by simp)
    (fun j t _ hj hI => by
      subst hI
      exact ⟨_, hbody j _ hj, by simp only [Finset.sum_range_succ, add_assoc]⟩)
  rw [e, h]

theorem mapRows_ok (body : α → Res β) (g : α → β) (l : List α)
    (h : ∀ x ∈ l, body x = .ok (g x)) : mapRows body l = .ok (l.map g) := by
  induction l with
  | nil => rfl
  | cons x xs ih =>
    have h1 := h x (List.mem_cons_self _ _)
    have h2 := ih (fun y hy => h y (List.mem_cons_of_mem _ hy))
    simp only [mapRows, h1, h2, bind, Except.bind, pure, Except.pure, List.map_cons]

theorem mapRows_error (body : α → Res β) (l : List α) (x : α) (hx : x ∈ l) (e : Fault)
    (h : body x = .error e) : ∃ e', mapRows body l = .error e' := by
  induction l with
  | nil => cases hx
  | cons y ys ih =>
    simp only [mapRows, bind, Except.bind]
    cases hy : body y with
    | error e1 => exact ⟨e1, rfl⟩
    | ok r =>
      rcases List.mem_cons.mp hx with rfl | hx'
      · rw [h] at hy; cases hy
      · obtain ⟨e', he'⟩ := ih hx'
        simp only [he']
        exact ⟨e', rfl⟩

end LoopLemmas

section RowLemmas
variable {K : Type} [LinearOrderedField K]

theorem entry1_eq_getElem (v : List K) (i : Nat) (h : i < v.length) : entry1 v i = v[i] := by
  simp [entry1, List.getD_eq_getElem?_getD, List.getElem?_eq_getElem h]

theorem entry1_overwrite (n : Nat) (f : Nat → K) (v : List K) (i : Nat) :
    entry1 (overwrite n f v) i = if i < n then f i else entry1 v i := by
  simp only [entry1, List.getD_eq_getElem?_getD]
  by_cases h : i < n
  · simp [getElem?_overwrite_lt f v h, h]
  · simp [getElem?_overwrite_ge f v (Nat.le_of_not_lt h), h]

theorem getD_map_of_lt {α β : Type} (g : α → β) (l : List α) (b : Nat) (hb : b < l.length)
    (d : α) (d' : β) : (l.map g).getD b d' = g (l.getD b d) := by
  simp [List.getD_eq_getElem?_getD, List.getElem?_eq_getElem hb]

theorem getD_mem {α : Type} (l : List α) (b : Nat) (hb : b < l.length) (d : α) :
    l.getD b d ∈ l := by
  simp [List.getD_eq_getElem?_getD, List.getElem?_eq_getElem hb]

/-- The loop `for (i = 0; i < n; i++) ret[i] -= c`. -/
theorem subLoop_eq (n : Nat) (row : List K) (c : K) (hn : n ≤ row.length) :
    forLoop 0 n (fun i ret => do
      let x ← idx ret i
      put ret i (x - c)) row = .ok (overwrite n (fun i => entry1 row i - c) row) := by
  apply forLoop_overwrite _ _ _ _ _ hn
  intro i hi
  have hi' : i < row.length := by omega
  simp only [idx_overwrite_ge _ row (le_refl i) hi', bind, Except.bind,
    put_overwrite _ row _ (by omega : i ≤ row.length) hi', entry1_eq_getElem row i hi']

/-- The loop `for (i = 0; i < n; i++) acc += row[i]`. -/
theorem sumLoop_eq (n : Nat) (row : List K) (a : K) (hn : n ≤ row.length) :
    forLoop 0 n (fun i mean => do
      let x ← idx row i
      pure (mean + x)) a = .ok (a + ∑ i ∈ Finset.range n, entry1 row i) := by
  apply forLoop_sum
  intro i acc hi
  have hi' : i < row.length := by omega
  simp only [idx_ok hi', bind, Except.bind, pure, Except.pure, entry1_eq_getElem row i hi']

/-- What `MeanNormalization::forward` does to a row: the sum of the first `len` entries,
divided by the length of the whole row, is taken off the first `len` entries. -/
theorem MeanNormalization.mean_forwardRow_eq (L : MeanNormalization) (row : List K)
    (hlen : L.len ≤ row.length) :
    L.forwardRow row = .ok (overwrite L.len
      (fun i => entry1 row i - (∑ j ∈ Finset.range L.len, entry1 row j) / (row.length : K))
      row) := by
  rw [MeanNormalization.forwardRow, sumLoop_eq L.len row 0 hlen, ok_bind]
  simp only [zero_add]
  exact subLoop_eq L.len row _ hlen

/-- What `CenterNormalization::forward` does to a row. -/
theorem CenterNormalization.center_forwardRow_eq (fuel : Nat) (L : CenterNormalization)
    (row : List K) (h1 : 1 ≤ row.length) (hlen : L.len ≤ row.length)
    (hfuel : row.length ≤ fuel) :
    ∃ c, (row.insertionSort (· ≤ ·))[row.length / 2]? = some c ∧
      L.forwardRow fuel row = .ok (overwrite L.len (fun i => entry1 row i - c) row) := by
  obtain ⟨c, e, hc⟩ := k_th_smallest_post row (row.length / 2) fuel
    (Nat.div_lt_self (by omega) (by decide)) hfuel
  refine ⟨c, hc _ (List.perm_insertionSort _ _) (List.sorted_insertionSort _ _), ?_⟩
  rw [CenterNormalization.forwardRow, e, ok_bind]
  exact subLoop_eq L.len row c hlen

end RowLemmas

section NormalizationTheorems
variable {K : Type} [LinearOrderedField K]

/-- C2: on a batch whose rows have length `n ≥ 1` and `len ≤ n`,
`CenterNormalization(len).forward` returns a batch of the same shape with
`out[b][i] = x[b][i] - c` for `i < len` and `out[b][i] = x[b][i]` for `i ≥ len`, where
`c` is the entry at index `n / 2` of the row sorted ascending; every entry stays at its
position. -/
theorem CenterNormalization.forward_subtracts_center (L : CenterNormalization)
    (data : List (List K)) (fuel : Nat)
    (hrows : ∀ x ∈ data, 1 ≤ x.length ∧ L.len ≤ x.length ∧ x.length ≤ fuel) :
    ∃ out, CenterNormalization.forward fuel L data = .ok out ∧ out.length = data.length ∧
      ∀ b, b < data.length →
        ∃ c, ((data.getD b []).insertionSort (· ≤ ·))[(data.getD b []).length / 2]? = some c ∧
          (out.getD b []).length = (data.getD b []).length ∧
          ∀ i, i < (data.getD b []).length →
            entry out b i = if i < L.len then entry data b i - c else entry data b i := by
  classical
  let g : List K → List K := fun row =>
    overwrite L.len
      (fun i => entry1 row i - ((row.insertionSort (· ≤ ·)).getD (row.length / 2) 0)) row
  have hg : ∀ x ∈ data, L.forwardRow fuel x = .ok (g x) := by
    intro x hx
    obtain ⟨h1, h2, h3⟩ := hrows x hx
    obtain ⟨c, hc, e⟩ := CenterNormalization.center_forwardRow_eq fuel L x h1 h2 h3
    rw [e]
    simp only [g, List.getD_eq_getElem?_getD, hc, Option.getD_some]
  refine ⟨data.map g, mapRows_ok _ g data hg, by simp, ?_⟩
  intro b hb
  have hmem := getD_mem data b hb []
  obtain ⟨h1, h2, h3⟩ := hrows _ hmem
  obtain ⟨c, hc, -⟩ := CenterNormalization.center_forwardRow_eq fuel L _ h1 h2 h3
  refine ⟨c, hc, ?_, ?_⟩
  · rw [getD_map_of_lt g data b hb [] []]
    exact length_overwrite _ _ _ h2
  · intro i _
    simp only [entry]
    rw [getD_map_of_lt g data b hb [] []]
    have := entry1_overwrite L.len
      (fun i => entry1 (data.getD b []) i -
        (((data.getD b []).insertionSort (· ≤ ·)).getD ((data.getD b []).length / 2) 0))
      (data.getD b []) i
    simp only [entry1] at this
    have hcD : ((data.getD b []).insertionSort (· ≤ ·)).getD ((data.getD b []).length / 2) 0
        = c := by
      rw [List.getD_eq_getElem?_getD, hc, Option.getD_some]
    simp only [g, entry1]
    rw [this, hcD]

/-- C2 at the row `[5, 1, 3, 2, 4]` with `len = 5`: the sorted row is `[1, 2, 3, 4, 5]`,
its entry at index 2 is 3, and the output is `[2, -2, 0, -1, 1]`. -/
theorem CenterNormalization.forward_subtracts_center_witness :
    (∀ x ∈ ([[5, 1, 3, 2, 4]] : List (List ℚ)),
      1 ≤ x.length ∧ (CenterNormalization.mk 5).len ≤ x.length ∧ x.length ≤ 5) ∧
    (∃ out, CenterNormalization.forward 5 ⟨5⟩ ([[5, 1, 3, 2, 4]] : List (List ℚ)) = .ok out ∧
      out.length = ([[5, 1, 3, 2, 4]] : List (List ℚ)).length ∧
      ∀ b, b < ([[5, 1, 3, 2, 4]] : List (List ℚ)).length →
        ∃ c, ((([[5, 1, 3, 2, 4]] : List (List ℚ)).getD b []).insertionSort (· ≤ ·))[
            (([[5, 1, 3, 2, 4]] : List (List ℚ)).getD b []).length / 2]? = some c ∧
          (out.getD b []).length = (([[5, 1, 3, 2, 4]] : List (List ℚ)).getD b []).length ∧
          ∀ i, i < (([[5, 1, 3, 2, 4]] : List (List ℚ)).getD b []).length →
            entry out b i = if i < (CenterNormalization.mk 5).len
              then entry ([[5, 1, 3, 2, 4]] : List (List ℚ)) b i - c
              else entry ([[5, 1, 3, 2, 4]] : List (List ℚ)) b i) ∧
    CenterNormalization.forward 5 ⟨5⟩ ([[5, 1, 3, 2, 4]] : List (List ℚ)) =
      .ok [[2, -2, 0, -1, 1]] ∧
    (([5, 1, 3, 2, 4] : List ℚ).insertionSort (· ≤ ·))[2]? = some 3 :=
  ⟨by simp,
    CenterNormalization.forward_subtracts_center ⟨5⟩ [[5, 1, 3, 2, 4]] 5 (by simp),
    by with_unfolding_all decide, by with_unfolding_all decide⟩

/-- C3 (the code departs from the claim): with `len = 2` on the row `[1, 3, 10]`,
`MeanNormalization::forward` divides the sum `1 + 3` by the row length 3 and returns
`[-1/3, 5/3, 10]`; the mean of the first two features is 2, so the claim asks for
`[-1, 1, 10]`. -/
theorem MeanNormalization.forward_divides_by_row_length :
    MeanNormalization.forward ⟨2⟩ ([[1, 3, 10]] : List (List ℚ)) = .ok [[-1/3, 5/3, 10]] ∧
    meanOfFirst 2 ([1, 3, 10] : List ℚ) = 2 ∧
    ([1 - meanOfFirst 2 [1, 3, 10], 3 - meanOfFirst 2 [1, 3, 10], 10] : List ℚ) = [-1, 1, 10] :=
  ⟨by with_unfolding_all decide, by with_unfolding_all decide, by with_unfolding_all decide⟩

end NormalizationTheorems

section FullyConnectedLemmas
variable {K : Type} [LinearOrderedField K]

theorem length_zeros (n : Nat) : (zeros n : List K).length = n := by simp [zeros]

theorem entry1_zeros (n i : Nat) : entry1 (zeros n : List K) i = 0 := by
  simp only [entry1, zeros, List.getD_eq_getElem?_getD]
  by_cases h : i < n
  · simp [List.getElem?_replicate, h]
  · simp [List.getElem?_replicate, h]

theorem idx_eq_entry1 (v : List K) (i : Nat) (h : i < v.length) : idx v i = .ok (entry1 v i) := by
  rw [idx_ok h, entry1_eq_getElem v i h]

theorem idx_set_self {α : Type} (v : List α) (i : Nat) (a : α) (h : i < v.length) :
    idx (v.set i a) i = .ok a := by
  simp [idx, h]

/-- A loop whose iteration `j` adds `g j` to the entry at `i`. -/
theorem forLoop_accum (n : Nat) (v : List K) (i : Nat) (hi : i < v.length) (g : Nat → K)
    (body : Nat → List K → Res (List K))
    (hbody : ∀ j a, j < n → body j (v.set i a) = .ok (v.set i (a + g j))) :
    forLoop 0 n body v = .ok (v.set i (entry1 v i + ∑ j ∈ Finset.range n, g j)) := by
  obtain ⟨t, e, h⟩ := forLoop_inv body
    (fun j s => s = v.set i (entry1 v i + ∑ j' ∈ Finset.range j, g j')) 0 n (Nat.zero_le _) v
    (by simp [entry1_eq_getElem v i hi, set_same hi])
    (fun j t _ hj hI => by
      subst hI
      exact ⟨_, hbody j _ hj, by simp only [Finset.sum_range_succ, add_assoc]⟩)
  rw [e, h]

theorem getD_row_length {α : Type} (t : List (List α)) (n : Nat) (h : ∀ r ∈ t, r.length = n)
    (i : Nat) (hi : i < t.length) : (t.getD i []).length = n :=
  h _ (getD_mem t i hi [])

theorem idx2_eq_entry (t : List (List K)) (i j : Nat) (hi : i < t.length)
    (hj : j < (t.getD i []).length) : idx2 t i j = .ok (entry t i j) := by
  have h1 : idx t i = .ok (t.getD i []) := by
    simp [idx, List.getD_eq_getElem?_getD, List.getElem?_eq_getElem hi]
  rw [idx2, h1, ok_bind, idx_eq_entry1 _ _ hj]
  rfl

/-- The row that `FullyConnected::forward` builds from an input row. -/
theorem FullyConnected.fc_forwardRow_eq (L : FullyConnected K) (hwf : L.WF) (row : List K)
    (hrow : row.length = L.inlen) :
    L.forwardRow row = .ok ((List.range L.outlen).map (fun i =>
      (∑ j ∈ Finset.range L.inlen, entry L.weight i j * entry1 row j) +
        (if L.usebias then entry1 L.bias i else 0))) := by
  have hne : ¬ row.length ≠ L.inlen := by simp [hrow]
  rw [FullyConnected.forwardRow, if_neg hne]
  show forLoop 0 L.outlen _ (zeros L.outlen) = _
  have hz : (zeros L.outlen : List K).length = L.outlen := length_zeros _
  rw [forLoop_overwrite L.outlen (zeros L.outlen) (fun i =>
      (∑ j ∈ Finset.range L.inlen, entry L.weight i j * entry1 row j) +
        (if L.usebias then entry1 L.bias i else 0)) _ _ (by rw [hz])]
  · have := overwrite_full (fun i =>
      (∑ j ∈ Finset.range L.inlen, entry L.weight i j * entry1 row j) +
        (if L.usebias then entry1 L.bias i else 0)) (zeros L.outlen : List K)
    rw [hz] at this
    rw [this]
  · intro i hi
    set s := overwrite i (fun i =>
      (∑ j ∈ Finset.range L.inlen, entry L.weight i j * entry1 row j) +
        (if L.usebias then entry1 L.bias i else 0)) (zeros L.outlen : List K) with hs
    have hslen : s.length = L.outlen := by
      rw [hs, length_overwrite _ _ _ (by rw [hz]; omega), hz]
    have hsi : entry1 s i = 0 := by
      rw [hs, entry1_overwrite, if_neg (lt_irrefl i), entry1_zeros]
    have hinner := forLoop_accum L.inlen s i (by omega)
      (fun j => entry L.weight i j * entry1 row j)
      (fun j ret => do
        let w ← idx2 L.weight i j
        let x ← idx row j
        let r ← idx ret i
        put ret i (r + w * x))
      (fun j a hj => by
        have hw : idx2 L.weight i j = .ok (entry L.weight i j) :=
          idx2_eq_entry _ _ _ (by rw [hwf.weight_len]; exact hi)
            (by rw [getD_row_length _ _ hwf.weight_row i (by rw [hwf.weight_len]; exact hi)]
                exact hj)
        beta_reduce
        rw [hw, ok_bind, idx_eq_entry1 row j (by omega), ok_bind,
          idx_set_self s i a (by omega), ok_bind,
          put_ok _ (by simpa using (by omega : i < s.length))]
        simp)
    rw [hinner, ok_bind, hsi, zero_add]
    by_cases hb : L.usebias = true
    · simp only [hb, if_true]
      rw [idx_eq_entry1 L.bias i (by rw [hwf.bias_len]; exact hi), ok_bind,
        idx_set_self s i _ (by omega), ok_bind,
        put_ok _ (by simpa using (by omega : i < s.length))]
      simp
    · simp only [hb, if_false]
      simp [pure, Except.pure]

end FullyConnectedLemmas

section FullyConnectedForward
variable {K : Type} [LinearOrderedField K]

theorem entry1_map_range (n : Nat) (f : Nat → K) (i : Nat) (hi : i < n) :
    entry1 ((List.range n).map f) i = f i := by
  simp [entry1, List.getD_eq_getElem?_getD, List.getElem?_range hi]

theorem entry_map {α : Type} (g : α → List K) (l : List α) (b i : Nat) (hb : b < l.length)
    (d : α) : entry (l.map g) b i = entry1 (g (l.getD b d)) i := by
  simp only [entry, entry1]
  rw [getD_map_of_lt g l b hb d []]

/-- C4: on a batch whose rows all have length `inlen`, `FullyConnected::forward` returns
a batch of the same size with rows of length `outlen`, where
`output[b][i] = Σ_{j < inlen} weight[i][j] * input[b][j]`, plus `bias[i]` exactly when
bias is enabled; it caches the input and changes nothing else. -/
theorem FullyConnected.forward_affine (L : FullyConnected K) (hwf : L.WF)
    (data : List (List K)) (hrows : ∀ x ∈ data, x.length = L.inlen) :
    ∃ out, L.forward data = .ok (out, { L with lastdata := data }) ∧
      out.length = data.length ∧
      ∀ b, b < data.length →
        (out.getD b []).length = L.outlen ∧
        ∀ i, i < L.outlen →
          entry out b i = (∑ j ∈ Finset.range L.inlen, entry L.weight i j * entry data b j) +
            (if L.usebias then entry1 L.bias i else 0) := by
  let g : List K → List K := fun row => (List.range L.outlen).map (fun i =>
      (∑ j ∈ Finset.range L.inlen, entry L.weight i j * entry1 row j) +
        (if L.usebias then entry1 L.bias i else 0))
  have hg : mapRows L.forwardRow data = .ok (data.map g) :=
    mapRows_ok _ g data (fun x hx => FullyConnected.fc_forwardRow_eq L hwf x (hrows x hx))
  refine ⟨data.map g, ?_, by simp, ?_⟩
  · rw [FullyConnected.forward, hg, ok_bind]
    rfl
  · intro b hb
    refine ⟨?_, ?_⟩
    · rw [getD_map_of_lt g data b hb [] []]
      simp [g]
    · intro i hi
      rw [entry_map g data b i hb [], entry1_map_range _ _ _ hi]
      rfl

/-- C4 at the 2-in/1-out layer with bias disabled and `weight = [[1, 2]]`:
`forward([[3, 4]]) = [[11]]`, whatever the (unused) bias holds. -/
theorem FullyConnected.forward_affine_witness :
    (FullyConnected.WF (⟨false, 2, 1, [[1, 2]], [], [5], [], []⟩ : FullyConnected ℚ) ∧
      ∀ x ∈ ([[3, 4]] : List (List ℚ)), x.length = 2) ∧
    (∃ out, (⟨false, 2, 1, [[1, 2]], [], [5], [], []⟩ : FullyConnected ℚ).forward [[3, 4]] =
        .ok (out, ⟨false, 2, 1, [[1, 2]], [], [5], [], [[3, 4]]⟩) ∧
      out.length = ([[3, 4]] : List (List ℚ)).length ∧
      ∀ b, b < ([[3, 4]] : List (List ℚ)).length →
        (out.getD b []).length = 1 ∧
        ∀ i, i < 1 →
          entry out b i = (∑ j ∈ Finset.range 2,
              entry ([[1, 2]] : List (List ℚ)) i j * entry ([[3, 4]] : List (List ℚ)) b j) +
            (if false = true then entry1 ([5] : List ℚ) i else 0)) ∧
    ((⟨false, 2, 1, [[1, 2]], [], [5], [], []⟩ : FullyConnected ℚ).forward [[3, 4]]).map
      Prod.fst = .ok [[11]] :=
  ⟨⟨⟨rfl, by simp, rfl⟩, by simp⟩,
    FullyConnected.forward_affine ⟨false, 2, 1, [[1, 2]], [], [5], [], []⟩
      ⟨rfl, by simp, rfl⟩ [[3, 4]] (by simp),
    by with_unfolding_all decide⟩

end FullyConnectedForward

section FullyConnectedBackwardLemmas
variable {K : Type} [LinearOrderedField K]

theorem idx_getD {α : Type} (t : List α) (i : Nat) (hi : i < t.length) (d : α) :
    idx t i = .ok (t.getD i d) := by
  simp [idx, List.getD_eq_getElem?_getD, List.getElem?_eq_getElem hi]

theorem getD_set_self {α : Type} (t : List α) (i : Nat) (hi : i < t.length) (r d : α) :
    (t.set i r).getD i d = r := by
  simp [List.getD_eq_getElem?_getD, hi]

theorem idx2_set_self (t : List (List K)) (i j : Nat) (hi : i < t.length) (r : List K)
    (hj : j < r.length) : idx2 (t.set i r) i j = .ok (entry1 r j) := by
  rw [idx2, idx_set_self t i r hi, ok_bind, idx_eq_entry1 r j hj]

theorem put2_set_self {α : Type} (t : List (List α)) (i j : Nat) (hi : i < t.length) (r : List α)
    (hj : j < r.length) (x : α) : put2 (t.set i r) i j x = .ok (t.set i (r.set j x)) := by
  rw [put2, idx_set_self t i r hi, ok_bind, put_ok x hj, ok_bind,
    put_ok _ (by simpa using hi)]
  simp

theorem getD_overwrite_self {α : Type} (n : Nat) (f : Nat → α) (v : List α) (d : α) :
    (overwrite n f v).getD n d = v.getD n d := by
  simp only [List.getD_eq_getElem?_getD, getElem?_overwrite_ge f v (le_refl n)]

theorem getD_replicate {α : Type} (n i : Nat) (hi : i < n) (a d : α) :
    (List.replicate n a).getD i d = a := by
  simp [List.getD_eq_getElem?_getD, List.getElem?_replicate, hi]

/-- A loop whose iteration `j` stores `f j` at `t[i][j]` overwrites the first `n` entries
of the row `t[i]`. -/
theorem forLoop_put2 {α : Type} (n : Nat) (t : List (List α)) (i : Nat) (f : Nat → α)
    (body : Nat → List (List α) → Res (List (List α)))
    (hbody : ∀ j, j < n → body j (t.set i (overwrite j f (t.getD i []))) =
      .ok (t.set i ((overwrite j f (t.getD i [])).set j (f j))))
    (hi : i < t.length) (hn : n ≤ (t.getD i []).length) :
    forLoop 0 n body t = .ok (t.set i (overwrite n f (t.getD i []))) := by
  obtain ⟨s, e, h⟩ := forLoop_inv body (fun j s => s = t.set i (overwrite j f (t.getD i [])))
    0 n (Nat.zero_le _) t
    (by
      show t = t.set i (overwrite 0 f (t.getD i []))
      rw [overwrite_zero, List.getD_eq_getElem?_getD, List.getElem?_eq_getElem hi,
        Option.getD_some, set_same hi])
    (fun j s _ hj hI => by
      subst hI
      refine ⟨_, hbody j hj, ?_⟩
      beta_reduce
      rw [overwrite_succ j f _ (by omega)])
  rw [e, h]

/-- The row `inputgrad[b]` that `FullyConnected::backward` builds. -/
theorem FullyConnected.inputgradRow_eq (L : FullyConnected K) (hwf : L.WF)
    (data : List (List K)) (b : Nat) (hb : b < data.length)
    (hrow : (data.getD b []).length = L.outlen) :
    L.inputgradRow data b = .ok ((List.range L.inlen).map (fun i =>
      ∑ j ∈ Finset.range L.outlen, entry L.weight j i * entry data b j)) := by
  have hne : ¬ (data.getD b []).length ≠ L.outlen := fun h => h hrow
  rw [FullyConnected.inputgradRow, idx_getD data b hb [], ok_bind, if_neg hne]
  show forLoop 0 L.inlen _ (zeros L.inlen) = _
  have hz : (zeros L.inlen : List K).length = L.inlen := length_zeros _
  rw [forLoop_overwrite L.inlen (zeros L.inlen) (fun i =>
      ∑ j ∈ Finset.range L.outlen, entry L.weight j i * entry data b j) _ _ (by rw [hz])]
  · have := overwrite_full (fun i =>
      ∑ j ∈ Finset.range L.outlen, entry L.weight j i * entry data b j) (zeros L.inlen : List K)
    rw [hz] at this
    rw [this]
  · intro i hi
    beta_reduce
    rw [forLoop_sum L.outlen (fun j => entry L.weight j i * entry data b j) _ 0
      (fun j acc hj => by
        have hw : idx2 L.weight j i = .ok (entry L.weight j i) :=
          idx2_eq_entry _ _ _ (by rw [hwf.weight_len]; exact hj)
            (by rw [getD_row_length _ _ hwf.weight_row j (by rw [hwf.weight_len]; exact hj)]
                exact hi)
        rw [hw, ok_bind, idx_eq_entry1 _ j (by omega), ok_bind]
        rfl), ok_bind, zero_add]
    exact put_overwrite _ _ _ (by rw [hz]; omega) (by rw [hz]; exact hi)

/-- The rows `weightgrad[b]` and `biasgrad[b]` that `FullyConnected::backward` builds. -/
theorem FullyConnected.gradRow_eq (L : FullyConnected K) (data : List (List K)) (b : Nat)
    (hb : b < data.length) (hrow : (data.getD b []).length = L.outlen)
    (hb' : b < L.lastdata.length) (hx : (L.lastdata.getD b []).length = L.inlen) :
    L.gradRow data b = .ok
      ((List.range L.outlen).map (fun i =>
          (List.range L.inlen).map (fun j => entry data b i * entry L.lastdata b j)),
        if L.usebias then (List.range L.outlen).map (fun i => entry data b i)
        else zeros L.outlen) := by
  let F : Nat → List K := fun i =>
    (List.range L.inlen).map (fun j => entry data b i * entry L.lastdata b j)
  let W0 : List (List K) := List.replicate L.outlen (zeros L.inlen)
  have hW0 : W0.length = L.outlen := by simp [W0]
  have hz : (zeros L.outlen : List K).length = L.outlen := length_zeros _
  have hzi : (zeros L.inlen : List K).length = L.inlen := length_zeros _
  obtain ⟨s, e, h⟩ := forLoop_inv
    (fun i (s : List (List K) × List K) => do
      let wg ← forLoop 0 L.inlen (fun j wg => do
        let d ← idx2 data b i
        let x ← idx2 L.lastdata b j
        let g ← idx2 wg i j
        put2 wg i j (g + d * x)) s.1
      if L.usebias then do
        let d ← idx2 data b i
        let g ← idx s.2 i
        let bg ← put s.2 i (g + d)
        pure (wg, bg)
      else pure (wg, s.2))
    (fun i s => s.1 = overwrite i F W0 ∧
      s.2 = if L.usebias then overwrite i (fun i => entry data b i) (zeros L.outlen)
        else zeros L.outlen)
    0 L.outlen (Nat.zero_le _) (W0, zeros L.outlen)
    ⟨(overwrite_zero _ _).symm, by simp [overwrite_zero]⟩
    (fun i s _ hi hI => by
      obtain ⟨s1, s2⟩ := s
      obtain ⟨h1, h2⟩ := hI
      simp only at h1 h2
      subst h1
      have hd : idx2 data b i = .ok (entry data b i) :=
        idx2_eq_entry _ _ _ hb (by rw [hrow]; exact hi)
      have hlen : (overwrite i F W0).length = L.outlen := by
        rw [length_overwrite _ _ _ (by omega), hW0]
      have hrowi : (overwrite i F W0).getD i [] = zeros L.inlen := by
        rw [getD_overwrite_self]
        exact getD_replicate _ _ hi _ _
      have hinner := forLoop_put2 L.inlen (overwrite i F W0) i
        (fun j => entry data b i * entry L.lastdata b j)
        (fun j wg => do
          let d ← idx2 data b i
          let x ← idx2 L.lastdata b j
          let g ← idx2 wg i j
          put2 wg i j (g + d * x))
        (fun j hj => by
          beta_reduce
          have hx' : idx2 L.lastdata b j = .ok (entry L.lastdata b j) :=
            idx2_eq_entry _ _ _ hb' (by rw [hx]; exact hj)
          have hlj : j < (overwrite j (fun j => entry data b i * entry L.lastdata b j)
              ((overwrite i F W0).getD i [])).length := by
            rw [length_overwrite _ _ _ (by rw [hrowi, hzi]; omega), hrowi, hzi]; exact hj
          rw [hd, ok_bind, hx', ok_bind, idx2_set_self _ _ _ (by omega) _ hlj, ok_bind,
            put2_set_self _ _ _ (by omega) _ hlj]
          rw [entry1_overwrite, if_neg (lt_irrefl j), hrowi, entry1_zeros, zero_add])
        (by omega) (by rw [hrowi, hzi])
      have hfull : overwrite L.inlen (fun j => entry data b i * entry L.lastdata b j)
          ((overwrite i F W0).getD i []) = F i := by
        rw [hrowi]
        have := overwrite_full (fun j => entry data b i * entry L.lastdata b j)
          (zeros L.inlen : List K)
        rw [hzi] at this
        exact this
      beta_reduce
      rw [hinner, ok_bind, hfull, overwrite_succ i F W0 (by omega)]
      by_cases hbias : L.usebias = true
      · simp only [hbias, if_true] at h2 ⊢
        subst h2
        rw [hd, ok_bind, idx_overwrite_ge _ _ (le_refl i) (by rw [hz]; exact hi), ok_bind,
          put_overwrite _ _ _ (by rw [hz]; omega) (by rw [hz]; exact hi), ok_bind]
        refine ⟨_, rfl, rfl, ?_⟩
        simp only
        rw [← overwrite_succ i _ _ (by rw [hz]; exact hi)]
        congr 1
        have := entry1_eq_getElem (zeros L.outlen : List K) i (by rw [hz]; exact hi)
        rw [← this, entry1_zeros, zero_add]
      · simp only [hbias, if_false] at h2 ⊢
        subst h2
        exact ⟨_, rfl, rfl, rfl⟩)
  obtain ⟨h1, h2⟩ := h
  obtain ⟨s1, s2⟩ := s
  simp only at h1 h2
  rw [FullyConnected.gradRow, e, h1, h2]
  have e1 := overwrite_full F W0
  rw [hW0] at e1
  rw [e1]
  by_cases hbias : L.usebias = true
  · simp only [hbias, if_true]
    have e2 := overwrite_full (fun i => entry data b i) (zeros L.outlen : List K)
    rw [hz] at e2
    rw [e2]
  · simp [hbias, F]

end FullyConnectedBackwardLemmas

section FullyConnectedBackward
variable {K : Type} [LinearOrderedField K]

theorem entry3_map_range (n : Nat) (F : Nat → List (List K)) (b i j : Nat) (hb : b < n) :
    entry3 ((List.range n).map F) b i j = entry (F b) i j := by
  simp [entry3, entry, List.getD_eq_getElem?_getD, List.getElem?_range hb]

theorem entry_map_range (n : Nat) (F : Nat → List K) (b i : Nat) (hb : b < n) :
    entry ((List.range n).map F) b i = entry1 (F b) i := by
  simp [entry, entry1, List.getD_eq_getElem?_getD, List.getElem?_range hb]

theorem getD_map_range {α : Type} (n : Nat) (F : Nat → α) (b : Nat) (hb : b < n) (d : α) :
    ((List.range n).map F).getD b d = F b := by
  simp [List.getD_eq_getElem?_getD, List.getElem?_range hb]

/-- What `FullyConnected::backward` returns and stores, for a gradient whose shape fits
the cached input. -/
theorem FullyConnected.fc_backward_eq (L : FullyConnected K) (hwf : L.WF)
    (dOut : List (List K)) (hlen : dOut.length = L.lastdata.length)
    (hd : ∀ r ∈ dOut, r.length = L.outlen) (hx : ∀ r ∈ L.lastdata, r.length = L.inlen) :
    L.backward dOut = .ok
      ((List.range dOut.length).map (fun b => (List.range L.inlen).map (fun i =>
          ∑ j ∈ Finset.range L.outlen, entry L.weight j i * entry dOut b j)),
        { L with
          weightgrad := (List.range dOut.length).map (fun b =>
            (List.range L.outlen).map (fun i =>
              (List.range L.inlen).map (fun j => entry dOut b i * entry L.lastdata b j)))
          biasgrad := (List.range dOut.length).map (fun b =>
            if L.usebias then (List.range L.outlen).map (fun i => entry dOut b i)
            else zeros L.outlen) }) := by
  have hne : ¬ dOut.length ≠ L.lastdata.length := fun h => h hlen
  rw [FullyConnected.backward, if_neg hne]
  show (mapRows (L.inputgradRow dOut) (List.range dOut.length) >>= _) = _
  rw [mapRows_ok (L.inputgradRow dOut) _ (List.range dOut.length) (fun b hb => by
    have hb' : b < dOut.length := List.mem_range.mp hb
    exact FullyConnected.inputgradRow_eq L hwf dOut b hb'
      (getD_row_length dOut _ hd b hb')), ok_bind]
  rw [mapRows_ok (L.gradRow dOut) _ (List.range dOut.length) (fun b hb => by
    have hb' : b < dOut.length := List.mem_range.mp hb
    exact FullyConnected.gradRow_eq L dOut b hb' (getD_row_length dOut _ hd b hb')
      (by omega) (getD_row_length L.lastdata _ hx b (by omega))), ok_bind]
  simp only [pure, Except.pure, List.map_map]
  rfl

/-- C5: after `forward(x)` on a batch of rows of length `inlen`, `backward(dOut)` with
`dOut` of shape batch × `outlen` returns
`inputGradient[b][j] = Σ_i weight[i][j] * dOut[b][i]` and leaves
`weightgrad[b][i][j] = dOut[b][i] * x[b][j]` and, with bias enabled,
`biasgrad[b][i] = dOut[b][i]` (zero with bias disabled); whatever the accumulators held
before the call, they hold the same afterwards. -/
theorem FullyConnected.backward_gradients (L : FullyConnected K) (hwf : L.WF)
    (x dOut : List (List K)) (hx : ∀ r ∈ x, r.length = L.inlen)
    (hlen : dOut.length = x.length) (hd : ∀ r ∈ dOut, r.length = L.outlen) :
    ∃ y L1 g L2, L.forward x = .ok (y, L1) ∧ L1.backward dOut = .ok (g, L2) ∧
      g.length = dOut.length ∧ L2.weightgrad.length = dOut.length ∧
      L2.biasgrad.length = dOut.length ∧
      (∀ b, b < dOut.length →
        (g.getD b []).length = L.inlen ∧
        (∀ j, j < L.inlen →
          entry g b j = ∑ i ∈ Finset.range L.outlen, entry L.weight i j * entry dOut b i) ∧
        (∀ i, i < L.outlen → ∀ j, j < L.inlen →
          entry3 L2.weightgrad b i j = entry dOut b i * entry x b j) ∧
        (∀ i, i < L.outlen →
          entry L2.biasgrad b i = if L.usebias then entry dOut b i else 0)) ∧
      (∀ wg0 bg0, ∃ L2', ({ L1 with weightgrad := wg0, biasgrad := bg0 }).backward dOut =
          .ok (g, L2') ∧
        L2'.weightgrad = L2.weightgrad ∧ L2'.biasgrad = L2.biasgrad) := by
  obtain ⟨y, hy, -, -⟩ := FullyConnected.forward_affine L hwf x hx
  have hwf1 : ∀ wg0 bg0, FullyConnected.WF
      ({ L with lastdata := x, weightgrad := wg0, biasgrad := bg0 } : FullyConnected K) :=
    fun _ _ => ⟨hwf.weight_len, hwf.weight_row, hwf.bias_len⟩
  have hb1 := FullyConnected.fc_backward_eq { L with lastdata := x } (hwf1 L.weightgrad L.biasgrad)
    dOut hlen hd hx
  refine ⟨y, _, _, _, hy, hb1, by simp, by simp, by simp, ?_, ?_⟩
  · intro b hb
    refine ⟨?_, ?_, ?_, ?_⟩
    · rw [getD_map_range _ _ _ hb]; simp
    · intro j hj
      rw [entry_map_range _ _ _ _ hb, entry1_map_range _ _ _ hj]
    · intro i hi j hj
      simp only
      rw [entry3_map_range _ _ _ _ _ hb, entry_map_range _ _ _ _ hi, entry1_map_range _ _ _ hj]
    · intro i hi
      simp only
      rw [entry_map_range _ _ _ _ hb]
      by_cases hbias : L.usebias = true
      · simp only [hbias, if_true]
        rw [entry1_map_range _ _ _ hi]
      · simp only [hbias, if_false]
        simp [entry1_zeros]
  · intro wg0 bg0
    have hb2 := FullyConnected.fc_backward_eq
      { L with lastdata := x, weightgrad := wg0, biasgrad := bg0 } (hwf1 wg0 bg0) dOut hlen hd hx
    exact ⟨_, hb2, rfl, rfl⟩

/-- C5 at the 2-in/1-out layer with bias, `weight = [[1, 2]]`, stale accumulators
`[[[9, 9]]]` and `[[9]]`: after `forward([[3, 4]])`, `backward([[2]])` returns `[[2, 4]]`
and leaves `weightgrad = [[[6, 8]]]`, `biasgrad = [[2]]`. -/
theorem FullyConnected.backward_gradients_witness :
    (FullyConnected.WF (⟨true, 2, 1, [[1, 2]], [[[9, 9]]], [5], [[9]], []⟩ : FullyConnected ℚ) ∧
      (∀ r ∈ ([[3, 4]] : List (List ℚ)), r.length = 2) ∧
      ([[2]] : List (List ℚ)).length = ([[3, 4]] : List (List ℚ)).length ∧
      (∀ r ∈ ([[2]] : List (List ℚ)), r.length = 1)) ∧
    (∃ y L1 g L2,
      (⟨true, 2, 1, [[1, 2]], [[[9, 9]]], [5], [[9]], []⟩ : FullyConnected ℚ).forward [[3, 4]] =
        .ok (y, L1) ∧
      L1.backward [[2]] = .ok (g, L2) ∧
      g.length = ([[2]] : List (List ℚ)).length ∧
      L2.weightgrad.length = ([[2]] : List (List ℚ)).length ∧
      L2.biasgrad.length = ([[2]] : List (List ℚ)).length ∧
      (∀ b, b < ([[2]] : List (List ℚ)).length →
        (g.getD b []).length = 2 ∧
        (∀ j, j < 2 →
          entry g b j = ∑ i ∈ Finset.range 1,
            entry ([[1, 2]] : List (List ℚ)) i j * entry ([[2]] : List (List ℚ)) b i) ∧
        (∀ i, i < 1 → ∀ j, j < 2 →
          entry3 L2.weightgrad b i j =
            entry ([[2]] : List (List ℚ)) b i * entry ([[3, 4]] : List (List ℚ)) b j) ∧
        (∀ i, i < 1 →
          entry L2.biasgrad b i =
            if true = true then entry ([[2]] : List (List ℚ)) b i else 0)) ∧
      (∀ wg0 bg0, ∃ L2', ({ L1 with weightgrad := wg0, biasgrad := bg0 }).backward [[2]] =
          .ok (g, L2') ∧
        L2'.weightgrad = L2.weightgrad ∧ L2'.biasgrad = L2.biasgrad)) ∧
    ((⟨true, 2, 1, [[1, 2]], [[[9, 9]]], [5], [[9]], []⟩ : FullyConnected ℚ).forward [[3, 4]]
      >>= fun r => r.2.backward [[2]]).map (fun r => (r.1, r.2.weightgrad, r.2.biasgrad)) =
      .ok ([[2, 4]], [[[6, 8]]], [[2]]) :=
  ⟨⟨⟨rfl, by simp, rfl⟩, by simp, rfl, by simp⟩,
    FullyConnected.backward_gradients ⟨true, 2, 1, [[1, 2]], [[[9, 9]]], [5], [[9]], []⟩
      ⟨rfl, by simp, rfl⟩ [[3, 4]] [[2]] (by simp) rfl (by simp),
    by with_unfolding_all decide⟩

end FullyConnectedBackward

section UpdateLemmas
variable {K : Type} [LinearOrderedField K]

theorem vec_eq_map_range (v : List K) : v = (List.range v.length).map (fun i => entry1 v i) := by
  apply List.ext_getElem (by simp)
  intro n h1 h2
  simp [entry1, List.getD_eq_getElem?_getD, List.getElem?_eq_getElem h1]

theorem tensor_eq_map_range (t : List (List K)) (m n : Nat) (hm : t.length = m)
    (hn : ∀ r ∈ t, r.length = n) :
    t = (List.range m).map (fun i => (List.range n).map (fun j => entry t i j)) := by
  apply List.ext_getElem (by simp [hm])
  intro i h1 h2
  have hr : t[i].length = n := hn _ (List.getElem_mem h1)
  rw [List.getElem_map, List.getElem_range]
  have e : t.getD i [] = t[i] := by
    simp [List.getD_eq_getElem?_getD, List.getElem?_eq_getElem h1]
  have := vec_eq_map_range t[i]
  rw [hr] at this
  simp only [entry, e]
  exact this

theorem sum_map_eq_sum_range {α : Type} (l : List α) (f : α → K) (d : α) :
    (l.map f).sum = ∑ b ∈ Finset.range l.length, f (l.getD b d) := by
  induction l with
  | nil => simp
  | cons x xs ih =>
    rw [List.map_cons, List.sum_cons, List.length_cons, Finset.sum_range_succ', ih]
    simp [add_comm]

theorem idx3_eq_entry3 (t : List (List (List K))) (b i j : Nat) (hb : b < t.length)
    (hi : i < (t.getD b []).length) (hj : j < ((t.getD b []).getD i []).length) :
    idx3 t b i j = .ok (entry3 t b i j) := by
  rw [idx3, idx_getD t b hb [], ok_bind, idx2_eq_entry _ _ _ hi hj]
  rfl

theorem entry_map_range2 (m n : Nat) (F : Nat → Nat → K) (i j : Nat) (hi : i < m) (hj : j < n) :
    entry ((List.range m).map (fun i => (List.range n).map (fun j => F i j))) i j = F i j := by
  rw [entry_map_range _ _ _ _ hi, entry1_map_range _ _ _ hj]

/-- What `FullyConnected::update` leaves in `weight` and `bias`, with the sums written
in the order in which the loop subtracts. -/
theorem FullyConnected.fc_update_eq_range (L : FullyConnected K) (lr : K) (hwf : L.WF)
    (hwg : ∀ g ∈ L.weightgrad, g.length = L.outlen ∧ ∀ r ∈ g, r.length = L.inlen)
    (hbl : L.biasgrad.length = L.weightgrad.length)
    (hbg : ∀ r ∈ L.biasgrad, r.length = L.outlen) :
    L.update lr = .ok { L with
      weight := (List.range L.outlen).map (fun i => (List.range L.inlen).map (fun j =>
        entry L.weight i j -
          ∑ b ∈ Finset.range L.weightgrad.length, lr * entry3 L.weightgrad b i j))
      bias := if L.usebias then (List.range L.outlen).map (fun i =>
          entry1 L.bias i - ∑ b ∈ Finset.range L.weightgrad.length, lr * entry L.biasgrad b i)
        else L.bias } := by
  let Wc : Nat → Nat → Nat → K := fun c i j =>
    entry L.weight i j - ∑ b ∈ Finset.range c, lr * entry3 L.weightgrad b i j
  let Bc : Nat → Nat → K := fun c i =>
    entry1 L.bias i - ∑ b ∈ Finset.range c, lr * entry L.biasgrad b i
  let Wt : Nat → List (List K) := fun c =>
    (List.range L.outlen).map (fun i => (List.range L.inlen).map (fun j => Wc c i j))
  let Bt : Nat → List K := fun c =>
    if L.usebias then (List.range L.outlen).map (fun i => Bc c i) else L.bias
  have hWtlen : ∀ c, (Wt c).length = L.outlen := fun c => by simp [Wt]
  have hBtlen : ∀ c, (Bt c).length = L.outlen := fun c => by
    by_cases hbias : L.usebias = true
    · simp [Bt, hbias]
    · simp [Bt, hbias, hwf.bias_len]
  have hW0 : L.weight = Wt 0 := by
    have := tensor_eq_map_range L.weight L.outlen L.inlen hwf.weight_len hwf.weight_row
    simpa [Wt, Wc] using this
  have hB0 : L.bias = Bt 0 := by
    by_cases hbias : L.usebias = true
    · have := vec_eq_map_range L.bias
      rw [hwf.bias_len] at this
      simpa [Bt, Bc, hbias] using this
    · simp [Bt, hbias]
  obtain ⟨s, e, h⟩ := forLoop_inv
    (fun b (s : List (List K) × List K) =>
      forLoop 0 L.outlen (fun i s => do
        let w ← forLoop 0 L.inlen (fun j w => do
          let g ← idx3 L.weightgrad b i j
          let x ← idx2 w i j
          put2 w i j (x - lr * g)) s.1
        if L.usebias then do
          let g ← idx2 L.biasgrad b i
          let x ← idx s.2 i
          let bias ← put s.2 i (x - lr * g)
          pure (w, bias)
        else pure (w, s.2)) s)
    (fun c s => s = (Wt c, Bt c)) 0 L.weightgrad.length (Nat.zero_le _) (L.weight, L.bias)
    (by
      show (L.weight, L.bias) = (Wt 0, Bt 0)
      rw [← hW0, ← hB0])
    (fun b s _ hb hI => by
      subst hI
      have hgb := hwg _ (getD_mem L.weightgrad b hb [])
      obtain ⟨t, e', h'⟩ := forLoop_inv
        (fun i (s : List (List K) × List K) => do
          let w ← forLoop 0 L.inlen (fun j w => do
            let g ← idx3 L.weightgrad b i j
            let x ← idx2 w i j
            put2 w i j (x - lr * g)) s.1
          if L.usebias then do
            let g ← idx2 L.biasgrad b i
            let x ← idx s.2 i
            let bias ← put s.2 i (x - lr * g)
            pure (w, bias)
          else pure (w, s.2))
        (fun i s => s.1 = overwrite i (fun i => (List.range L.inlen).map (fun j => Wc (b + 1) i j))
            (Wt b) ∧
          s.2 = if L.usebias then overwrite i (fun i => Bc (b + 1) i) (Bt b) else L.bias)
        0 L.outlen (Nat.zero_le _) (Wt b, Bt b)
        ⟨(overwrite_zero _ _).symm, by
          by_cases hbias : L.usebias = true
          · simp [hbias, overwrite_zero]
          · simp [hbias, Bt]⟩
        (fun i s _ hi hI => by
          obtain ⟨s1, s2⟩ := s
          obtain ⟨h1, h2⟩ := hI
          simp only at h1 h2
          subst h1
          have hrowi : (overwrite i (fun i => (List.range L.inlen).map (fun j => Wc (b + 1) i j))
              (Wt b)).getD i [] = (List.range L.inlen).map (fun j => Wc b i j) := by
            rw [getD_overwrite_self]
            exact getD_map_range _ _ _ hi _
          have hlen : (overwrite i (fun i => (List.range L.inlen).map (fun j => Wc (b + 1) i j))
              (Wt b)).length = L.outlen := by
            rw [length_overwrite _ _ _ (by rw [hWtlen]; omega), hWtlen]
          have hinner := forLoop_put2 L.inlen
            (overwrite i (fun i => (List.range L.inlen).map (fun j => Wc (b + 1) i j)) (Wt b)) i
            (fun j => Wc (b + 1) i j)
            (fun j w => do
              let g ← idx3 L.weightgrad b i j
              let x ← idx2 w i j
              put2 w i j (x - lr * g))
            (fun j hj => by
              beta_reduce
              have hg : idx3 L.weightgrad b i j = .ok (entry3 L.weightgrad b i j) :=
                idx3_eq_entry3 _ _ _ _ hb (by rw [hgb.1]; exact hi)
                  (by rw [getD_row_length _ _ hgb.2 i (by rw [hgb.1]; exact hi)]; exact hj)
              have hlj : j < (overwrite j (fun j => Wc (b + 1) i j)
                  ((overwrite i (fun i => (List.range L.inlen).map (fun j => Wc (b + 1) i j))
                    (Wt b)).getD i [])).length := by
                rw [length_overwrite _ _ _ (by rw [hrowi]; simp; omega), hrowi]; simpa using hj
              rw [hg, ok_bind, idx2_set_self _ _ _ (by omega) _ hlj, ok_bind,
                put2_set_self _ _ _ (by omega) _ hlj]
              rw [entry1_overwrite, if_neg (lt_irrefl j), hrowi, entry1_map_range _ _ _ hj]
              simp only [Wc, Finset.sum_range_succ, sub_sub])
            (by omega) (by rw [hrowi]; simp)
          have hfull : overwrite L.inlen (fun j => Wc (b + 1) i j)
              ((overwrite i (fun i => (List.range L.inlen).map (fun j => Wc (b + 1) i j))
                (Wt b)).getD i []) = (List.range L.inlen).map (fun j => Wc (b + 1) i j) := by
            rw [hrowi]
            have := overwrite_full (fun j => Wc (b + 1) i j)
              ((List.range L.inlen).map (fun j => Wc b i j))
            simpa using this
          beta_reduce
          rw [hinner, ok_bind, hfull,
            overwrite_succ i (fun i => (List.range L.inlen).map (fun j => Wc (b + 1) i j)) (Wt b)
              (by rw [hWtlen]; exact hi)]
          by_cases hbias : L.usebias = true
          · simp only [hbias, if_true] at h2 ⊢
            subst h2
            have hBt : Bt b = (List.range L.outlen).map (fun i => Bc b i) := by
              simp [Bt, hbias]
            have hgb' : idx2 L.biasgrad b i = .ok (entry L.biasgrad b i) :=
              idx2_eq_entry _ _ _ (by omega)
                (by rw [getD_row_length _ _ hbg b (by omega)]; exact hi)
            rw [hgb', ok_bind,
              idx_overwrite_ge _ _ (le_refl i) (by rw [hBtlen]; exact hi), ok_bind,
              put_overwrite _ _ _ (by rw [hBtlen]; omega) (by rw [hBtlen]; exact hi), ok_bind]
            refine ⟨_, rfl, rfl, ?_⟩
            simp only
            rw [← overwrite_succ i _ _ (by rw [hBtlen]; exact hi)]
            congr 1
            have := entry1_eq_getElem (Bt b) i (by rw [hBtlen]; exact hi)
            rw [← this, hBt, entry1_map_range _ _ _ hi]
            simp only [Bc, Finset.sum_range_succ, sub_sub]
          · simp only [hbias, if_false] at h2 ⊢
            subst h2
            exact ⟨_, rfl, rfl, rfl⟩)
      obtain ⟨t1, t2⟩ := t
      obtain ⟨h1, h2⟩ := h'
      simp only at h1 h2
      refine ⟨(t1, t2), e', ?_⟩
      beta_reduce
      rw [h1, h2]
      have e1 := overwrite_full (fun i => (List.range L.inlen).map (fun j => Wc (b + 1) i j)) (Wt b)
      rw [hWtlen] at e1
      rw [e1]
      by_cases hbias : L.usebias = true
      · have e2 := overwrite_full (fun i => Bc (b + 1) i) (Bt b)
        rw [hBtlen] at e2
        rw [if_pos hbias, e2]
        simp only [hbias, if_true, Bt, Wt]
      · simp [hbias, Bt, Wt])
  rw [FullyConnected.update]
  show (forLoop 0 L.weightgrad.length _ (L.weight, L.bias) >>= _) = _
  rw [e, h, ok_bind]
  rfl

end UpdateLemmas

section BatchNormUpdate
variable {K : Type} [LinearOrderedField K]

/-- What `BatchNormalization::update` leaves in `gamma` and `beta`, with the sums written
in the order in which the loop subtracts. -/
theorem BatchNormalization.bn_update_eq_range (B : BatchNormalization K) (lr : K)
    (hbeta : B.beta.length = B.gamma.length)
    (hgg : ∀ r ∈ B.gammagrad, r.length = B.gamma.length)
    (hbl : B.betagrad.length = B.gammagrad.length)
    (hbg : ∀ r ∈ B.betagrad, r.length = B.gamma.length) :
    B.update lr = .ok { B with
      gamma := (List.range B.gamma.length).map (fun i =>
        entry1 B.gamma i - ∑ b ∈ Finset.range B.gammagrad.length, lr * entry B.gammagrad b i)
      beta := (List.range B.gamma.length).map (fun i =>
        entry1 B.beta i - ∑ b ∈ Finset.range B.gammagrad.length, lr * entry B.betagrad b i) } := by
  let Gc : Nat → Nat → K := fun c i =>
    entry1 B.gamma i - ∑ b ∈ Finset.range c, lr * entry B.gammagrad b i
  let Bc : Nat → Nat → K := fun c i =>
    entry1 B.beta i - ∑ b ∈ Finset.range c, lr * entry B.betagrad b i
  let Gt : Nat → List K := fun c => (List.range B.gamma.length).map (fun i => Gc c i)
  let Bt : Nat → List K := fun c => (List.range B.gamma.length).map (fun i => Bc c i)
  have hGtlen : ∀ c, (Gt c).length = B.gamma.length := fun c => by simp [Gt]
  have hBtlen : ∀ c, (Bt c).length = B.gamma.length := fun c => by simp [Bt]
  have hG0 : B.gamma = Gt 0 := by
    have := vec_eq_map_range B.gamma
    simpa [Gt, Gc] using this
  have hB0 : B.beta = Bt 0 := by
    have := vec_eq_map_range B.beta
    rw [hbeta] at this
    simpa [Bt, Bc] using this
  obtain ⟨s, e, h⟩ := forLoop_inv
    (fun b (s : List K × List K) =>
      forLoop 0 B.gamma.length (fun i (s : List K × List K) => do
        let gg ← idx2 B.gammagrad b i
        let g ← idx s.1 i
        let gamma ← put s.1 i (g - lr * gg)
        let bg ← idx2 B.betagrad b i
        let be ← idx s.2 i
        let beta ← put s.2 i (be - lr * bg)
        pure (gamma, beta)) s)
    (fun c s => s = (Gt c, Bt c)) 0 B.gammagrad.length (Nat.zero_le _) (B.gamma, B.beta)
    (by
      show (B.gamma, B.beta) = (Gt 0, Bt 0)
      rw [← hG0, ← hB0])
    (fun b s _ hb hI => by
      subst hI
      obtain ⟨t, e', h'⟩ := forLoop_inv
        (fun i (s : List K × List K) => do
          let gg ← idx2 B.gammagrad b i
          let g ← idx s.1 i
          let gamma ← put s.1 i (g - lr * gg)
          let bg ← idx2 B.betagrad b i
          let be ← idx s.2 i
          let beta ← put s.2 i (be - lr * bg)
          pure (gamma, beta))
        (fun i s => s.1 = overwrite i (fun i => Gc (b + 1) i) (Gt b) ∧
          s.2 = overwrite i (fun i => Bc (b + 1) i) (Bt b))
        0 B.gamma.length (Nat.zero_le _) (Gt b, Bt b)
        ⟨(overwrite_zero _ _).symm, (overwrite_zero _ _).symm⟩
        (fun i s _ hi hI => by
          obtain ⟨s1, s2⟩ := s
          obtain ⟨h1, h2⟩ := hI
          simp only at h1 h2
          subst h1
          subst h2
          have hgg' : idx2 B.gammagrad b i = .ok (entry B.gammagrad b i) :=
            idx2_eq_entry _ _ _ hb (by rw [getD_row_length _ _ hgg b hb]; exact hi)
          have hbg' : idx2 B.betagrad b i = .ok (entry B.betagrad b i) :=
            idx2_eq_entry _ _ _ (by omega)
              (by rw [getD_row_length _ _ hbg b (by omega)]; exact hi)
          beta_reduce
          rw [hgg', ok_bind,
            idx_overwrite_ge _ _ (le_refl i) (by rw [hGtlen]; exact hi), ok_bind,
            put_overwrite _ _ _ (by rw [hGtlen]; omega) (by rw [hGtlen]; exact hi), ok_bind,
            hbg', ok_bind,
            idx_overwrite_ge _ _ (le_refl i) (by rw [hBtlen]; exact hi), ok_bind,
            put_overwrite _ _ _ (by rw [hBtlen]; omega) (by rw [hBtlen]; exact hi), ok_bind]
          refine ⟨_, rfl, ?_, ?_⟩
          · simp only
            rw [← overwrite_succ i _ _ (by rw [hGtlen]; exact hi)]
            congr 1
            have := entry1_eq_getElem (Gt b) i (by rw [hGtlen]; exact hi)
            rw [← this, entry1_map_range _ _ _ hi]
            simp only [Gc, Finset.sum_range_succ, sub_sub]
          · simp only
            rw [← overwrite_succ i _ _ (by rw [hBtlen]; exact hi)]
            congr 1
            have := entry1_eq_getElem (Bt b) i (by rw [hBtlen]; exact hi)
            rw [← this, entry1_map_range _ _ _ hi]
            simp only [Bc, Finset.sum_range_succ, sub_sub])
      obtain ⟨t1, t2⟩ := t
      obtain ⟨h1, h2⟩ := h'
      simp only at h1 h2
      refine ⟨(t1, t2), e', ?_⟩
      beta_reduce
      rw [h1, h2]
      have e1 := overwrite_full (fun i => Gc (b + 1) i) (Gt b)
      have e2 := overwrite_full (fun i => Bc (b + 1) i) (Bt b)
      rw [hGtlen] at e1
      rw [hBtlen] at e2
      rw [e1, e2])
  rw [BatchNormalization.update]
  show (forLoop 0 B.gammagrad.length _ (B.gamma, B.beta) >>= _) = _
  rw [e, h, ok_bind]
  rfl

end BatchNormUpdate

section UpdateTheorem
variable {K : Type} [LinearOrderedField K]

theorem sum_range_mul_entry {α : Type} (l : List α) (f : α → K) (lr : K) (n : Nat)
    (hn : l.length = n) (d : α) :
    ∑ b ∈ Finset.range n, lr * f (l.getD b d) = lr * (l.map f).sum := by
  rw [sum_map_eq_sum_range l f d, Finset.mul_sum, hn]

theorem perm_of_zip_perm {α β : Type} (a₁ a₂ : List α) (b₁ b₂ : List β)
    (h₁ : a₁.length = b₁.length) (h₂ : a₂.length = b₂.length)
    (h : (a₁.zip b₁).Perm (a₂.zip b₂)) : a₁.Perm a₂ ∧ b₁.Perm b₂ := by
  constructor
  · have := h.map Prod.fst
    rwa [List.map_fst_zip _ _ (le_of_eq h₁), List.map_fst_zip _ _ (le_of_eq h₂)] at this
  · have := h.map Prod.snd
    rwa [List.map_snd_zip _ _ (le_of_eq h₁.symm), List.map_snd_zip _ _ (le_of_eq h₂.symm)] at this

/-- What `FullyConnected::update` leaves in `weight` and `bias`. -/
theorem FullyConnected.fc_update_eq (L : FullyConnected K) (lr : K) (hwf : L.WF)
    (hwg : ∀ g ∈ L.weightgrad, g.length = L.outlen ∧ ∀ r ∈ g, r.length = L.inlen)
    (hbl : L.biasgrad.length = L.weightgrad.length)
    (hbg : ∀ r ∈ L.biasgrad, r.length = L.outlen) :
    L.update lr = .ok { L with
      weight := (List.range L.outlen).map (fun i => (List.range L.inlen).map (fun j =>
        entry L.weight i j - lr * (L.weightgrad.map (fun g => entry g i j)).sum))
      bias := if L.usebias then (List.range L.outlen).map (fun i =>
          entry1 L.bias i - lr * (L.biasgrad.map (fun g => entry1 g i)).sum)
        else L.bias } := by
  rw [FullyConnected.fc_update_eq_range L lr hwf hwg hbl hbg]
  have h1 : ∀ i j, ∑ b ∈ Finset.range L.weightgrad.length, lr * entry3 L.weightgrad b i j =
      lr * (L.weightgrad.map (fun g => entry g i j)).sum := fun i j =>
    sum_range_mul_entry L.weightgrad (fun g => entry g i j) lr _ rfl []
  have h2 : ∀ i, ∑ b ∈ Finset.range L.weightgrad.length, lr * entry L.biasgrad b i =
      lr * (L.biasgrad.map (fun g => entry1 g i)).sum := fun i =>
    sum_range_mul_entry L.biasgrad (fun g => entry1 g i) lr _ hbl []
  simp only [h1, h2]

/-- What `BatchNormalization::update` leaves in `gamma` and `beta`. -/
theorem BatchNormalization.bn_update_eq (B : BatchNormalization K) (lr : K)
    (hbeta : B.beta.length = B.gamma.length)
    (hgg : ∀ r ∈ B.gammagrad, r.length = B.gamma.length)
    (hbl : B.betagrad.length = B.gammagrad.length)
    (hbg : ∀ r ∈ B.betagrad, r.length = B.gamma.length) :
    B.update lr = .ok { B with
      gamma := (List.range B.gamma.length).map (fun i =>
        entry1 B.gamma i - lr * (B.gammagrad.map (fun g => entry1 g i)).sum)
      beta := (List.range B.gamma.length).map (fun i =>
        entry1 B.beta i - lr * (B.betagrad.map (fun g => entry1 g i)).sum) } := by
  rw [BatchNormalization.bn_update_eq_range B lr hbeta hgg hbl hbg]
  have h1 : ∀ i, ∑ b ∈ Finset.range B.gammagrad.length, lr * entry B.gammagrad b i =
      lr * (B.gammagrad.map (fun g => entry1 g i)).sum := fun i =>
    sum_range_mul_entry B.gammagrad (fun g => entry1 g i) lr _ rfl []
  have h2 : ∀ i, ∑ b ∈ Finset.range B.gammagrad.length, lr * entry B.betagrad b i =
      lr * (B.betagrad.map (fun g => entry1 g i)).sum := fun i =>
    sum_range_mul_entry B.betagrad (fun g => entry1 g i) lr _ hbl []
  simp only [h1, h2]

/-- C7: in exact arithmetic `update(lr)` subtracts `lr` times the gradient summed over
the retained batch rows. After `FullyConnected::update`,
`weight[i][j] = old weight[i][j] - lr * Σ_b weightgrad[b][i][j]` and, with bias enabled,
`bias[i] = old bias[i] - lr * Σ_b biasgrad[b][i]` (the bias is untouched otherwise); after
`BatchNormalization::update`, `gamma[i] = old gamma[i] - lr * Σ_b gammagrad[b][i]` and
`beta[i] = old beta[i] - lr * Σ_b betagrad[b][i]`. The result is the same for every
ordering of the batch rows of the gradients. -/
theorem update_subtracts_summed_gradients (L : FullyConnected K) (B : BatchNormalization K)
    (lr : K) (hwf : L.WF)
    (hwg : ∀ g ∈ L.weightgrad, g.length = L.outlen ∧ ∀ r ∈ g, r.length = L.inlen)
    (hbl : L.biasgrad.length = L.weightgrad.length)
    (hbg : ∀ r ∈ L.biasgrad, r.length = L.outlen)
    (hbeta : B.beta.length = B.gamma.length)
    (hgg : ∀ r ∈ B.gammagrad, r.length = B.gamma.length)
    (hbbl : B.betagrad.length = B.gammagrad.length)
    (hbbg : ∀ r ∈ B.betagrad, r.length = B.gamma.length) :
    (∃ L', L.update lr = .ok L' ∧
      (∀ i, i < L.outlen → ∀ j, j < L.inlen →
        entry L'.weight i j =
          entry L.weight i j - lr * (L.weightgrad.map (fun g => entry g i j)).sum) ∧
      (∀ i, i < L.outlen →
        entry1 L'.bias i =
          if L.usebias then entry1 L.bias i - lr * (L.biasgrad.map (fun g => entry1 g i)).sum
          else entry1 L.bias i) ∧
      ∀ wg bg, wg.length = bg.length → (wg.zip bg).Perm (L.weightgrad.zip L.biasgrad) →
        ∃ L'', ({ L with weightgrad := wg, biasgrad := bg }).update lr = .ok L'' ∧
          L''.weight = L'.weight ∧ L''.bias = L'.bias) ∧
    (∃ B', B.update lr = .ok B' ∧
      (∀ i, i < B.gamma.length →
        entry1 B'.gamma i =
          entry1 B.gamma i - lr * (B.gammagrad.map (fun g => entry1 g i)).sum) ∧
      (∀ i, i < B.gamma.length →
        entry1 B'.beta i =
          entry1 B.beta i - lr * (B.betagrad.map (fun g => entry1 g i)).sum) ∧
      ∀ gg bg, gg.length = bg.length → (gg.zip bg).Perm (B.gammagrad.zip B.betagrad) →
        ∃ B'', ({ B with gammagrad := gg, betagrad := bg }).update lr = .ok B'' ∧
          B''.gamma = B'.gamma ∧ B''.beta = B'.beta) := by
  constructor
  · refine ⟨_, FullyConnected.fc_update_eq L lr hwf hwg hbl hbg, ?_, ?_, ?_⟩
    · intro i hi j hj
      exact entry_map_range2 _ _ _ _ _ hi hj
    · intro i hi
      by_cases hbias : L.usebias = true
      · simp only [hbias, if_true]
        exact entry1_map_range _ _ _ hi
      · simp [hbias]
    · intro wg bg hlen hperm
      obtain ⟨p1, p2⟩ := perm_of_zip_perm wg L.weightgrad bg L.biasgrad hlen hbl.symm hperm
      have hup := FullyConnected.fc_update_eq { L with weightgrad := wg, biasgrad := bg } lr
        ⟨hwf.weight_len, hwf.weight_row, hwf.bias_len⟩
        (fun g hg => hwg g (p1.mem_iff.mp hg))
        (by show bg.length = wg.length; omega)
        (fun r hr => hbg r (p2.mem_iff.mp hr))
      refine ⟨_, hup, ?_, ?_⟩
      · have hs : ∀ i j, (wg.map (fun g => entry g i j)).sum =
            (L.weightgrad.map (fun g => entry g i j)).sum := fun i j => (p1.map _).sum_eq
        simp only [hs]
      · have hs : ∀ i, (bg.map (fun g => entry1 g i)).sum =
            (L.biasgrad.map (fun g => entry1 g i)).sum := fun i => (p2.map _).sum_eq
        simp only [hs]
  · refine ⟨_, BatchNormalization.bn_update_eq B lr hbeta hgg hbbl hbbg, ?_, ?_, ?_⟩
    · intro i hi
      exact entry1_map_range _ _ _ hi
    · intro i hi
      exact entry1_map_range _ _ _ hi
    · intro gg bg hlen hperm
      obtain ⟨p1, p2⟩ := perm_of_zip_perm gg B.gammagrad bg B.betagrad hlen hbbl.symm hperm
      have hup := BatchNormalization.bn_update_eq { B with gammagrad := gg, betagrad := bg } lr
        hbeta (fun r hr => hgg r (p1.mem_iff.mp hr))
        (by show bg.length = gg.length; omega)
        (fun r hr => hbbg r (p2.mem_iff.mp hr))
      refine ⟨_, hup, ?_, ?_⟩
      · have hs : ∀ i, (gg.map (fun g => entry1 g i)).sum =
            (B.gammagrad.map (fun g => entry1 g i)).sum := fun i => (p1.map _).sum_eq
        simp only [hs]
      · have hs : ∀ i, (bg.map (fun g => entry1 g i)).sum =
            (B.betagrad.map (fun g => entry1 g i)).sum := fun i => (p2.map _).sum_eq
        simp only [hs]

/-- C7 at `fcSample`, `bnSample` and `lr = 1/2`: the weights `[[1, 2]]` become
`[[1 - (6 + 3)/2, 2 - (8 + 3)/2]]`, the bias `[5]` becomes `[5 - (2 + 3)/2]`, `gamma`
becomes `[1 - (-1/2 + 1)/2, 1 - 1/2]` and `beta` becomes `[-(1 + 2)/2, -1]`. -/
theorem update_subtracts_summed_gradients_witness :
    (fcSample.WF ∧
      (∀ g ∈ fcSample.weightgrad, g.length = fcSample.outlen ∧
        ∀ r ∈ g, r.length = fcSample.inlen) ∧
      fcSample.biasgrad.length = fcSample.weightgrad.length ∧
      (∀ r ∈ fcSample.biasgrad, r.length = fcSample.outlen) ∧
      bnSample.beta.length = bnSample.gamma.length ∧
      (∀ r ∈ bnSample.gammagrad, r.length = bnSample.gamma.length) ∧
      bnSample.betagrad.length = bnSample.gammagrad.length ∧
      (∀ r ∈ bnSample.betagrad, r.length = bnSample.gamma.length)) ∧
    ((∃ L', fcSample.update (1 / 2) = .ok L' ∧
      (∀ i, i < fcSample.outlen → ∀ j, j < fcSample.inlen →
        entry L'.weight i j =
          entry fcSample.weight i j -
            1 / 2 * (fcSample.weightgrad.map (fun g => entry g i j)).sum) ∧
      (∀ i, i < fcSample.outlen →
        entry1 L'.bias i =
          if fcSample.usebias
          then entry1 fcSample.bias i - 1 / 2 * (fcSample.biasgrad.map (fun g => entry1 g i)).sum
          else entry1 fcSample.bias i) ∧
      ∀ wg bg, wg.length = bg.length →
        (wg.zip bg).Perm (fcSample.weightgrad.zip fcSample.biasgrad) →
        ∃ L'', ({ fcSample with weightgrad := wg, biasgrad := bg }).update (1 / 2) = .ok L'' ∧
          L''.weight = L'.weight ∧ L''.bias = L'.bias) ∧
    (∃ B', bnSample.update (1 / 2) = .ok B' ∧
      (∀ i, i < bnSample.gamma.length →
        entry1 B'.gamma i =
          entry1 bnSample.gamma i - 1 / 2 * (bnSample.gammagrad.map (fun g => entry1 g i)).sum) ∧
      (∀ i, i < bnSample.gamma.length →
        entry1 B'.beta i =
          entry1 bnSample.beta i - 1 / 2 * (bnSample.betagrad.map (fun g => entry1 g i)).sum) ∧
      ∀ gg bg, gg.length = bg.length →
        (gg.zip bg).Perm (bnSample.gammagrad.zip bnSample.betagrad) →
        ∃ B'', ({ bnSample with gammagrad := gg, betagrad := bg }).update (1 / 2) = .ok B'' ∧
          B''.gamma = B'.gamma ∧ B''.beta = B'.beta)) ∧
    (fcSample.update (1 / 2)).map (fun L => (L.weight, L.bias)) =
      .ok ([[-7 / 2, -7 / 2]], [5 / 2]) ∧
    (bnSample.update (1 / 2)).map (fun L => (L.gamma, L.beta)) =
      .ok ([3 / 4, 1 / 2], [-3 / 2, -1]) :=
  ⟨⟨⟨rfl, by simp [fcSample], rfl⟩, by simp [fcSample], rfl, by simp [fcSample], rfl,
      by simp [bnSample], rfl, by simp [bnSample]⟩,
    update_subtracts_summed_gradients fcSample bnSample (1 / 2)
      ⟨rfl, by simp [fcSample], rfl⟩ (by simp [fcSample]) rfl (by simp [fcSample]) rfl
      (by simp [bnSample]) rfl (by simp [bnSample]),
    by with_unfolding_all decide, by with_unfolding_all decide⟩

end UpdateTheorem

section BatchNormForward
variable {K : Type} [LinearOrderedField K]

/-- A loop whose iteration `i` stores `f i` and `g i` at index `i` of two vectors. -/
theorem forLoop_overwrite2 {α β : Type} (n : Nat) (v : List α) (w : List β) (f : Nat → α)
    (g : Nat → β) (body : Nat → List α × List β → Res (List α × List β))
    (hbody : ∀ i, i < n → body i (overwrite i f v, overwrite i g w) =
      .ok ((overwrite i f v).set i (f i), (overwrite i g w).set i (g i)))
    (hv : n ≤ v.length) (hw : n ≤ w.length) :
    forLoop 0 n body (v, w) = .ok (overwrite n f v, overwrite n g w) := by
  obtain ⟨t, e, h⟩ := forLoop_inv body (fun j s => s = (overwrite j f v, overwrite j g w)) 0 n
    (Nat.zero_le _) (v, w)
    (by show (v, w) = (overwrite 0 f v, overwrite 0 g w); rw [overwrite_zero, overwrite_zero])
    (fun j t _ hj hI => by
      subst hI
      refine ⟨_, hbody j hj, ?_⟩
      beta_reduce
      rw [overwrite_succ j f v (by omega), overwrite_succ j g w (by omega)])
  rw [e, h]

theorem overwrite_zeros_full (n : Nat) (f : Nat → K) :
    overwrite n f (zeros n : List K) = (List.range n).map f := by
  have := overwrite_full f (zeros n : List K)
  rwa [length_zeros] at this

/-- What one iteration of the batch loop of `BatchNormalization::forward` computes. -/
theorem BatchNormalization.bn_forwardRow_eq (sqrt : K → K) (L : BatchNormalization K)
    (row : List K) (hlen : L.len ≤ row.length) (hg : L.gamma.length = L.len)
    (hb : L.beta.length = L.len) :
    L.forwardRow sqrt row = .ok
      { ret := overwrite L.len (fun i =>
          (entry1 row i - L.rowMean row) * L.rowIvar sqrt row * entry1 L.gamma i +
            entry1 L.beta i) row
        mu := L.rowMean row
        var := L.rowVar row
        sqrtvar := sqrt (L.rowVar row + L.epsilon)
        ivar := L.rowIvar sqrt row
        normx := (List.range L.len).map (fun i =>
          (entry1 row i - L.rowMean row) * L.rowIvar sqrt row)
        mux := (List.range L.len).map (fun i => entry1 row i - L.rowMean row) } := by
  have h1 := sumLoop_eq L.len row 0 hlen
  have h2 : forLoop 0 L.len (fun i variance => do
      let x ← idx row i
      pure (variance + (x - L.rowMean row) * (x - L.rowMean row))) (0 : K) =
      .ok (0 + ∑ i ∈ Finset.range L.len,
        (entry1 row i - L.rowMean row) * (entry1 row i - L.rowMean row)) := by
    apply forLoop_sum
    intro i acc hi
    rw [idx_eq_entry1 row i (by omega), ok_bind]
    rfl
  have h3 : forLoop 0 L.len (fun i (s : List K × List K) => do
      let x ← idx row i
      let mux ← put s.1 i (x - L.rowMean row)
      let m ← idx mux i
      let normx ← put s.2 i (m * L.rowIvar sqrt row)
      pure (mux, normx)) (zeros L.len, zeros L.len) =
      .ok ((List.range L.len).map (fun i => entry1 row i - L.rowMean row),
        (List.range L.len).map (fun i => (entry1 row i - L.rowMean row) * L.rowIvar sqrt row)) := by
    rw [forLoop_overwrite2 L.len (zeros L.len) (zeros L.len)
      (fun i => entry1 row i - L.rowMean row)
      (fun i => (entry1 row i - L.rowMean row) * L.rowIvar sqrt row) _ _
      (by rw [length_zeros]) (by rw [length_zeros]),
      overwrite_zeros_full, overwrite_zeros_full]
    intro i hi
    have hz : (zeros L.len : List K).length = L.len := length_zeros _
    have hl : i < (overwrite i (fun i => entry1 row i - L.rowMean row)
        (zeros L.len : List K)).length := by
      rw [length_overwrite _ _ _ (by omega), hz]; exact hi
    beta_reduce
    rw [idx_eq_entry1 row i (by omega), ok_bind,
      put_overwrite _ _ _ (by omega) (by omega), ok_bind,
      idx_set_self _ _ _ hl, ok_bind,
      put_overwrite _ _ _ (by omega) (by omega), ok_bind]
    rfl
  have h4 : forLoop 0 L.len (fun i ret => do
      let n ← idx ((List.range L.len).map
        (fun i => (entry1 row i - L.rowMean row) * L.rowIvar sqrt row)) i
      let g ← idx L.gamma i
      let b ← idx L.beta i
      put ret i (n * g + b)) row =
      .ok (overwrite L.len (fun i =>
          (entry1 row i - L.rowMean row) * L.rowIvar sqrt row * entry1 L.gamma i +
            entry1 L.beta i) row) := by
    apply forLoop_overwrite _ _ _ _ _ hlen
    intro i hi
    rw [idx_eq_entry1 _ i (by simpa using hi), ok_bind, entry1_map_range _ _ _ hi,
      idx_eq_entry1 _ i (by omega), ok_bind, idx_eq_entry1 _ i (by omega), ok_bind]
    exact put_overwrite _ _ _ (by omega) (by omega)
  rw [BatchNormalization.forwardRow, h1, ok_bind]
  simp only [zero_add]
  have hm : (∑ i ∈ Finset.range L.len, entry1 row i) / (L.len : K) = L.rowMean row := rfl
  rw [hm, h2, ok_bind]
  simp only [zero_add]
  have hv : (∑ i ∈ Finset.range L.len,
      (entry1 row i - L.rowMean row) * (entry1 row i - L.rowMean row)) / (L.len : K) =
      L.rowVar row := rfl
  have hi : 1 / sqrt (L.rowVar row + L.epsilon) = L.rowIvar sqrt row := rfl
  rw [hv, hi, h3, ok_bind]
  simp only
  rw [h4, ok_bind]
  rfl

end BatchNormForward

section BatchNormForwardTheorem
variable {K : Type} [LinearOrderedField K]

/-- What `BatchNormalization::forward` returns and caches. -/
theorem BatchNormalization.bn_forward_eq (sqrt : K → K) (L : BatchNormalization K)
    (data : List (List K)) (hrows : ∀ row ∈ data, L.len ≤ row.length)
    (hg : L.gamma.length = L.len) (hb : L.beta.length = L.len) :
    L.forward sqrt data = .ok
      (data.map (fun row => overwrite L.len (fun i =>
          (entry1 row i - L.rowMean row) * L.rowIvar sqrt row * entry1 L.gamma i +
            entry1 L.beta i) row),
        { L with
          lastdata := data
          mu := data.map L.rowMean
          var := data.map L.rowVar
          sqrtvar := data.map (fun row => sqrt (L.rowVar row + L.epsilon))
          ivar := data.map (L.rowIvar sqrt)
          normx := data.map (fun row => (List.range L.len).map (fun i =>
            (entry1 row i - L.rowMean row) * L.rowIvar sqrt row))
          mux := data.map (fun row => (List.range L.len).map (fun i =>
            entry1 row i - L.rowMean row)) }) := by
  rw [BatchNormalization.forward,
    mapRows_ok (L.forwardRow sqrt) _ data (fun row hrow =>
      BatchNormalization.bn_forwardRow_eq sqrt L row (hrows row hrow) hg hb), ok_bind]
  simp only [pure, Except.pure, List.map_map]
  rfl

end BatchNormForwardTheorem

section BatchNormBackward
variable {K : Type} [LinearOrderedField K]

theorem idx_overwrite_self (n : Nat) (f : Nat → K) (v : List K) (hn : n < v.length) :
    idx (overwrite n f v) n = .ok (entry1 v n) := by
  rw [idx_overwrite_ge f v (le_refl n) hn, entry1_eq_getElem v n hn]

theorem overwrite_overwrite {α : Type} (n : Nat) (f g : Nat → α) (v : List α) :
    overwrite n f (overwrite n g v) = overwrite n f v := by
  simp only [overwrite]
  congr 1
  rw [List.drop_append_of_le_length (by simp)]
  simp

/-- What one iteration of the batch loop of `BatchNormalization::backward` computes from
the cached statistics of row `b`. -/
theorem BatchNormalization.bn_backwardRow_eq (sqrt : K → K) (L : BatchNormalization K)
    (data : List (List K)) (b : Nat) (hb : b < data.length)
    (hdy : L.len ≤ (data.getD b []).length) (hg : L.len ≤ L.gamma.length)
    (hnx : b < L.normx.length) (hnx' : L.len ≤ (L.normx.getD b []).length)
    (hmx : b < L.mux.length) (hmx' : L.len ≤ (L.mux.getD b []).length)
    (hiv : b < L.ivar.length) (hsv : b < L.sqrtvar.length) (hv : b < L.var.length)
    (hmu : b < L.mu.length) :
    L.backwardRow sqrt data b = .ok
      (overwrite L.len (fun i =>
          L.gradNormx (data.getD b []) i * entry1 L.ivar b + L.dvarShift sqrt data b +
            (0 - ∑ j ∈ Finset.range L.len,
              (L.gradNormx (data.getD b []) j * entry1 L.ivar b + L.dvarShift sqrt data b)) /
              ((data.getD b []).length : K)) (data.getD b []),
        (List.range L.len).map (fun i => entry data b i),
        (List.range L.len).map (fun i => entry data b i * entry L.normx b i)) := by
  set dy := data.getD b [] with hdy_def
  have hd : ∀ i, i < L.len → idx2 data b i = .ok (entry data b i) := fun i hi =>
    idx2_eq_entry _ _ _ hb (lt_of_lt_of_le hi hdy)
  have hz : (zeros L.len : List K).length = L.len := length_zeros _
  -- compute beta gradient
  have h1 : forLoop 0 L.len (fun i bg => do
      let d ← idx2 data b i
      put bg i d) (zeros L.len) = .ok ((List.range L.len).map (fun i => entry data b i)) := by
    rw [← overwrite_zeros_full]
    apply forLoop_overwrite _ _ _ _ _ (by rw [hz])
    intro i hi
    rw [hd i hi, ok_bind]
    exact put_overwrite _ _ _ (by omega) (by omega)
  -- compute gamma gradient
  have h2 : forLoop 0 L.len (fun i gg => do
      let d ← idx2 data b i
      let n ← idx2 L.normx b i
      put gg i (d * n)) (zeros L.len) =
      .ok ((List.range L.len).map (fun i => entry data b i * entry L.normx b i)) := by
    rw [← overwrite_zeros_full]
    apply forLoop_overwrite _ _ _ _ _ (by rw [hz])
    intro i hi
    rw [hd i hi, ok_bind, idx2_eq_entry _ _ _ hnx (by omega), ok_bind]
    exact put_overwrite _ _ _ (by omega) (by omega)
  -- compute normx gradient
  have h3 : forLoop 0 L.len (fun i ig => do
      let x ← idx ig i
      let g ← idx L.gamma i
      put ig i (x * g)) dy = .ok (overwrite L.len (L.gradNormx dy) dy) := by
    apply forLoop_overwrite _ _ _ _ _ hdy
    intro i hi
    rw [idx_overwrite_self _ _ _ (by omega), ok_bind, idx_eq_entry1 L.gamma i (by omega), ok_bind]
    exact put_overwrite _ _ _ (by omega) (by omega)
  -- compute ivar gradient
  have h4 : forLoop 0 L.len (fun i divar => do
      let m ← idx2 L.mux b i
      let x ← idx (overwrite L.len (L.gradNormx dy) dy) i
      pure (divar + m * x)) (0 : K) =
      .ok (0 + ∑ i ∈ Finset.range L.len, entry L.mux b i * L.gradNormx dy i) := by
    apply forLoop_sum
    intro i acc hi
    rw [idx2_eq_entry _ _ _ hmx (by omega), ok_bind, idx_overwrite_lt _ _ hi, ok_bind]
    rfl
  -- compute mux gradient
  have h5 : forLoop 0 L.len (fun i ig => do
      let x ← idx ig i
      let iv ← idx L.ivar b
      put ig i (x * iv)) (overwrite L.len (L.gradNormx dy) dy) =
      .ok (overwrite L.len (fun i => L.gradNormx dy i * entry1 L.ivar b) dy) := by
    have hl : (overwrite L.len (L.gradNormx dy) dy).length = dy.length :=
      length_overwrite _ _ _ hdy
    rw [← overwrite_overwrite L.len (fun i => L.gradNormx dy i * entry1 L.ivar b)
      (L.gradNormx dy) dy]
    apply forLoop_overwrite _ _ _ _ _ (by omega)
    intro i hi
    rw [idx_overwrite_self _ _ _ (by omega), ok_bind, idx_eq_entry1 L.ivar b hiv, ok_bind,
      entry1_overwrite, if_pos hi]
    exact put_overwrite _ _ _ (by omega) (by omega)
  -- the loop that adds the variance term and accumulates dmu
  have h6 : ∀ c : K, forLoop 0 L.len (fun i (s : List K × K) => do
      let x ← idx s.1 i
      let m ← idx L.mu b
      let ig ← put s.1 i (x + c * m * 2 / (dy.length : K))
      let y ← idx ig i
      pure (ig, s.2 - y)) (overwrite L.len (fun i => L.gradNormx dy i * entry1 L.ivar b) dy, 0) =
      .ok (overwrite L.len (fun i => L.gradNormx dy i * entry1 L.ivar b +
            c * entry1 L.mu b * 2 / (dy.length : K)) dy,
        0 - ∑ j ∈ Finset.range L.len, (L.gradNormx dy j * entry1 L.ivar b +
            c * entry1 L.mu b * 2 / (dy.length : K))) := by
    intro c
    set ig2 := overwrite L.len (fun i => L.gradNormx dy i * entry1 L.ivar b) dy with hig2
    have hl : ig2.length = dy.length := length_overwrite _ _ _ hdy
    set F : Nat → K := fun i => L.gradNormx dy i * entry1 L.ivar b +
      c * entry1 L.mu b * 2 / (dy.length : K) with hF
    obtain ⟨t, e, h⟩ := forLoop_inv
      (fun i (s : List K × K) => do
        let x ← idx s.1 i
        let m ← idx L.mu b
        let ig ← put s.1 i (x + c * m * 2 / (dy.length : K))
        let y ← idx ig i
        pure (ig, s.2 - y))
      (fun i s => s.1 = overwrite i F ig2 ∧ s.2 = 0 - ∑ j ∈ Finset.range i, F j)
      0 L.len (Nat.zero_le _) (ig2, 0) ⟨(overwrite_zero _ _).symm, by simp⟩
      (fun i s _ hi hI => by
        obtain ⟨s1, s2⟩ := s
        obtain ⟨e1, e2⟩ := hI
        simp only at e1 e2
        subst e1
        subst e2
        have hli : i < (overwrite i F ig2).length := by
          rw [length_overwrite _ _ _ (by omega)]; omega
        beta_reduce
        rw [idx_overwrite_self _ _ _ (by omega), ok_bind, idx_eq_entry1 L.mu b hmu, ok_bind,
          put_overwrite _ _ _ (by omega) (by omega), ok_bind, idx_set_self _ _ _ hli, ok_bind]
        have hx : entry1 ig2 i + c * entry1 L.mu b * 2 / (dy.length : K) = F i := by
          rw [hig2, entry1_overwrite, if_pos hi]
        refine ⟨_, rfl, ?_, ?_⟩
        · simp only
          rw [hx, overwrite_succ i F ig2 (by omega)]
        · simp only
          rw [hx, Finset.sum_range_succ]
          ring)
    obtain ⟨t1, t2⟩ := t
    obtain ⟨e1, e2⟩ := h
    simp only at e1 e2
    rw [e, e1, e2, hig2, overwrite_overwrite]
  -- the loop that adds dmu
  have h7 : ∀ (F : Nat → K) (dmu : K), forLoop 0 L.len (fun i ig => do
      let x ← idx ig i
      put ig i (x + dmu)) (overwrite L.len F dy) =
      .ok (overwrite L.len (fun i => F i + dmu) dy) := by
    intro F dmu
    have hl : (overwrite L.len F dy).length = dy.length := length_overwrite _ _ _ hdy
    rw [← overwrite_overwrite L.len (fun i => F i + dmu) F dy]
    apply forLoop_overwrite _ _ _ _ _ (by omega)
    intro i hi
    rw [idx_overwrite_self _ _ _ (by omega), ok_bind, entry1_overwrite, if_pos hi]
    exact put_overwrite _ _ _ (by omega) (by omega)
  rw [BatchNormalization.backwardRow, idx_getD data b hb [], ok_bind]
  simp only
  rw [h1, ok_bind, h2, ok_bind, h3, ok_bind, h4, ok_bind, h5, ok_bind,
    idx_eq_entry1 L.sqrtvar b hsv, ok_bind, idx_eq_entry1 L.var b hv, ok_bind, h6, ok_bind]
  simp only
  rw [h7, zero_add]
  rfl

end BatchNormBackward

section BatchNormBackwardTheorem
variable {K : Type} [LinearOrderedField K]

/-- What `BatchNormalization::backward` returns and stores, when the caches hold a row of
statistics for every row of the gradient. -/
theorem BatchNormalization.bn_backward_eq (sqrt : K → K) (L : BatchNormalization K)
    (data : List (List K)) (hdy : ∀ r ∈ data, L.len ≤ r.length) (hg : L.len ≤ L.gamma.length)
    (hnx : L.normx.length = data.length) (hnx' : ∀ r ∈ L.normx, L.len ≤ r.length)
    (hmx : L.mux.length = data.length) (hmx' : ∀ r ∈ L.mux, L.len ≤ r.length)
    (hiv : L.ivar.length = data.length) (hsv : L.sqrtvar.length = data.length)
    (hv : L.var.length = data.length) (hmu : L.mu.length = data.length) :
    L.backward sqrt data = .ok
      ((List.range data.length).map (fun b => overwrite L.len (fun i =>
          L.gradNormx (data.getD b []) i * entry1 L.ivar b + L.dvarShift sqrt data b +
            (0 - ∑ j ∈ Finset.range L.len,
              (L.gradNormx (data.getD b []) j * entry1 L.ivar b + L.dvarShift sqrt data b)) /
              ((data.getD b []).length : K)) (data.getD b [])),
        { L with
          betagrad := (List.range data.length).map (fun b =>
            (List.range L.len).map (fun i => entry data b i))
          gammagrad := (List.range data.length).map (fun b =>
            (List.range L.len).map (fun i => entry data b i * entry L.normx b i)) }) := by
  rw [BatchNormalization.backward]
  show (mapRows (L.backwardRow sqrt data) (List.range data.length) >>= _) = _
  rw [mapRows_ok (L.backwardRow sqrt data) _ (List.range data.length) (fun b hb => by
    have hb' : b < data.length := List.mem_range.mp hb
    exact BatchNormalization.bn_backwardRow_eq sqrt L data b hb'
      (hdy _ (getD_mem data b hb' [])) hg (by omega)
      (hnx' _ (getD_mem L.normx b (by omega) [])) (by omega)
      (hmx' _ (getD_mem L.mux b (by omega) [])) (by omega) (by omega) (by omega) (by omega)),
    ok_bind]
  simp only [pure, Except.pure, List.map_map]
  rfl

/-- C6 (the code departs from the claim): on the layer with `len = 2`, `gamma = [1, 1]`,
`beta = [0, 0]`, after `forward([[0, 2]])` (row mean 1, variance 1, centred values
`[-1, 1]`, `ivar = 1 / sqrt(1 + epsilon)`), `backward([[1, 0]])` returns
`[ivar / 2, -ivar / 2]`: the variance term has dropped out. The standard input gradient
of the claim is `ivar / 2 - ivar^3 / 2` for the first feature, which differs as soon as
`sqrt(1 + epsilon)` is not 0. -/
theorem BatchNormalization.backward_drops_variance_term (sqrt : K → K) (ε : K)
    (hs : sqrt (1 + ε) ≠ 0) :
    ∃ y L1 dx L2,
      (BatchNormalization.fresh 2 ε [1, 1] [0, 0]).forward sqrt [[0, 2]] = .ok (y, L1) ∧
      L1.backward sqrt [[1, 0]] = .ok (dx, L2) ∧
      L1.mux = [[-1, 1]] ∧ L1.ivar = [1 / sqrt (1 + ε)] ∧
      dx = [[1 / sqrt (1 + ε) / 2, -(1 / sqrt (1 + ε)) / 2]] ∧
      stdInputGrad 2 (entry1 L1.ivar 0) (entry L1.mux 0) (L1.gradNormx [1, 0]) 0 =
        1 / sqrt (1 + ε) / 2 - (1 / sqrt (1 + ε)) ^ 3 / 2 ∧
      entry dx 0 0 ≠
        stdInputGrad 2 (entry1 L1.ivar 0) (entry L1.mux 0) (L1.gradNormx [1, 0]) 0 := by
  have hmean : (BatchNormalization.fresh 2 ε [1, 1] [0, 0]).rowMean [0, 2] = 1 := by
    simp [BatchNormalization.rowMean, BatchNormalization.fresh, Finset.sum_range_succ, entry1]
  have hvar : (BatchNormalization.fresh 2 ε [1, 1] [0, 0]).rowVar [0, 2] = 1 := by
    rw [BatchNormalization.rowVar, hmean]
    simp [BatchNormalization.fresh, Finset.sum_range_succ, entry1]
    norm_num
  have hivar : (BatchNormalization.fresh 2 ε [1, 1] [0, 0]).rowIvar sqrt [0, 2] =
      1 / sqrt (1 + ε) := by
    rw [BatchNormalization.rowIvar, hvar]
    rfl
  let L1 : BatchNormalization K :=
    { len := 2, epsilon := ε, gamma := [1, 1], beta := [0, 0], lastdata := [[0, 2]],
      mu := [1], var := [1], sqrtvar := [sqrt (1 + ε)], ivar := [1 / sqrt (1 + ε)],
      normx := [[-(1 / sqrt (1 + ε)), 1 / sqrt (1 + ε)]], mux := [[-1, 1]],
      betagrad := [], gammagrad := [] }
  have hf : (BatchNormalization.fresh 2 ε [1, 1] [0, 0]).forward sqrt [[0, 2]] =
      .ok ([[-(1 / sqrt (1 + ε)), 1 / sqrt (1 + ε)]], L1) := by
    rw [BatchNormalization.bn_forward_eq sqrt (BatchNormalization.fresh 2 ε [1, 1] [0, 0])
      [[0, 2]] (by simp [BatchNormalization.fresh]) rfl rfl]
    simp only [List.map_cons, List.map_nil, hmean, hvar, hivar]
    simp [BatchNormalization.fresh, overwrite, List.range_succ, entry1, L1]
    norm_num
  have hshift : ∀ c : K, (1 : K) * (1 / sqrt (1 + ε)) + c +
      (0 - ((1 * (1 / sqrt (1 + ε)) + c) + (0 * (1 / sqrt (1 + ε)) + c))) / 2 =
      1 / sqrt (1 + ε) / 2 := fun c => by ring
  have hshift' : ∀ c : K, (0 : K) * (1 / sqrt (1 + ε)) + c +
      (0 - ((1 * (1 / sqrt (1 + ε)) + c) + (0 * (1 / sqrt (1 + ε)) + c))) / 2 =
      -(1 / sqrt (1 + ε)) / 2 := fun c => by ring
  have hg0 : L1.gradNormx [1, 0] 0 = 1 := by simp [BatchNormalization.gradNormx, entry1, L1]
  have hg1 : L1.gradNormx [1, 0] 1 = 0 := by simp [BatchNormalization.gradNormx, entry1, L1]
  have hb : L1.backward sqrt [[1, 0]] = .ok
      ([[1 / sqrt (1 + ε) / 2, -(1 / sqrt (1 + ε)) / 2]],
        { L1 with betagrad := [[1, 0]], gammagrad := [[1 * -(1 / sqrt (1 + ε)), 0 * (1 / sqrt (1 + ε))]] }) := by
    rw [BatchNormalization.bn_backward_eq sqrt L1 [[1, 0]] (by simp [L1]) (by simp [L1])
      (by simp [L1]) (by simp [L1]) (by simp [L1]) (by simp [L1]) (by simp [L1]) (by simp [L1])
      (by simp [L1]) (by simp [L1])]
    have hr1 : List.range 1 = [0] := rfl
    have hrow : ([[1, 0]] : List (List K)).getD 0 [] = [1, 0] := rfl
    have hiv : entry1 L1.ivar 0 = 1 / sqrt (1 + ε) := rfl
    have hlen2 : L1.len = 2 := rfl
    refine congrArg Except.ok (Prod.ext ?_ ?_)
    · simp only [List.length_singleton, hr1, List.map_cons, List.map_nil]
      simp only [hrow, hlen2, hiv, overwrite, List.range_succ, List.range_zero,
        Finset.sum_range_succ, Finset.sum_range_zero, hg0, hg1, List.length_cons, List.length_nil,
        List.nil_append, List.singleton_append, List.map_cons, List.map_nil, List.drop_succ_cons,
        List.drop_nil, List.append_nil]
      generalize L1.dvarShift sqrt [[1, 0]] 0 = c
      have h2 : ((0 + 1 + 1 : Nat) : K) = 2 := by norm_num
      rw [h2, zero_add, hshift c, hshift' c]
    · simp only [List.length_singleton, hr1, List.map_cons, List.map_nil]
      simp [L1, List.range_succ, entry]
  have hstd : stdInputGrad 2 (entry1 L1.ivar 0) (entry L1.mux 0) (L1.gradNormx [1, 0]) 0 =
      1 / sqrt (1 + ε) / 2 - (1 / sqrt (1 + ε)) ^ 3 / 2 := by
    have hiv : entry1 L1.ivar 0 = 1 / sqrt (1 + ε) := rfl
    have hm0 : entry L1.mux 0 0 = -1 := rfl
    have hm1 : entry L1.mux 0 1 = 1 := rfl
    simp only [stdInputGrad, Finset.sum_range_succ, Finset.sum_range_zero, hg0, hg1, hiv, hm0,
      hm1]
    norm_num
    ring
  refine ⟨_, L1, _, _, hf, hb, rfl, rfl, rfl, hstd, ?_⟩
  rw [hstd]
  show 1 / sqrt (1 + ε) / 2 ≠ _
  intro h
  have h3 : (1 / sqrt (1 + ε)) ^ 3 = 0 := by linarith
  exact one_div_ne_zero hs (pow_eq_zero_iff (by norm_num) |>.mp h3)

/-- C6's divergence over the reals with the real square root and `epsilon = 10⁻⁸`. -/
theorem BatchNormalization.backward_drops_variance_term_witness :
    Real.sqrt (1 + 1 / 100000000) ≠ 0 ∧
    ∃ y L1 dx L2,
      (BatchNormalization.fresh 2 (1 / 100000000 : ℝ) [1, 1] [0, 0]).forward Real.sqrt
        [[0, 2]] = .ok (y, L1) ∧
      L1.backward Real.sqrt [[1, 0]] = .ok (dx, L2) ∧
      L1.mux = [[-1, 1]] ∧ L1.ivar = [1 / Real.sqrt (1 + 1 / 100000000)] ∧
      dx = [[1 / Real.sqrt (1 + 1 / 100000000) / 2, -(1 / Real.sqrt (1 + 1 / 100000000)) / 2]] ∧
      stdInputGrad 2 (entry1 L1.ivar 0) (entry L1.mux 0) (L1.gradNormx [1, 0]) 0 =
        1 / Real.sqrt (1 + 1 / 100000000) / 2 - (1 / Real.sqrt (1 + 1 / 100000000)) ^ 3 / 2 ∧
      entry dx 0 0 ≠
        stdInputGrad 2 (entry1 L1.ivar 0) (entry L1.mux 0) (L1.gradNormx [1, 0]) 0 :=
  ⟨(Real.sqrt_pos.mpr (by norm_num)).ne',
    BatchNormalization.backward_drops_variance_term Real.sqrt (1 / 100000000)
      (Real.sqrt_pos.mpr (by norm_num)).ne'⟩

end BatchNormBackwardTheorem

section ReLUTheorems
variable {K : Type} [LinearOrderedField K]

theorem map_range_entry1 {β : Type} (v : List K) (f : K → β) :
    (List.range v.length).map (fun i => f (entry1 v i)) = v.map f := by
  apply List.ext_getElem (by simp)
  intro i h1 h2
  have hi : i < v.length := by simpa using h2
  simp [entry1_eq_getElem v i hi]

theorem entry1_map (v : List K) (f : K → K) (i : Nat) (hi : i < v.length) :
    entry1 (v.map f) i = f (entry1 v i) := by
  simp [entry1, List.getD_eq_getElem?_getD, List.getElem?_eq_getElem hi]

/-- A loop that stores `f (row[i])` at index `i` of a zeroed vector of the row's length. -/
theorem mapLoop_eq (row : List K) (f : K → K) (body : Nat → List K → Res (List K))
    (hbody : ∀ i r, i < row.length → body i r = put r i (f (entry1 row i))) :
    forLoop 0 row.length body (zeros row.length) = .ok (row.map f) := by
  rw [← map_range_entry1 row f, ← overwrite_zeros_full]
  apply forLoop_overwrite _ _ _ _ _ (by rw [length_zeros])
  intro i hi
  rw [hbody i _ hi]
  exact put_overwrite _ _ _ (by rw [length_zeros]; omega) (by rw [length_zeros]; exact hi)

/-- What `ReLU::forward` returns and caches on a non-empty batch of uniform rows. -/
theorem ReLU.relu_forward_eq (L : ReLU K) (x : List (List K)) (n : Nat) (hx : x ≠ [])
    (hrows : ∀ r ∈ x, r.length = n) :
    L.forward x = .ok (x.map (fun row => row.map (fun v => max 0 v)), { lastdata := x }) := by
  have h0 : 0 < x.length := List.length_pos.mpr hx
  have hfirst : (x.getD 0 []).length = n := getD_row_length x n hrows 0 h0
  rw [ReLU.forward, idx_getD x 0 h0 [], ok_bind]
  simp only [hfirst]
  rw [mapRows_ok _ (fun row => row.map (fun v => max 0 v)) x (fun row hrow => by
    have hl := hrows row hrow
    rw [← hl]
    exact mapLoop_eq row (fun v => max 0 v) _ (fun i r hi => by
      rw [idx_eq_entry1 row i hi, ok_bind])), ok_bind]
  rfl

/-- What `ReLU::backward` returns for a gradient of the shape of the cached input. -/
theorem ReLU.relu_backward_eq (L : ReLU K) (dy : List (List K)) (n : Nat) (hdy : dy ≠ [])
    (hlen : dy.length = L.lastdata.length) (hrows : ∀ r ∈ dy, r.length = n)
    (hxrows : ∀ r ∈ L.lastdata, r.length = n) :
    L.backward dy = .ok ((List.range dy.length).map (fun b => (List.range n).map (fun i =>
      if entry L.lastdata b i > 0 then entry dy b i else 0)), L) := by
  have h0 : 0 < dy.length := List.length_pos.mpr hdy
  have hfirst : (dy.getD 0 []).length = n := getD_row_length dy n hrows 0 h0
  have hne : ¬ dy.length ≠ L.lastdata.length := fun h => h hlen
  rw [ReLU.backward, if_neg hne]
  show (idx dy 0 >>= _) = _
  rw [idx_getD dy 0 h0 [], ok_bind]
  simp only [hfirst]
  rw [mapRows_ok _ (fun b => (List.range n).map (fun i =>
      if entry L.lastdata b i > 0 then entry dy b i else 0)) (List.range dy.length)
    (fun b hb => by
      have hb' : b < dy.length := List.mem_range.mp hb
      have hl1 : (dy.getD b []).length = n := getD_row_length dy n hrows b hb'
      have hl2 : (L.lastdata.getD b []).length = n :=
        getD_row_length L.lastdata n hxrows b (by omega)
      have hne2 : ¬ (dy.getD b []).length ≠ (L.lastdata.getD b []).length := by
        rw [hl1, hl2]; exact fun h => h rfl
      rw [idx_getD dy b hb' [], ok_bind, idx_getD L.lastdata b (by omega) [], ok_bind,
        if_neg hne2]
      show forLoop 0 (dy.getD b []).length _ (zeros n) = .ok ((List.range n).map _)
      rw [hl1, ← overwrite_zeros_full]
      apply forLoop_overwrite _ _ _ _ _ (by rw [length_zeros])
      intro i hi
      rw [idx_eq_entry1 _ i (by omega), ok_bind, idx_eq_entry1 _ i (by omega), ok_bind]
      exact put_overwrite _ _ _ (by rw [length_zeros]; omega) (by rw [length_zeros]; exact hi)),
    ok_bind]
  rfl

/-- C9: on a non-empty batch of uniform rows `ReLU::forward` returns
`y[b][i] = max(0, x[b][i])`, and a following `backward(dy)` of the same shape returns
`dx[b][i] = dy[b][i]` where the cached input `x[b][i]` is positive and 0 elsewhere (an
input of exactly 0 gives gradient 0). -/
theorem ReLU.forward_backward_relu (L : ReLU K) (x dy : List (List K)) (n : Nat)
    (hx : x ≠ []) (hrows : ∀ r ∈ x, r.length = n) (hlen : dy.length = x.length)
    (hdrows : ∀ r ∈ dy, r.length = n) :
    ∃ y L1 dx L2, L.forward x = .ok (y, L1) ∧ L1.backward dy = .ok (dx, L2) ∧
      y.length = x.length ∧ dx.length = x.length ∧
      ∀ b, b < x.length →
        (y.getD b []).length = n ∧ (dx.getD b []).length = n ∧
        ∀ i, i < n →
          entry y b i = max 0 (entry x b i) ∧
          entry dx b i = if entry x b i > 0 then entry dy b i else 0 := by
  have hdy : dy ≠ [] := by
    intro h
    rw [h] at hlen
    exact hx (List.length_eq_zero.mp hlen.symm)
  have hb := ReLU.relu_backward_eq ({ lastdata := x } : ReLU K) dy n hdy hlen hdrows hrows
  refine ⟨_, _, _, _, ReLU.relu_forward_eq L x n hx hrows, hb, by simp, by simp [hlen], ?_⟩
  intro b hb'
  have hl : (x.getD b []).length = n := getD_row_length x n hrows b hb'
  refine ⟨?_, ?_, ?_⟩
  · rw [getD_map_of_lt _ x b hb' [] []]
    simpa using hl
  · rw [getD_map_range _ _ _ (by omega)]
    simp
  · intro i hi
    constructor
    · rw [entry_map _ x b i hb' [], entry1_map _ _ _ (by omega)]
      rfl
    · rw [entry_map_range _ _ _ _ (by omega), entry1_map_range _ _ _ hi]

/-- C9 at the row `[-2, 0, 3]`: `forward` gives `[0, 0, 3]`, and `backward([1, 1, 1])`
after it gives `[0, 0, 1]`. -/
theorem ReLU.forward_backward_relu_witness :
    (([[-2, 0, 3]] : List (List ℚ)) ≠ [] ∧
      (∀ r ∈ ([[-2, 0, 3]] : List (List ℚ)), r.length = 3) ∧
      ([[1, 1, 1]] : List (List ℚ)).length = ([[-2, 0, 3]] : List (List ℚ)).length ∧
      (∀ r ∈ ([[1, 1, 1]] : List (List ℚ)), r.length = 3)) ∧
    (∃ y L1 dx L2, (ReLU.mk []).forward ([[-2, 0, 3]] : List (List ℚ)) = .ok (y, L1) ∧
      L1.backward [[1, 1, 1]] = .ok (dx, L2) ∧
      y.length = ([[-2, 0, 3]] : List (List ℚ)).length ∧
      dx.length = ([[-2, 0, 3]] : List (List ℚ)).length ∧
      ∀ b, b < ([[-2, 0, 3]] : List (List ℚ)).length →
        (y.getD b []).length = 3 ∧ (dx.getD b []).length = 3 ∧
        ∀ i, i < 3 →
          entry y b i = max 0 (entry ([[-2, 0, 3]] : List (List ℚ)) b i) ∧
          entry dx b i = if entry ([[-2, 0, 3]] : List (List ℚ)) b i > 0
            then entry ([[1, 1, 1]] : List (List ℚ)) b i else 0) ∧
    ((ReLU.mk []).forward ([[-2, 0, 3]] : List (List ℚ))).map Prod.fst = .ok [[0, 0, 3]] ∧
    ((ReLU.mk []).forward ([[-2, 0, 3]] : List (List ℚ)) >>= fun r =>
      r.2.backward [[1, 1, 1]]).map Prod.fst = .ok [[0, 0, 1]] :=
  ⟨⟨by simp, by simp, rfl, by simp⟩,
    ReLU.forward_backward_relu (ReLU.mk []) [[-2, 0, 3]] [[1, 1, 1]] 3 (by simp) (by simp) rfl
      (by simp),
    by with_unfolding_all decide, by with_unfolding_all decide⟩

end ReLUTheorems

section SoftMaxTheorems
variable {K : Type} [LinearOrderedField K]

theorem foldl_add_eq_sum {α : Type} (f : α → K) (l : List α) (a : K) :
    l.foldl (fun sum num => sum + f num) a = a + (l.map f).sum := by
  induction l generalizing a with
  | nil => simp
  | cons x xs ih => rw [List.foldl_cons, ih, List.map_cons, List.sum_cons, add_assoc]

theorem sum_pos_of_pos (l : List K) (hne : l ≠ []) (hpos : ∀ x ∈ l, 0 < x) : 0 < l.sum := by
  induction l with
  | nil => exact absurd rfl hne
  | cons x xs ih =>
    rw [List.sum_cons]
    by_cases hxs : xs = []
    · subst hxs
      simpa using hpos x (List.mem_cons_self _ _)
    · exact add_pos (hpos x (List.mem_cons_self _ _))
        (ih hxs (fun y hy => hpos y (List.mem_cons_of_mem _ hy)))

theorem sum_map_div (l : List K) (f : K → K) (s : K) :
    (l.map (fun x => f x / s)).sum = (l.map f).sum / s := by
  induction l with
  | nil => simp
  | cons x xs ih => rw [List.map_cons, List.sum_cons, ih, List.map_cons, List.sum_cons, add_div]

/-- The row that `SoftMax::forward` builds from a non-empty row, into a vector of the
row's length: every entry is `exp(x - m) / Σ exp(x_j - m)` for the value `m` that
`std::max_element` yields. -/
theorem SoftMax.softmax_forwardRow_eq (exp : K → K) (row : List K) (hne : row ≠ []) :
    ∃ m, maxElement row = .ok m ∧
      SoftMax.forwardRow exp row.length row = .ok (row.map (fun x =>
        exp (x - m) / (row.map (fun y => exp (y - m))).sum)) := by
  obtain ⟨m, hm⟩ : ∃ m, maxElement row = .ok m := by
    cases row with
    | nil => exact absurd rfl hne
    | cons x xs => exact ⟨_, rfl⟩
  refine ⟨m, hm, ?_⟩
  rw [SoftMax.forwardRow, hm, ok_bind]
  simp only [foldl_add_eq_sum, zero_add]
  exact mapLoop_eq row (fun x => exp (x - m) / (row.map (fun y => exp (y - m))).sum) _
    (fun i r hi => by rw [idx_eq_entry1 row i hi, ok_bind])

/-- C10: on a non-empty batch of uniform non-empty rows, `SoftMax::forward` returns rows
whose entries are all strictly positive and sum to exactly 1 (over an ordered field, for
an exponential with positive values). -/
theorem SoftMax.forward_is_distribution (exp : K → K) (hexp : ∀ x, 0 < exp x)
    (data : List (List K)) (n : Nat) (hdata : data ≠ []) (hn : 1 ≤ n)
    (hrows : ∀ r ∈ data, r.length = n) :
    ∃ out, SoftMax.forward exp data = .ok out ∧ out.length = data.length ∧
      ∀ b, b < data.length →
        (out.getD b []).length = n ∧
        (∀ i, i < n → 0 < entry out b i) ∧
        (out.getD b []).sum = 1 := by
  classical
  have h0 : 0 < data.length := List.length_pos.mpr hdata
  have hfirst : (data.getD 0 []).length = n := getD_row_length data n hrows 0 h0
  have hrne : ∀ r ∈ data, r ≠ [] := by
    intro r hr h
    have := hrows r hr
    rw [h] at this
    simp at this
    omega
  let m : List K → K := fun row =>
    match maxElement row with
    | .ok v => v
    | .error _ => 0
  let g : List K → List K := fun row =>
    row.map (fun x => exp (x - m row) / (row.map (fun y => exp (y - m row))).sum)
  have hg : ∀ r ∈ data, SoftMax.forwardRow exp n r = .ok (g r) := by
    intro r hr
    obtain ⟨v, hv, e⟩ := SoftMax.softmax_forwardRow_eq exp r (hrne r hr)
    rw [hrows r hr] at e
    rw [e]
    have hmv : m r = v := by simp only [m, hv]
    simp only [g, hmv]
  refine ⟨data.map g, ?_, by simp, ?_⟩
  · rw [SoftMax.forward, idx_getD data 0 h0 [], ok_bind]
    simp only [hfirst]
    exact mapRows_ok _ g data hg
  · intro b hb
    have hmem := getD_mem data b hb []
    have hl := hrows _ hmem
    have hS : 0 < ((data.getD b []).map (fun y => exp (y - m (data.getD b [])))).sum :=
      sum_pos_of_pos _ (by simpa using hrne _ hmem) (by
        intro x hx
        obtain ⟨y, -, rfl⟩ := List.mem_map.mp hx
        exact hexp _)
    rw [getD_map_of_lt g data b hb [] []]
    refine ⟨by simpa [g] using hl, ?_, ?_⟩
    · intro i hi
      rw [entry_map g data b i hb []]
      simp only [g]
      rw [entry1_map _ _ _ (by omega)]
      exact div_pos (hexp _) hS
    · simp only [g]
      rw [sum_map_div (data.getD b []) (fun x => exp (x - m (data.getD b []))) _]
      exact div_self (ne_of_gt hS)

/-- C10 over the reals with the real exponential, on the row `[1, 2, 3]`. -/
theorem SoftMax.forward_is_distribution_witness :
    ((∀ x : ℝ, 0 < Real.exp x) ∧ ([[1, 2, 3]] : List (List ℝ)) ≠ [] ∧ 1 ≤ 3 ∧
      (∀ r ∈ ([[1, 2, 3]] : List (List ℝ)), r.length = 3)) ∧
    ∃ out, SoftMax.forward Real.exp ([[1, 2, 3]] : List (List ℝ)) = .ok out ∧
      out.length = ([[1, 2, 3]] : List (List ℝ)).length ∧
      ∀ b, b < ([[1, 2, 3]] : List (List ℝ)).length →
        (out.getD b []).length = 3 ∧
        (∀ i, i < 3 → 0 < entry out b i) ∧
        (out.getD b []).sum = 1 :=
  ⟨⟨Real.exp_pos, by simp, by decide, by simp⟩,
    SoftMax.forward_is_distribution Real.exp Real.exp_pos [[1, 2, 3]] 3 (by simp) (by decide)
      (by simp)⟩

end SoftMaxTheorems

section SoftMaxShift
variable {K : Type} [LinearOrderedField K]

theorem mapRows_map {α β γ : Type} (body : β → Res γ) (f : α → β) (l : List α) :
    mapRows body (l.map f) = mapRows (fun x => body (f x)) l := by
  induction l with
  | nil => rfl
  | cons x xs ih => simp only [List.map_cons, mapRows, ih]

theorem mapRows_congr {α β : Type} (body body' : α → Res β) (l : List α)
    (h : ∀ x ∈ l, body x = body' x) : mapRows body l = mapRows body' l := by
  induction l with
  | nil => rfl
  | cons x xs ih =>
    simp only [mapRows, h x (List.mem_cons_self _ _),
      ih (fun y hy => h y (List.mem_cons_of_mem _ hy))]

theorem foldl_max_shift (c : K) (xs : List K) (x : K) :
    (xs.map (fun y => y + c)).foldl (fun largest y => if largest < y then y else largest)
        (x + c) =
      xs.foldl (fun largest y => if largest < y then y else largest) x + c := by
  induction xs generalizing x with
  | nil => rfl
  | cons y ys ih =>
    simp only [List.map_cons, List.foldl_cons, add_lt_add_iff_right]
    by_cases h : x < y
    · simp only [if_pos h]; exact ih y
    · simp only [if_neg h]; exact ih x

/-- The value of `std::max_element` moves with a constant added to every entry. -/
theorem maxElement_shift (c : K) (row : List K) (m : K) (h : maxElement row = .ok m) :
    maxElement (row.map (fun y => y + c)) = .ok (m + c) := by
  cases row with
  | nil => cases h
  | cons x xs =>
    simp only [maxElement, Except.ok.injEq] at h
    simp only [List.map_cons, maxElement, foldl_max_shift, h]

/-- Adding a constant to every entry of a non-empty row does not change the row that
`SoftMax::forward` builds from it. -/
theorem SoftMax.forwardRow_shift (exp : K → K) (c : K) (row : List K) (hne : row ≠ []) :
    SoftMax.forwardRow exp row.length (row.map (fun y => y + c)) =
      SoftMax.forwardRow exp row.length row := by
  obtain ⟨m, hm, e⟩ := SoftMax.softmax_forwardRow_eq exp row hne
  obtain ⟨m', hm', e'⟩ := SoftMax.softmax_forwardRow_eq exp (row.map (fun y => y + c))
    (by simpa using hne)
  rw [maxElement_shift c row m hm] at hm'
  have hmm : m' = m + c := by
    simp only [Except.ok.injEq] at hm'
    exact hm'.symm
  subst hmm
  rw [List.length_map] at e'
  rw [e, e']
  simp only [List.map_map, Function.comp_def, add_sub_add_right_eq_sub]

/-- C11: `SoftMax::forward` is invariant under adding a constant to every element: on a
non-empty batch of uniform non-empty rows and for every `c`, the call on the shifted
batch returns the tensor that the call on the batch returns (for any `exp`, since the
maximum that is subtracted moves with the rows). -/
theorem SoftMax.forward_shift_invariant (exp : K → K) (data : List (List K)) (n : Nat) (c : K)
    (hdata : data ≠ []) (hn : 1 ≤ n) (hrows : ∀ r ∈ data, r.length = n) :
    ∃ out, SoftMax.forward exp data = .ok out ∧
      SoftMax.forward exp (data.map (fun row => row.map (fun x => x + c))) = .ok out ∧
      out.length = data.length ∧ ∀ r ∈ out, r.length = n := by
  have h0 : 0 < data.length := List.length_pos.mpr hdata
  have hfirst : (data.getD 0 []).length = n := getD_row_length data n hrows 0 h0
  have hrne : ∀ r ∈ data, r ≠ [] := by
    intro r hr h
    have := hrows r hr
    rw [h] at this
    simp at this
    omega
  have hok : ∀ r ∈ data, ∃ o, SoftMax.forwardRow exp n r = .ok o ∧ o.length = n := by
    intro r hr
    obtain ⟨m, -, e⟩ := SoftMax.softmax_forwardRow_eq exp r (hrne r hr)
    rw [hrows r hr] at e
    exact ⟨_, e, by simpa using hrows r hr⟩
  have hfwd : SoftMax.forward exp data = mapRows (SoftMax.forwardRow exp n) data := by
    rw [SoftMax.forward, idx_getD data 0 h0 [], ok_bind]
    simp only [hfirst]
  have hfwd' : SoftMax.forward exp (data.map (fun row => row.map (fun x => x + c))) =
      mapRows (SoftMax.forwardRow exp n) data := by
    have h0' : 0 < (data.map (fun row => row.map (fun x => x + c))).length := by simpa using h0
    have hfirst' : ((data.map (fun row => row.map (fun x => x + c))).getD 0 []).length = n := by
      rw [getD_map_of_lt _ data 0 h0 [] [], List.length_map]
      exact hfirst
    rw [SoftMax.forward, idx_getD _ 0 h0' [], ok_bind]
    simp only [hfirst']
    rw [mapRows_map]
    apply mapRows_congr
    intro r hr
    have := SoftMax.forwardRow_shift exp c r (hrne r hr)
    rwa [hrows r hr] at this
  let g : List K → List K := fun r =>
    match SoftMax.forwardRow exp n r with
    | .ok o => o
    | .error _ => []
  have hg : ∀ r ∈ data, SoftMax.forwardRow exp n r = .ok (g r) := by
    intro r hr
    obtain ⟨o, e, -⟩ := hok r hr
    simp only [g, e]
  refine ⟨data.map g, ?_, ?_, by simp, ?_⟩
  · rw [hfwd]; exact mapRows_ok _ g data hg
  · rw [hfwd']; exact mapRows_ok _ g data hg
  · intro r hr
    obtain ⟨x, hx, rfl⟩ := List.mem_map.mp hr
    obtain ⟨o, e, ho⟩ := hok x hx
    have := hg x hx
    rw [e] at this
    simp only [Except.ok.injEq] at this
    rw [← this]; exact ho

/-- C11 over the reals with the real exponential: the rows `[1, 2, 3]` and `[0, 0, 5]`
shifted by `c = 10`. -/
theorem SoftMax.forward_shift_invariant_witness :
    (([[1, 2, 3], [0, 0, 5]] : List (List ℝ)) ≠ [] ∧ 1 ≤ 3 ∧
      (∀ r ∈ ([[1, 2, 3], [0, 0, 5]] : List (List ℝ)), r.length = 3)) ∧
    ∃ out, SoftMax.forward Real.exp ([[1, 2, 3], [0, 0, 5]] : List (List ℝ)) = .ok out ∧
      SoftMax.forward Real.exp
        (([[1, 2, 3], [0, 0, 5]] : List (List ℝ)).map (fun row => row.map (fun x => x + 10))) =
          .ok out ∧
      out.length = ([[1, 2, 3], [0, 0, 5]] : List (List ℝ)).length ∧ ∀ r ∈ out, r.length = 3 :=
  ⟨⟨by simp, by decide, by simp⟩,
    SoftMax.forward_shift_invariant Real.exp [[1, 2, 3], [0, 0, 5]] 3 10 (by simp) (by decide)
      (by simp)⟩

end SoftMaxShift

section SigmoidTheorems
variable {K : Type} [LinearOrderedField K]

/-- What `Sigmoid::forward` returns and caches on a non-empty batch of uniform rows. -/
theorem Sigmoid.sigmoid_forward_eq (exp : K → K) (L : Sigmoid K) (x : List (List K)) (n : Nat)
    (hx : x ≠ []) (hrows : ∀ r ∈ x, r.length = n) :
    L.forward exp x = .ok (x.map (fun row => row.map (fun v => 1 / (exp (-v) + 1))),
      { lastdata := x.map (fun row => row.map (fun v => 1 / (exp (-v) + 1))) }) := by
  have h0 : 0 < x.length := List.length_pos.mpr hx
  have hfirst : (x.getD 0 []).length = n := getD_row_length x n hrows 0 h0
  rw [Sigmoid.forward, idx_getD x 0 h0 [], ok_bind]
  simp only [hfirst]
  rw [mapRows_ok _ (fun row => row.map (fun v => 1 / (exp (-v) + 1))) x (fun row hrow => by
    have hl := hrows row hrow
    rw [← hl]
    exact mapLoop_eq row (fun v => 1 / (exp (-v) + 1)) _ (fun i r hi => by
      rw [idx_eq_entry1 row i hi, ok_bind])), ok_bind]
  rfl

/-- What `Sigmoid::backward` returns for a gradient of the shape of the cached output. -/
theorem Sigmoid.sigmoid_backward_eq (L : Sigmoid K) (dy : List (List K)) (n : Nat)
    (hdy : dy ≠ []) (hlen : dy.length = L.lastdata.length) (hrows : ∀ r ∈ dy, r.length = n)
    (hyrows : ∀ r ∈ L.lastdata, r.length = n) :
    L.backward dy = .ok ((List.range dy.length).map (fun b => (List.range n).map (fun i =>
      entry dy b i * (1 - entry L.lastdata b i) * entry L.lastdata b i)), L) := by
  have h0 : 0 < dy.length := List.length_pos.mpr hdy
  have hfirst : (dy.getD 0 []).length = n := getD_row_length dy n hrows 0 h0
  have hne : ¬ dy.length ≠ L.lastdata.length := fun h => h hlen
  rw [Sigmoid.backward, if_neg hne]
  show (idx dy 0 >>= _) = _
  rw [idx_getD dy 0 h0 [], ok_bind]
  simp only [hfirst]
  rw [mapRows_ok _ (fun b => (List.range n).map (fun i =>
      entry dy b i * (1 - entry L.lastdata b i) * entry L.lastdata b i)) (List.range dy.length)
    (fun b hb => by
      have hb' : b < dy.length := List.mem_range.mp hb
      have hl1 : (dy.getD b []).length = n := getD_row_length dy n hrows b hb'
      have hl2 : (L.lastdata.getD b []).length = n :=
        getD_row_length L.lastdata n hyrows b (by omega)
      have hne2 : ¬ (L.lastdata.getD b []).length ≠ (dy.getD b []).length := by
        rw [hl1, hl2]; exact fun h => h rfl
      rw [idx_getD dy b hb' [], ok_bind, idx_getD L.lastdata b (by omega) [], ok_bind,
        if_neg hne2]
      show forLoop 0 (dy.getD b []).length _ (zeros n) = .ok ((List.range n).map _)
      rw [hl1, ← overwrite_zeros_full]
      apply forLoop_overwrite _ _ _ _ _ (by rw [length_zeros])
      intro i hi
      rw [idx_eq_entry1 _ i (by omega), ok_bind, idx_eq_entry1 _ i (by omega), ok_bind]
      exact put_overwrite _ _ _ (by rw [length_zeros]; omega) (by rw [length_zeros]; exact hi)),
    ok_bind]
  rfl

theorem entry_map_map (x : List (List K)) (f : K → K) (b i : Nat) (hb : b < x.length)
    (hi : i < (x.getD b []).length) :
    entry (x.map (fun row => row.map f)) b i = f (entry x b i) := by
  rw [entry_map _ x b i hb [], entry1_map _ _ _ hi]
  rfl

/-- C12: after `Sigmoid::forward(x)`, whatever the layer had cached before,
`backward(dy)` of the same shape returns `dx[b][i] = dy[b][i] * y[b][i] * (1 - y[b][i])`
with `y` the output of that forward call; where the cached output is 1/2 the result is
`1/4 * dy[b][i]`. -/
theorem Sigmoid.backward_uses_cached_output (exp : K → K) (L : Sigmoid K)
    (x dy : List (List K)) (n : Nat) (hx : x ≠ []) (hrows : ∀ r ∈ x, r.length = n)
    (hlen : dy.length = x.length) (hdrows : ∀ r ∈ dy, r.length = n) :
    ∃ y L1 dx L2, L.forward exp x = .ok (y, L1) ∧ L1.backward dy = .ok (dx, L2) ∧
      dx.length = x.length ∧
      ∀ b, b < x.length →
        (dx.getD b []).length = n ∧
        ∀ i, i < n →
          entry y b i = 1 / (exp (-(entry x b i)) + 1) ∧
          entry dx b i = entry dy b i * entry y b i * (1 - entry y b i) ∧
          (entry y b i = 1 / 2 → entry dx b i = 1 / 4 * entry dy b i) := by
  have hdy : dy ≠ [] := by
    intro h
    rw [h] at hlen
    exact hx (List.length_eq_zero.mp hlen.symm)
  have hyrows : ∀ r ∈ x.map (fun row => row.map (fun v => 1 / (exp (-v) + 1))),
      r.length = n := by
    intro r hr
    obtain ⟨r', hr', rfl⟩ := List.mem_map.mp hr
    simpa using hrows r' hr'
  have hb := Sigmoid.sigmoid_backward_eq
    ({ lastdata := x.map (fun row => row.map (fun v => 1 / (exp (-v) + 1))) } : Sigmoid K)
    dy n hdy (by simpa using hlen) hdrows hyrows
  refine ⟨_, _, _, _, Sigmoid.sigmoid_forward_eq exp L x n hx hrows, hb, by simp [hlen], ?_⟩
  intro b hb'
  have hl : (x.getD b []).length = n := getD_row_length x n hrows b hb'
  refine ⟨by rw [getD_map_range _ _ _ (by omega)]; simp, ?_⟩
  intro i hi
  have hy : entry (x.map (fun row => row.map (fun v => 1 / (exp (-v) + 1)))) b i =
      1 / (exp (-(entry x b i)) + 1) := entry_map_map x _ b i hb' (by omega)
  have hdx : entry ((List.range dy.length).map (fun b => (List.range n).map (fun i =>
      entry dy b i * (1 - entry (x.map (fun row => row.map (fun v => 1 / (exp (-v) + 1)))) b i) *
        entry (x.map (fun row => row.map (fun v => 1 / (exp (-v) + 1)))) b i))) b i =
      entry dy b i * entry (x.map (fun row => row.map (fun v => 1 / (exp (-v) + 1)))) b i *
        (1 - entry (x.map (fun row => row.map (fun v => 1 / (exp (-v) + 1)))) b i) := by
    rw [entry_map_range _ _ _ _ (by omega), entry1_map_range _ _ _ hi]
    ring
  refine ⟨hy, hdx, ?_⟩
  intro hhalf
  rw [hdx, hhalf]
  ring

/-- C12 over the reals with the real exponential: a layer that had cached `[[9, 9]]`,
`forward([[0, 1]])`, then `backward([[2, 3]])`. -/
theorem Sigmoid.backward_uses_cached_output_witness :
    (([[0, 1]] : List (List ℝ)) ≠ [] ∧ (∀ r ∈ ([[0, 1]] : List (List ℝ)), r.length = 2) ∧
      ([[2, 3]] : List (List ℝ)).length = ([[0, 1]] : List (List ℝ)).length ∧
      (∀ r ∈ ([[2, 3]] : List (List ℝ)), r.length = 2)) ∧
    ∃ y L1 dx L2, (Sigmoid.mk [[9, 9]]).forward Real.exp ([[0, 1]] : List (List ℝ)) =
        .ok (y, L1) ∧
      L1.backward [[2, 3]] = .ok (dx, L2) ∧
      dx.length = ([[0, 1]] : List (List ℝ)).length ∧
      ∀ b, b < ([[0, 1]] : List (List ℝ)).length →
        (dx.getD b []).length = 2 ∧
        ∀ i, i < 2 →
          entry y b i = 1 / (Real.exp (-(entry ([[0, 1]] : List (List ℝ)) b i)) + 1) ∧
          entry dx b i = entry ([[2, 3]] : List (List ℝ)) b i * entry y b i * (1 - entry y b i) ∧
          (entry y b i = 1 / 2 → entry dx b i = 1 / 4 * entry ([[2, 3]] : List (List ℝ)) b i) :=
  ⟨⟨by simp, by simp, rfl, by simp⟩,
    Sigmoid.backward_uses_cached_output Real.exp (Sigmoid.mk [[9, 9]]) [[0, 1]] [[2, 3]] 2
      (by simp) (by simp) rfl (by simp)⟩

/-- C13, in exact arithmetic: `Sigmoid::forward` computes `y = 1 / (1 + exp(-x))`
elementwise; for an exponential with positive values every result lies strictly between
0 and 1, and with `exp 0 = 1` the call `forward([[0]])` returns `[[1/2]]`. The field `K`
adds and divides without rounding; with the rounding of `double` the bound `y < 1` is
lost for large `x`. -/
theorem Sigmoid.forward_in_unit_interval (exp : K → K) (hpos : ∀ v, 0 < exp v)
    (hzero : exp 0 = 1) (L : Sigmoid K) (x : List (List K)) (n : Nat) (hx : x ≠ [])
    (hrows : ∀ r ∈ x, r.length = n) :
    (∃ y L1, L.forward exp x = .ok (y, L1) ∧ L1.lastdata = y ∧ y.length = x.length ∧
      ∀ b, b < x.length →
        (y.getD b []).length = n ∧
        ∀ i, i < n →
          entry y b i = 1 / (1 + exp (-(entry x b i))) ∧
          0 < entry y b i ∧ entry y b i < 1) ∧
    L.forward exp [[0]] = .ok ([[1 / 2]], { lastdata := [[1 / 2]] }) := by
  constructor
  · refine ⟨_, _, Sigmoid.sigmoid_forward_eq exp L x n hx hrows, rfl, by simp, ?_⟩
    intro b hb
    have hl : (x.getD b []).length = n := getD_row_length x n hrows b hb
    refine ⟨by rw [getD_map_of_lt _ x b hb [] []]; simpa using hl, ?_⟩
    intro i hi
    rw [entry_map_map x _ b i hb (by omega)]
    have hp := hpos (-(entry x b i))
    refine ⟨by rw [add_comm], by positivity, ?_⟩
    rw [div_lt_one (by positivity)]
    linarith
  · rw [Sigmoid.sigmoid_forward_eq exp L [[0]] 1 (by simp) (by simp)]
    have h : (1 : K) / (exp (-0) + 1) = 1 / 2 := by
      rw [neg_zero, hzero]; norm_num
    simp only [List.map_cons, List.map_nil, h]

/-- C13 in exact arithmetic over the reals with the real exponential, on the row
`[-3, 0, 40]`. -/
theorem Sigmoid.forward_in_unit_interval_witness :
    ((∀ v : ℝ, 0 < Real.exp v) ∧ Real.exp 0 = 1 ∧ ([[-3, 0, 40]] : List (List ℝ)) ≠ [] ∧
      (∀ r ∈ ([[-3, 0, 40]] : List (List ℝ)), r.length = 3)) ∧
    (∃ y L1, (Sigmoid.mk []).forward Real.exp ([[-3, 0, 40]] : List (List ℝ)) = .ok (y, L1) ∧
      L1.lastdata = y ∧ y.length = ([[-3, 0, 40]] : List (List ℝ)).length ∧
      ∀ b, b < ([[-3, 0, 40]] : List (List ℝ)).length →
        (y.getD b []).length = 3 ∧
        ∀ i, i < 3 →
          entry y b i = 1 / (1 + Real.exp (-(entry ([[-3, 0, 40]] : List (List ℝ)) b i))) ∧
          0 < entry y b i ∧ entry y b i < 1) ∧
    (Sigmoid.mk []).forward Real.exp ([[0]] : List (List ℝ)) =
      .ok ([[1 / 2]], { lastdata := [[1 / 2]] }) :=
  ⟨⟨Real.exp_pos, Real.exp_zero, by simp, by simp⟩,
    Sigmoid.forward_in_unit_interval Real.exp Real.exp_pos Real.exp_zero (Sigmoid.mk [])
      [[-3, 0, 40]] 3 (by simp) (by simp)⟩

end SigmoidTheorems

section FullyConnectedShape
variable {K : Type} [LinearOrderedField K]

/-- A batch loop in which some iteration fails, and every iteration either succeeds or
fails with the fault `e`, fails with `e`. -/
theorem mapRows_fault {α β : Type} (body : α → Res β) (e : Fault) (l : List α)
    (h : ∀ x ∈ l, (∃ y, body x = .ok y) ∨ body x = .error e)
    (hx : ∃ x ∈ l, body x = .error e) : mapRows body l = .error e := by
  induction l with
  | nil =>
    obtain ⟨x, hx, -⟩ := hx
    cases hx
  | cons a as ih =>
    rcases h a (List.mem_cons_self _ _) with ⟨y, hy⟩ | ha
    · have hrest : ∃ x ∈ as, body x = .error e := by
        obtain ⟨x, hx, hbx⟩ := hx
        rcases List.mem_cons.mp hx with rfl | hx'
        · rw [hy] at hbx; cases hbx
        · exact ⟨x, hx', hbx⟩
      rw [mapRows, hy, ok_bind, ih (fun x hx => h x (List.mem_cons_of_mem _ hx)) hrest]
      rfl
    · rw [mapRows, ha]
      rfl

theorem FullyConnected.forwardRow_assert (L : FullyConnected K) (row : List K)
    (h : row.length ≠ L.inlen) : L.forwardRow row = .error .assertion := by
  rw [FullyConnected.forwardRow, if_pos h]
  rfl

theorem FullyConnected.inputgradRow_assert (L : FullyConnected K) (data : List (List K))
    (b : Nat) (hb : b < data.length) (h : (data.getD b []).length ≠ L.outlen) :
    L.inputgradRow data b = .error .assertion := by
  rw [FullyConnected.inputgradRow, idx_getD data b hb [], ok_bind, if_pos h]
  rfl

/-- C14: with the asserts active, `FullyConnected::forward` fails by assertion exactly
when some input row has a length other than `inlen`, and otherwise returns a full batch
of rows of length `outlen`; `FullyConnected::backward` fails by assertion exactly when
the batch size of the gradient differs from that of the cached input or some gradient
row has a length other than `outlen`, and otherwise returns a tensor of shape
batch × `inlen`. -/
theorem FullyConnected.fails_fast_on_shape_mismatch (L : FullyConnected K) (hwf : L.WF)
    (hx : ∀ r ∈ L.lastdata, r.length = L.inlen) (x dOut : List (List K)) :
    (L.forward x = .error .assertion ↔ ∃ r ∈ x, r.length ≠ L.inlen) ∧
    ((∀ r ∈ x, r.length = L.inlen) →
      ∃ out L', L.forward x = .ok (out, L') ∧ out.length = x.length ∧
        ∀ r ∈ out, r.length = L.outlen) ∧
    (L.backward dOut = .error .assertion ↔
      (dOut.length ≠ L.lastdata.length ∨ ∃ r ∈ dOut, r.length ≠ L.outlen)) ∧
    ((dOut.length = L.lastdata.length ∧ ∀ r ∈ dOut, r.length = L.outlen) →
      ∃ g L', L.backward dOut = .ok (g, L') ∧ g.length = dOut.length ∧
        ∀ r ∈ g, r.length = L.inlen) := by
  have hfok : (∀ r ∈ x, r.length = L.inlen) →
      ∃ out L', L.forward x = .ok (out, L') ∧ out.length = x.length ∧
        ∀ r ∈ out, r.length = L.outlen := by
    intro hrows
    let g : List K → List K := fun row => (List.range L.outlen).map (fun i =>
      (∑ j ∈ Finset.range L.inlen, entry L.weight i j * entry1 row j) +
        (if L.usebias then entry1 L.bias i else 0))
    have hg : mapRows L.forwardRow x = .ok (x.map g) := mapRows_ok L.forwardRow g x
      (fun r hr => FullyConnected.fc_forwardRow_eq L hwf r (hrows r hr))
    refine ⟨x.map g, { L with lastdata := x }, ?_, by simp, ?_⟩
    · rw [FullyConnected.forward, hg, ok_bind]
      rfl
    · intro r hr
      obtain ⟨r', -, rfl⟩ := List.mem_map.mp hr
      simp [g]
  have hbok : (dOut.length = L.lastdata.length ∧ ∀ r ∈ dOut, r.length = L.outlen) →
      ∃ g L', L.backward dOut = .ok (g, L') ∧ g.length = dOut.length ∧
        ∀ r ∈ g, r.length = L.inlen := by
    rintro ⟨hlen, hrows⟩
    refine ⟨_, _, FullyConnected.fc_backward_eq L hwf dOut hlen hrows hx, by simp, ?_⟩
    intro r hr
    obtain ⟨b, -, rfl⟩ := List.mem_map.mp hr
    simp
  refine ⟨⟨?_, ?_⟩, hfok, ⟨?_, ?_⟩, hbok⟩
  · intro herr
    by_contra hno
    have hrows : ∀ r ∈ x, r.length = L.inlen := by
      intro r hr
      by_contra hne
      exact hno ⟨r, hr, hne⟩
    obtain ⟨out, L', hok, -, -⟩ := hfok hrows
    rw [hok] at herr
    cases herr
  · intro hbad
    have hm : mapRows L.forwardRow x = .error .assertion := by
      apply mapRows_fault
      · intro r _
        by_cases hr : r.length = L.inlen
        · exact Or.inl ⟨_, FullyConnected.fc_forwardRow_eq L hwf r hr⟩
        · exact Or.inr (FullyConnected.forwardRow_assert L r hr)
      · obtain ⟨r, hr, hne⟩ := hbad
        exact ⟨r, hr, FullyConnected.forwardRow_assert L r hne⟩
    rw [FullyConnected.forward, hm]
    rfl
  · intro herr
    by_contra hno
    have hgood : dOut.length = L.lastdata.length ∧ ∀ r ∈ dOut, r.length = L.outlen := by
      constructor
      · by_contra hne
        exact hno (Or.inl hne)
      · intro r hr
        by_contra hne
        exact hno (Or.inr ⟨r, hr, hne⟩)
    obtain ⟨g, L', hok, -, -⟩ := hbok hgood
    rw [hok] at herr
    cases herr
  · intro hbad
    by_cases hlen : dOut.length ≠ L.lastdata.length
    · rw [FullyConnected.backward, if_pos hlen]
      rfl
    · have hrow : ∃ r ∈ dOut, r.length ≠ L.outlen := by
        rcases hbad with h | h
        · exact absurd h hlen
        · exact h
      have hm : mapRows (L.inputgradRow dOut) (List.range dOut.length) = .error .assertion := by
        apply mapRows_fault
        · intro b hb
          have hb' : b < dOut.length := List.mem_range.mp hb
          by_cases hr : (dOut.getD b []).length = L.outlen
          · exact Or.inl ⟨_, FullyConnected.inputgradRow_eq L hwf dOut b hb' hr⟩
          · exact Or.inr (FullyConnected.inputgradRow_assert L dOut b hb' hr)
        · obtain ⟨r, hr, hne⟩ := hrow
          obtain ⟨b, hb, rfl⟩ := List.mem_iff_getElem.mp hr
          refine ⟨b, List.mem_range.mpr hb, ?_⟩
          apply FullyConnected.inputgradRow_assert L dOut b hb
          rw [List.getD_eq_getElem?_getD, List.getElem?_eq_getElem hb, Option.getD_some]
          exact hne
      rw [FullyConnected.backward, if_neg hlen]
      show (mapRows (L.inputgradRow dOut) (List.range dOut.length) >>= _) = _
      rw [hm]
      rfl

/-- C14 at `fcSample` (2-in/1-out, cached input of two rows): `forward([[3, 4, 5]])` and
`backward([[2]])`, `backward([[2], [3, 9]])` fail by assertion, `backward([[2], [3]])`
returns `[[2, 4], [3, 6]]`. -/
theorem FullyConnected.fails_fast_on_shape_mismatch_witness :
    (fcSample.WF ∧ ∀ r ∈ fcSample.lastdata, r.length = fcSample.inlen) ∧
    ((fcSample.forward [[3, 4, 5]] = .error .assertion ↔
        ∃ r ∈ ([[3, 4, 5]] : List (List ℚ)), r.length ≠ fcSample.inlen) ∧
      ((∀ r ∈ ([[3, 4, 5]] : List (List ℚ)), r.length = fcSample.inlen) →
        ∃ out L', fcSample.forward [[3, 4, 5]] = .ok (out, L') ∧
          out.length = ([[3, 4, 5]] : List (List ℚ)).length ∧
          ∀ r ∈ out, r.length = fcSample.outlen) ∧
      (fcSample.backward [[2], [3, 9]] = .error .assertion ↔
        (([[2], [3, 9]] : List (List ℚ)).length ≠ fcSample.lastdata.length ∨
          ∃ r ∈ ([[2], [3, 9]] : List (List ℚ)), r.length ≠ fcSample.outlen)) ∧
      ((([[2], [3, 9]] : List (List ℚ)).length = fcSample.lastdata.length ∧
          ∀ r ∈ ([[2], [3, 9]] : List (List ℚ)), r.length = fcSample.outlen) →
        ∃ g L', fcSample.backward [[2], [3, 9]] = .ok (g, L') ∧
          g.length = ([[2], [3, 9]] : List (List ℚ)).length ∧
          ∀ r ∈ g, r.length = fcSample.inlen)) ∧
    (fcSample.forward [[3, 4, 5]]).map Prod.fst = .error .assertion ∧
    (fcSample.backward [[2]]).map Prod.fst = .error .assertion ∧
    (fcSample.backward [[2], [3, 9]]).map Prod.fst = .error .assertion ∧
    (fcSample.backward [[2], [3]]).map Prod.fst = .ok [[2, 4], [3, 6]] :=
  ⟨⟨⟨rfl, by simp [fcSample], rfl⟩, by simp [fcSample]⟩,
    FullyConnected.fails_fast_on_shape_mismatch fcSample ⟨rfl, by simp [fcSample], rfl⟩
      (by simp [fcSample]) [[3, 4, 5]] [[2], [3, 9]],
    by with_unfolding_all decide, by with_unfolding_all decide, by with_unfolding_all decide,
    by with_unfolding_all decide⟩

end FullyConnectedShape

section BackwardShapeChecks
variable {K : Type} [LinearOrderedField K]

/-- The two layers that do check: on a gradient of uniform rows, `ReLU::backward` fails
by assertion when the batch size or the length of some cached row differs from the
gradient. -/
theorem ReLU.relu_backward_asserts (L : ReLU K) (dy : List (List K)) (n : Nat)
    (hrows : ∀ r ∈ dy, r.length = n)
    (hbad : dy.length ≠ L.lastdata.length ∨ ∃ r ∈ L.lastdata, r.length ≠ n) :
    L.backward dy = .error .assertion := by
  by_cases hlen : dy.length ≠ L.lastdata.length
  · rw [ReLU.backward, if_pos hlen]
    rfl
  · have hlen' : dy.length = L.lastdata.length := by
      by_contra h
      exact hlen h
    have hrow : ∃ r ∈ L.lastdata, r.length ≠ n := by
      rcases hbad with h | h
      · exact absurd h hlen
      · exact h
    obtain ⟨r, hr, hne⟩ := hrow
    obtain ⟨b0, hb0, rfl⟩ := List.mem_iff_getElem.mp hr
    have h0 : 0 < dy.length := by omega
    have hfirst : (dy.getD 0 []).length = n := getD_row_length dy n hrows 0 h0
    rw [ReLU.backward, if_neg hlen]
    show (idx dy 0 >>= _) = _
    rw [idx_getD dy 0 h0 [], ok_bind]
    simp only [hfirst]
    rw [mapRows_fault _ Fault.assertion (List.range dy.length)]
    · rfl
    · intro b hb
      have hb' : b < dy.length := List.mem_range.mp hb
      have hl1 : (dy.getD b []).length = n := getD_row_length dy n hrows b hb'
      rw [idx_getD dy b hb' [], ok_bind, idx_getD L.lastdata b (by omega) [], ok_bind]
      by_cases hl2 : (dy.getD b []).length ≠ (L.lastdata.getD b []).length
      · right
        rw [if_pos hl2]
        rfl
      · left
        have hl2' : (L.lastdata.getD b []).length = n := by
          by_contra h
          exact hl2 (by rw [hl1]; exact fun e => h e.symm)
        rw [if_neg hl2]
        refine ⟨(List.range n).map (fun i =>
          if entry L.lastdata b i > 0 then entry dy b i else 0), ?_⟩
        show forLoop 0 (dy.getD b []).length _ (zeros n) = .ok ((List.range n).map _)
        rw [hl1, ← overwrite_zeros_full]
        apply forLoop_overwrite _ _ _ _ _ (by rw [length_zeros])
        intro i hi
        rw [idx_eq_entry1 _ i (by omega), ok_bind, idx_eq_entry1 _ i (by omega), ok_bind]
        exact put_overwrite _ _ _ (by rw [length_zeros]; omega) (by rw [length_zeros]; exact hi)
    · refine ⟨b0, List.mem_range.mpr (by omega), ?_⟩
      have hl1 : (dy.getD b0 []).length = n := getD_row_length dy n hrows b0 (by omega)
      have hl2 : (dy.getD b0 []).length ≠ (L.lastdata.getD b0 []).length := by
        rw [hl1, List.getD_eq_getElem?_getD, List.getElem?_eq_getElem hb0, Option.getD_some]
        exact fun e => hne e.symm
      rw [idx_getD dy b0 (by omega) [], ok_bind, idx_getD L.lastdata b0 hb0 [], ok_bind,
        if_pos hl2]
      rfl

/-- On a gradient of uniform rows, `Sigmoid::backward` fails by assertion when the
batch size or the length of some cached row differs from the gradient. -/
theorem Sigmoid.sigmoid_backward_asserts (L : Sigmoid K) (dy : List (List K)) (n : Nat)
    (hrows : ∀ r ∈ dy, r.length = n)
    (hbad : dy.length ≠ L.lastdata.length ∨ ∃ r ∈ L.lastdata, r.length ≠ n) :
    L.backward dy = .error .assertion := by
  by_cases hlen : dy.length ≠ L.lastdata.length
  · rw [Sigmoid.backward, if_pos hlen]
    rfl
  · have hlen' : dy.length = L.lastdata.length := by
      by_contra h
      exact hlen h
    have hrow : ∃ r ∈ L.lastdata, r.length ≠ n := by
      rcases hbad with h | h
      · exact absurd h hlen
      · exact h
    obtain ⟨r, hr, hne⟩ := hrow
    obtain ⟨b0, hb0, rfl⟩ := List.mem_iff_getElem.mp hr
    have h0 : 0 < dy.length := by omega
    have hfirst : (dy.getD 0 []).length = n := getD_row_length dy n hrows 0 h0
    rw [Sigmoid.backward, if_neg hlen]
    show (idx dy 0 >>= _) = _
    rw [idx_getD dy 0 h0 [], ok_bind]
    simp only [hfirst]
    rw [mapRows_fault _ Fault.assertion (List.range dy.length)]
    · rfl
    · intro b hb
      have hb' : b < dy.length := List.mem_range.mp hb
      have hl1 : (dy.getD b []).length = n := getD_row_length dy n hrows b hb'
      rw [idx_getD dy b hb' [], ok_bind, idx_getD L.lastdata b (by omega) [], ok_bind]
      by_cases hl2 : (L.lastdata.getD b []).length ≠ (dy.getD b []).length
      · right
        rw [if_pos hl2]
        rfl
      · left
        have hl2' : (L.lastdata.getD b []).length = n := by
          by_contra h
          exact hl2 (by rw [hl1]; exact h)
        rw [if_neg hl2]
        refine ⟨(List.range n).map (fun i =>
          entry dy b i * (1 - entry L.lastdata b i) * entry L.lastdata b i), ?_⟩
        show forLoop 0 (dy.getD b []).length _ (zeros n) = .ok ((List.range n).map _)
        rw [hl1, ← overwrite_zeros_full]
        apply forLoop_overwrite _ _ _ _ _ (by rw [length_zeros])
        intro i hi
        rw [idx_eq_entry1 _ i (by omega), ok_bind, idx_eq_entry1 _ i (by omega), ok_bind]
        exact put_overwrite _ _ _ (by rw [length_zeros]; omega) (by rw [length_zeros]; exact hi)
    · refine ⟨b0, List.mem_range.mpr (by omega), ?_⟩
      have hl1 : (dy.getD b0 []).length = n := getD_row_length dy n hrows b0 (by omega)
      have hl2 : (L.lastdata.getD b0 []).length ≠ (dy.getD b0 []).length := by
        rw [hl1, List.getD_eq_getElem?_getD, List.getElem?_eq_getElem hb0, Option.getD_some]
        exact hne
      rw [idx_getD dy b0 (by omega) [], ok_bind, idx_getD L.lastdata b0 hb0 [], ok_bind,
        if_pos hl2]
      rfl

/-- C15 (the code departs from the claim): `BatchNormalization::backward` has no
assertion. After `forward` on a batch of two rows, `backward` on a gradient of one row
returns a tensor of one row; after `forward` on a row of two features, `backward` on a
row of three features returns a row of three features whose last entry is the gradient
itself. `BinaryAct::backward` asserts the batch size only: after `forward` on a row of
three features, `backward([[1, 1]])` returns the two entries
`hard_tanh_back(x[0][i]) * 1`, the cached row cut to the length of the gradient. -/
theorem backward_without_shape_assertion (sqrt sign hard_tanh_back : K → K) (ε : K) :
    (∃ y L1 dx L2,
      (BatchNormalization.fresh 2 ε [1, 1] [0, 0]).forward sqrt [[0, 2], [1, 3]] = .ok (y, L1) ∧
      L1.backward sqrt [[1, 0]] = .ok (dx, L2) ∧
      y.map List.length = [2, 2] ∧ dx.map List.length = [2]) ∧
    (∃ y L1 dx L2,
      (BatchNormalization.fresh 2 ε [1, 1] [0, 0]).forward sqrt [[0, 2]] = .ok (y, L1) ∧
      L1.backward sqrt [[1, 0, 7]] = .ok (dx, L2) ∧
      y.map List.length = [2] ∧ dx.map List.length = [3] ∧ entry dx 0 2 = 7) ∧
    (∃ y L1 L2,
      BinaryAct.forward sign ⟨[]⟩ [[1 / 2, 2, 3]] = .ok (y, L1) ∧
      y.map List.length = [3] ∧
      L1.backward hard_tanh_back [[1, 1]] =
        .ok ([[hard_tanh_back (1 / 2) * 1, hard_tanh_back 2 * 1]], L2)) :=
  ⟨⟨_, _, _, _, rfl, rfl, rfl, rfl⟩, ⟨_, _, _, _, rfl, rfl, rfl, rfl, rfl⟩,
    ⟨_, _, _, rfl, rfl, rfl⟩⟩

end BackwardShapeChecks

section FrameTheorems
variable {K : Type} [LinearOrderedField K]

theorem FullyConnected.fc_forward_inv (L L1 : FullyConnected K) (x out : List (List K))
    (h : L.forward x = .ok (out, L1)) :
    mapRows L.forwardRow x = .ok out ∧ L1 = { L with lastdata := x } := by
  rw [FullyConnected.forward] at h
  cases hm : mapRows L.forwardRow x with
  | error e => rw [hm] at h; cases h
  | ok ret =>
    rw [hm, ok_bind] at h
    simp only [pure, Except.pure, Except.ok.injEq, Prod.mk.injEq] at h
    exact ⟨by rw [h.1], h.2.symm⟩

theorem FullyConnected.fc_backward_inv (L L2 : FullyConnected K) (d g : List (List K))
    (h : L.backward d = .ok (g, L2)) :
    ∃ wg bg, L2 = { L with weightgrad := wg, biasgrad := bg } := by
  rw [FullyConnected.backward] at h
  by_cases hlen : d.length ≠ L.lastdata.length
  · rw [if_pos hlen] at h; cases h
  · rw [if_neg hlen] at h
    change (mapRows (L.inputgradRow d) (List.range d.length) >>= _) = _ at h
    cases h1 : mapRows (L.inputgradRow d) (List.range d.length) with
    | error e => rw [h1] at h; cases h
    | ok ig =>
      rw [h1, ok_bind] at h
      cases h2 : mapRows (L.gradRow d) (List.range d.length) with
      | error e => rw [h2] at h; cases h
      | ok grads =>
        rw [h2, ok_bind] at h
        simp only [pure, Except.pure, Except.ok.injEq, Prod.mk.injEq] at h
        exact ⟨_, _, h.2.symm⟩

theorem FullyConnected.fc_forward_map_fst (L : FullyConnected K) (x : List (List K)) :
    (L.forward x).map Prod.fst = mapRows L.forwardRow x := by
  rw [FullyConnected.forward]
  cases mapRows L.forwardRow x <;> rfl

theorem BatchNormalization.bn_forward_inv (sqrt : K → K) (B B1 : BatchNormalization K)
    (x out : List (List K)) (h : B.forward sqrt x = .ok (out, B1)) :
    (mapRows (B.forwardRow sqrt) x).map (fun rows => rows.map BNRow.ret) = .ok out ∧
      B1.len = B.len ∧ B1.epsilon = B.epsilon ∧ B1.gamma = B.gamma ∧ B1.beta = B.beta := by
  rw [BatchNormalization.forward] at h
  cases hm : mapRows (B.forwardRow sqrt) x with
  | error e => rw [hm] at h; cases h
  | ok rows =>
    rw [hm, ok_bind] at h
    simp only [pure, Except.pure, Except.ok.injEq, Prod.mk.injEq] at h
    obtain ⟨h1, h2⟩ := h
    subst h2
    exact ⟨by rw [← h1]; rfl, rfl, rfl, rfl, rfl⟩

theorem BatchNormalization.bn_backward_inv (sqrt : K → K) (B B2 : BatchNormalization K)
    (d g : List (List K)) (h : B.backward sqrt d = .ok (g, B2)) :
    B2.len = B.len ∧ B2.epsilon = B.epsilon ∧ B2.gamma = B.gamma ∧ B2.beta = B.beta := by
  rw [BatchNormalization.backward] at h
  change (mapRows (B.backwardRow sqrt d) (List.range d.length) >>= _) = _ at h
  cases hm : mapRows (B.backwardRow sqrt d) (List.range d.length) with
  | error e => rw [hm] at h; cases h
  | ok rows =>
    rw [hm, ok_bind] at h
    simp only [pure, Except.pure, Except.ok.injEq, Prod.mk.injEq] at h
    obtain ⟨-, h2⟩ := h
    subst h2
    exact ⟨rfl, rfl, rfl, rfl⟩

theorem BatchNormalization.bn_forward_map_fst (sqrt : K → K) (B : BatchNormalization K)
    (x : List (List K)) :
    (B.forward sqrt x).map Prod.fst =
      (mapRows (B.forwardRow sqrt) x).map (fun rows => rows.map BNRow.ret) := by
  rw [BatchNormalization.forward]
  cases mapRows (B.forwardRow sqrt) x <;> rfl

/-- The row that `BatchNormalization::forward` computes depends on the layer through
`len`, `epsilon`, `gamma` and `beta` only. -/
theorem BatchNormalization.bn_forwardRow_congr (sqrt : K → K) (B B' : BatchNormalization K)
    (h1 : B'.len = B.len) (h2 : B'.epsilon = B.epsilon) (h3 : B'.gamma = B.gamma)
    (h4 : B'.beta = B.beta) : B'.forwardRow sqrt = B.forwardRow sqrt := by
  funext row
  simp only [BatchNormalization.forwardRow, h1, h2, h3, h4]

/-- C16: the learned parameters are changed by `update` only. `FullyConnected::forward`
and `FullyConnected::backward` return a layer with the `weight` and `bias` they were
called on, `BatchNormalization::forward` and `BatchNormalization::backward` one with the
same `gamma` and `beta`; hence a second `forward` on the same input, directly or after a
`backward`, returns the output of the first. -/
theorem forward_backward_keep_parameters (sqrt : K → K)
    (L L1 La L2 : FullyConnected K) (x out d g : List (List K))
    (B B1 Ba B2 : BatchNormalization K) (bx bout bd bg : List (List K))
    (hf : L.forward x = .ok (out, L1)) (hb : La.backward d = .ok (g, L2))
    (hbf : B.forward sqrt bx = .ok (bout, B1)) (hbb : Ba.backward sqrt bd = .ok (bg, B2)) :
    (L1.weight = L.weight ∧ L1.bias = L.bias ∧ L2.weight = La.weight ∧ L2.bias = La.bias ∧
      (L1.forward x).map Prod.fst = .ok out ∧
      (∀ x', (L2.forward x').map Prod.fst = (La.forward x').map Prod.fst)) ∧
    (B1.gamma = B.gamma ∧ B1.beta = B.beta ∧ B2.gamma = Ba.gamma ∧ B2.beta = Ba.beta ∧
      (B1.forward sqrt bx).map Prod.fst = .ok bout ∧
      (∀ x', (B2.forward sqrt x').map Prod.fst = (Ba.forward sqrt x').map Prod.fst)) := by
  obtain ⟨hm, rfl⟩ := FullyConnected.fc_forward_inv L L1 x out hf
  obtain ⟨wg, bg', rfl⟩ := FullyConnected.fc_backward_inv La L2 d g hb
  obtain ⟨hbm, b1, b2, b3, b4⟩ := BatchNormalization.bn_forward_inv sqrt B B1 bx bout hbf
  obtain ⟨c1, c2, c3, c4⟩ := BatchNormalization.bn_backward_inv sqrt Ba B2 bd bg hbb
  refine ⟨⟨rfl, rfl, rfl, rfl, ?_, ?_⟩, ⟨b3, b4, c3, c4, ?_, ?_⟩⟩
  · rw [FullyConnected.fc_forward_map_fst]
    exact hm
  · intro x'
    rw [FullyConnected.fc_forward_map_fst, FullyConnected.fc_forward_map_fst]
    rfl
  · rw [BatchNormalization.bn_forward_map_fst,
      BatchNormalization.bn_forwardRow_congr sqrt B B1 b1 b2 b3 b4]
    exact hbm
  · intro x'
    rw [BatchNormalization.bn_forward_map_fst, BatchNormalization.bn_forward_map_fst,
      BatchNormalization.bn_forwardRow_congr sqrt Ba B2 c1 c2 c3 c4]

/-- C16 over the reals with the real square root: a 2-in/1-out layer with bias,
`forward([[3, 4]])` then `backward([[2]])`, and a batch-normalisation layer of two
features, `forward([[0, 2]])` then `backward([[1, 0]])`. -/
theorem forward_backward_keep_parameters_witness :
    ∃ (L1 L2 : FullyConnected ℝ) (out g : List (List ℝ)) (B1 B2 : BatchNormalization ℝ)
      (bout bg : List (List ℝ)),
      ((⟨true, 2, 1, [[1, 2]], [], [5], [], []⟩ : FullyConnected ℝ).forward [[3, 4]] =
          .ok (out, L1) ∧
        L1.backward [[2]] = .ok (g, L2) ∧
        (BatchNormalization.fresh 2 (1 / 100000) [3, -2] [7, 9] : BatchNormalization ℝ).forward
          Real.sqrt [[0, 2]] = .ok (bout, B1) ∧
        B1.backward Real.sqrt [[1, 0]] = .ok (bg, B2)) ∧
      (L1.weight = [[1, 2]] ∧ L1.bias = [5] ∧ L2.weight = L1.weight ∧ L2.bias = L1.bias ∧
        (L1.forward [[3, 4]]).map Prod.fst = .ok out ∧
        (∀ x', (L2.forward x').map Prod.fst = (L1.forward x').map Prod.fst)) ∧
      (B1.gamma = [3, -2] ∧ B1.beta = [7, 9] ∧ B2.gamma = B1.gamma ∧ B2.beta = B1.beta ∧
        (B1.forward Real.sqrt [[0, 2]]).map Prod.fst = .ok bout ∧
        (∀ x', (B2.forward Real.sqrt x').map Prod.fst =
          (B1.forward Real.sqrt x').map Prod.fst)) :=
  ⟨_, _, _, _, _, _, _, _, ⟨rfl, rfl, rfl, rfl⟩,
    forward_backward_keep_parameters Real.sqrt ⟨true, 2, 1, [[1, 2]], [], [5], [], []⟩ _ _ _
      [[3, 4]] _ [[2]] _ (BatchNormalization.fresh 2 (1 / 100000) [3, -2] [7, 9]) _ _ _
      [[0, 2]] _ [[1, 0]] _ rfl rfl rfl rfl⟩

end FrameTheorems

section IdentityBackward
variable {K : Type} [LinearOrderedField K]

/-- A batch loop all of whose iterations return rows of the length of their input returns
a tensor of the shape of the input. -/
theorem mapRows_shape {α : Type} (body : List α → Res (List α)) (l : List (List α))
    (h : ∀ r ∈ l, ∃ o, body r = .ok o ∧ o.length = r.length) :
    ∃ out, mapRows body l = .ok out ∧ out.map List.length = l.map List.length := by
  induction l with
  | nil => exact ⟨[], rfl, rfl⟩
  | cons r rs ih =>
    obtain ⟨o, ho, hl⟩ := h r (List.mem_cons_self _ _)
    obtain ⟨out, hout, hs⟩ := ih (fun r' hr' => h r' (List.mem_cons_of_mem _ hr'))
    refine ⟨o :: out, ?_, ?_⟩
    · rw [mapRows, ho, ok_bind, hout, ok_bind]
      rfl
    · simp only [List.map_cons, hl, hs]

/-- C17: `Linear`, `SoftMax`, `MeanNormalization` and `CenterNormalization` have an
identity `backward`, and on a non-empty batch `x` of uniform non-empty rows (with
`len` at most the row length for the two normalisations) `forward` returns, and
`backward(forward(x))` has the batch size and the row lengths of `x`. -/
theorem identity_backward_keeps_shape (exp : K → K) (Lm : MeanNormalization)
    (Lc : CenterNormalization) (fuel n : Nat) (x : List (List K)) (hx : x ≠ []) (hn : 1 ≤ n)
    (hrows : ∀ r ∈ x, r.length = n) (hm : Lm.len ≤ n) (hc : Lc.len ≤ n) (hfuel : n ≤ fuel) :
    (∀ d : List (List K), Linear.backward d = d ∧ SoftMax.backward d = d ∧
      Lm.backward d = d ∧ Lc.backward d = d) ∧
    (Linear.backward (Linear.forward x)).map List.length = x.map List.length ∧
    (∃ y, SoftMax.forward exp x = .ok y ∧
      (SoftMax.backward y).map List.length = x.map List.length) ∧
    (∃ y, Lm.forward x = .ok y ∧ (Lm.backward y).map List.length = x.map List.length) ∧
    (∃ y, Lc.forward fuel x = .ok y ∧ (Lc.backward y).map List.length = x.map List.length) := by
  have h0 : 0 < x.length := List.length_pos.mpr hx
  have hfirst : (x.getD 0 []).length = n := getD_row_length x n hrows 0 h0
  refine ⟨fun d => ⟨rfl, rfl, rfl, rfl⟩, rfl, ?_, ?_, ?_⟩
  · have hfwd : SoftMax.forward exp x = mapRows (SoftMax.forwardRow exp n) x := by
      rw [SoftMax.forward, idx_getD x 0 h0 [], ok_bind]
      simp only [hfirst]
    rw [hfwd]
    apply mapRows_shape
    intro r hr
    have hne : r ≠ [] := by
      intro h
      have := hrows r hr
      rw [h] at this
      simp at this
      omega
    obtain ⟨m, -, e⟩ := SoftMax.softmax_forwardRow_eq exp r hne
    rw [hrows r hr] at e
    exact ⟨_, e, by simp⟩
  · apply mapRows_shape
    intro r hr
    have hl : Lm.len ≤ r.length := by rw [hrows r hr]; exact hm
    exact ⟨_, MeanNormalization.mean_forwardRow_eq Lm r hl, length_overwrite _ _ _ hl⟩
  · apply mapRows_shape
    intro r hr
    have hl : Lc.len ≤ r.length := by rw [hrows r hr]; exact hc
    obtain ⟨c, -, e⟩ := CenterNormalization.center_forwardRow_eq fuel Lc r
      (by rw [hrows r hr]; exact hn) hl (by rw [hrows r hr]; exact hfuel)
    exact ⟨_, e, length_overwrite _ _ _ hl⟩

/-- C17 over the reals with the real exponential, on the batch
`[[5, 1, 3], [2, 2, 0]]` with `len = 2` for both normalisations. -/
theorem identity_backward_keeps_shape_witness :
    (([[5, 1, 3], [2, 2, 0]] : List (List ℝ)) ≠ [] ∧ 1 ≤ 3 ∧
      (∀ r ∈ ([[5, 1, 3], [2, 2, 0]] : List (List ℝ)), r.length = 3) ∧
      (MeanNormalization.mk 2).len ≤ 3 ∧ (CenterNormalization.mk 2).len ≤ 3 ∧ 3 ≤ 3) ∧
    ((∀ d : List (List ℝ), Linear.backward d = d ∧ SoftMax.backward d = d ∧
        (MeanNormalization.mk 2).backward d = d ∧ (CenterNormalization.mk 2).backward d = d) ∧
      (Linear.backward (Linear.forward ([[5, 1, 3], [2, 2, 0]] : List (List ℝ)))).map
          List.length = ([[5, 1, 3], [2, 2, 0]] : List (List ℝ)).map List.length ∧
      (∃ y, SoftMax.forward Real.exp ([[5, 1, 3], [2, 2, 0]] : List (List ℝ)) = .ok y ∧
        (SoftMax.backward y).map List.length =
          ([[5, 1, 3], [2, 2, 0]] : List (List ℝ)).map List.length) ∧
      (∃ y, (MeanNormalization.mk 2).forward ([[5, 1, 3], [2, 2, 0]] : List (List ℝ)) = .ok y ∧
        ((MeanNormalization.mk 2).backward y).map List.length =
          ([[5, 1, 3], [2, 2, 0]] : List (List ℝ)).map List.length) ∧
      (∃ y, (CenterNormalization.mk 2).forward 3 ([[5, 1, 3], [2, 2, 0]] : List (List ℝ)) =
          .ok y ∧
        ((CenterNormalization.mk 2).backward y).map List.length =
          ([[5, 1, 3], [2, 2, 0]] : List (List ℝ)).map List.length)) :=
  ⟨⟨by simp, by decide, by simp, by decide, by decide, by decide⟩,
    identity_backward_keeps_shape Real.exp (MeanNormalization.mk 2) (CenterNormalization.mk 2)
      3 3 [[5, 1, 3], [2, 2, 0]] (by simp) (by decide) (by simp) (by decide) (by decide)
      (by decide)⟩

end IdentityBackward

section PartitionTheorems
variable {α : Type}

/-- Rearranging inside `[left, right)` only permutes the contents of that range. -/
theorem Shuffle.range_perm {left right : Nat} {v w : List α} (h : Shuffle left right v w)
    (hlr : left ≤ right) (hr : right ≤ v.length) :
    ((w.drop left).take (right - left)).Perm ((v.drop left).take (right - left)) := by
  have hlen := h.len
  have hsplit : ∀ u : List α, u = u.take left ++ ((u.drop left).take (right - left) ++
      u.drop right) := by
    intro u
    have h1 : (u.drop left).drop (right - left) = u.drop right := by
      rw [List.drop_drop]
      congr 1
      omega
    rw [← h1, List.take_append_drop, List.take_append_drop]
  have htake : w.take left = v.take left := by
    apply List.ext_getElem (by simp [hlen])
    intro i h1 h2
    have hi : i < left := by
      simp at h1; omega
    rw [List.getElem_take, List.getElem_take]
    exact h.outside i (by omega) (by omega) (Or.inl hi)
  have hdrop : w.drop right = v.drop right := by
    apply List.ext_getElem (by simp [hlen])
    intro i h1 h2
    have hi : right + i < v.length := by
      simp at h2; omega
    rw [List.getElem_drop, List.getElem_drop]
    exact h.outside (right + i) (by omega) hi (Or.inr (by omega))
  have hp := h.perm
  rw [hsplit w, hsplit v, htake, hdrop] at hp
  exact (List.perm_append_right_iff _).mp ((List.perm_append_left_iff _).mp hp)

variable [LinearOrder α]

/-- C18: for `left < right ≤ vec.size()`, `partition(vec, left, right)` returns an
index `p` with `left ≤ p < right`; afterwards `vec[p]` is the pivot (the former
`vec[left]`), every entry at an index in `[left, p)` is below the pivot, every entry at
an index in `(p, right)` is at least the pivot, the contents of `[left, right)` are a
permutation of the former contents, and the entries outside `[left, right)` are as
before. -/
theorem partition_splits_range (vec : List α) (left right : Nat) (hlr : left < right)
    (hr : right ≤ vec.length) :
    ∃ out p, partition vec left right = .ok (out, p) ∧ out.length = vec.length ∧
      left ≤ p ∧ p < right ∧
      (∀ (h : p < out.length), out[p] = vec[left]) ∧
      (∀ i (h : i < out.length), left ≤ i → i < p → out[i] < vec[left]) ∧
      (∀ i (h : i < out.length), p < i → i < right → vec[left] ≤ out[i]) ∧
      ((out.drop left).take (right - left)).Perm ((vec.drop left).take (right - left)) ∧
      (∀ i (h : i < out.length) (h' : i < vec.length), (i < left ∨ right ≤ i) →
        out[i] = vec[i]) := by
  obtain ⟨out, p, e, sh, h1, h2, h3, h4, h5⟩ := partition_post vec left right hlr hr
  exact ⟨out, p, e, sh.len, h1, h2, h3, h4, h5, sh.range_perm (le_of_lt hlr) hr, sh.outside⟩

/-- C18 at `[9, 3, 1, 4, 1, 0]` with the range `[1, 5)`: the pivot 3 ends at index 3 of
`[9, 1, 1, 3, 4, 0]`. -/
theorem partition_splits_range_witness :
    (1 < 5 ∧ 5 ≤ ([9, 3, 1, 4, 1, 0] : List Nat).length) ∧
    (∃ out p, partition ([9, 3, 1, 4, 1, 0] : List Nat) 1 5 = .ok (out, p) ∧
      out.length = ([9, 3, 1, 4, 1, 0] : List Nat).length ∧
      1 ≤ p ∧ p < 5 ∧
      (∀ (h : p < out.length), out[p] = ([9, 3, 1, 4, 1, 0] : List Nat)[1]) ∧
      (∀ i (h : i < out.length), 1 ≤ i → i < p → out[i] < ([9, 3, 1, 4, 1, 0] : List Nat)[1]) ∧
      (∀ i (h : i < out.length), p < i → i < 5 → ([9, 3, 1, 4, 1, 0] : List Nat)[1] ≤ out[i]) ∧
      ((out.drop 1).take (5 - 1)).Perm ((([9, 3, 1, 4, 1, 0] : List Nat).drop 1).take (5 - 1)) ∧
      (∀ i (h : i < out.length) (h' : i < ([9, 3, 1, 4, 1, 0] : List Nat).length),
        (i < 1 ∨ 5 ≤ i) → out[i] = ([9, 3, 1, 4, 1, 0] : List Nat)[i])) ∧
    partition ([9, 3, 1, 4, 1, 0] : List Nat) 1 5 = .ok ([9, 1, 1, 3, 4, 0], 3) :=
  ⟨⟨by decide, by decide⟩,
    partition_splits_range [9, 3, 1, 4, 1, 0] 1 5 (by decide) (by decide), by decide⟩

/-- C19: for a non-empty `vec` and `k < vec.size()`, the call
`k_th_smallest(vec, k, 0, vec.size())` returns within `vec.size()` iterations of its
loop, so no `vec.at(...)` is out of range. In every iteration on a range with
`left ≤ k < right ≤ vec.size()` the call of `partition` returns an index `p` in
`[left, right)`; the loop then either stops (`p = k`) or goes on with a strictly
shorter range that still holds `k`: `[left, p)` when `k < p`, `[p+1, right)` when
`p < k`. -/
theorem k_th_smallest_terminates_in_range (vec : List α) (k : Nat) (hk : k < vec.length) :
    (∀ fuel, vec.length ≤ fuel →
      ∃ x, k_th_smallest fuel vec k 0 vec.length = .ok x ∧
        k_th_smallest fuel vec k 0 vec.length ≠ .error .fuel ∧
        k_th_smallest fuel vec k 0 vec.length ≠ .error .outOfRange) ∧
    (∀ (v : List α) (left right : Nat), left ≤ k → k < right → right ≤ v.length →
      ∃ out p, partition v left right = .ok (out, p) ∧ out.length = v.length ∧
        left ≤ p ∧ p < right ∧
        (k < p → left ≤ k ∧ k < p ∧ p ≤ out.length ∧ p - left < right - left) ∧
        (p < k → p + 1 ≤ k ∧ k < right ∧ right ≤ out.length ∧
          right - (p + 1) < right - left)) := by
  constructor
  · intro fuel hfuel
    obtain ⟨x, e, -⟩ := k_th_smallest_post vec k fuel hk hfuel
    refine ⟨x, e, ?_, ?_⟩ <;> rw [e] <;> exact fun h => by cases h
  · intro v left right h1 h2 h3
    obtain ⟨out, p, e, sh, hp1, hp2, -, -, -⟩ := partition_post v left right (by omega) h3
    have hlen := sh.len
    exact ⟨out, p, e, hlen, hp1, hp2, fun h => ⟨h1, h, by omega, by omega⟩,
      fun h => ⟨by omega, h2, by omega, by omega⟩⟩

/-- C19 at `[5, 1, 5, 2, 2, 1, 9]`, rank 4. -/
theorem k_th_smallest_terminates_in_range_witness :
    4 < ([5, 1, 5, 2, 2, 1, 9] : List Nat).length ∧
    ((∀ fuel, ([5, 1, 5, 2, 2, 1, 9] : List Nat).length ≤ fuel →
      ∃ x, k_th_smallest fuel ([5, 1, 5, 2, 2, 1, 9] : List Nat) 4 0
          ([5, 1, 5, 2, 2, 1, 9] : List Nat).length = .ok x ∧
        k_th_smallest fuel ([5, 1, 5, 2, 2, 1, 9] : List Nat) 4 0
          ([5, 1, 5, 2, 2, 1, 9] : List Nat).length ≠ .error .fuel ∧
        k_th_smallest fuel ([5, 1, 5, 2, 2, 1, 9] : List Nat) 4 0
          ([5, 1, 5, 2, 2, 1, 9] : List Nat).length ≠ .error .outOfRange) ∧
    (∀ (v : List Nat) (left right : Nat), left ≤ 4 → 4 < right → right ≤ v.length →
      ∃ out p, partition v left right = .ok (out, p) ∧ out.length = v.length ∧
        left ≤ p ∧ p < right ∧
        (4 < p → left ≤ 4 ∧ 4 < p ∧ p ≤ out.length ∧ p - left < right - left) ∧
        (p < 4 → p + 1 ≤ 4 ∧ 4 < right ∧ right ≤ out.length ∧
          right - (p + 1) < right - left))) ∧
    k_th_smallest 7 ([5, 1, 5, 2, 2, 1, 9] : List Nat) 4 0 7 = .ok 5 :=
  ⟨by decide, k_th_smallest_terminates_in_range [5, 1, 5, 2, 2, 1, 9] 4 (by decide),
    by decide⟩

end PartitionTheorems

section BatchNormCentered
variable {K : Type} [LinearOrderedField K]

theorem sum_map_range (n : Nat) (f : Nat → K) :
    ((List.range n).map f).sum = ∑ i ∈ Finset.range n, f i := by
  induction n with
  | zero => simp
  | succ n ih => rw [List.range_succ, List.map_append, List.sum_append, ih,
      Finset.sum_range_succ]; simp

/-- The constant that `BatchNormalization::backward` adds for the variance is taken away
again by its mean step. -/
theorem centered_of_shift (n : Nat) (hn : 1 ≤ n) (g : Nat → K) (iv c : K) (i : Nat) :
    g i * iv + c + (0 - ∑ j ∈ Finset.range n, (g j * iv + c)) / (n : K) =
      iv * (g i - (∑ j ∈ Finset.range n, g j) / (n : K)) := by
  have hne : (n : K) ≠ 0 := Nat.cast_ne_zero.mpr (by omega)
  have hs : ∑ j ∈ Finset.range n, (g j * iv + c) =
      (∑ j ∈ Finset.range n, g j) * iv + (n : K) * c := by
    rw [Finset.sum_add_distrib, Finset.sum_mul, Finset.sum_const, Finset.card_range,
      nsmul_eq_mul]
  rw [hs]
  field_simp
  ring

theorem sum_centered_eq_zero (n : Nat) (hn : 1 ≤ n) (g : Nat → K) (iv : K) :
    ∑ i ∈ Finset.range n, iv * (g i - (∑ j ∈ Finset.range n, g j) / (n : K)) = 0 := by
  have hne : (n : K) ≠ 0 := Nat.cast_ne_zero.mpr (by omega)
  rw [← Finset.mul_sum, Finset.sum_sub_distrib, Finset.sum_const, Finset.card_range,
    nsmul_eq_mul, mul_div_cancel₀ _ hne, sub_self, mul_zero]

/-- What `BatchNormalization::backward` returns on gradient rows of length `len ≥ 1`:
the centred, rescaled gradient; the cached `mu` and `mux` do not occur in it. -/
theorem BatchNormalization.bn_backward_centered (sqrt : K → K) (L : BatchNormalization K)
    (data : List (List K)) (hlen : 1 ≤ L.len) (hrows : ∀ r ∈ data, r.length = L.len)
    (hg : L.gamma.length = L.len) (hc : L.Cached data.length) :
    L.backward sqrt data = .ok
      ((List.range data.length).map (fun b => (List.range L.len).map (fun i =>
          entry1 L.ivar b * (L.gradNormx (data.getD b []) i -
            (∑ j ∈ Finset.range L.len, L.gradNormx (data.getD b []) j) / (L.len : K)))),
        { L with
          betagrad := (List.range data.length).map (fun b =>
            (List.range L.len).map (fun i => entry data b i))
          gammagrad := (List.range data.length).map (fun b =>
            (List.range L.len).map (fun i => entry data b i * entry L.normx b i)) }) := by
  rw [BatchNormalization.bn_backward_eq sqrt L data (fun r hr => le_of_eq (hrows r hr).symm)
    (le_of_eq hg.symm) hc.normx_len (fun r hr => le_of_eq (hc.normx_row r hr).symm)
    hc.mux_len (fun r hr => le_of_eq (hc.mux_row r hr).symm) hc.ivar_len hc.sqrtvar_len
    hc.var_len hc.mu_len]
  refine congrArg Except.ok (Prod.ext ?_ rfl)
  apply List.map_congr_left
  intro b hb
  have hb' : b < data.length := List.mem_range.mp hb
  have hl : (data.getD b []).length = L.len := getD_row_length data _ hrows b hb'
  have hfull := overwrite_full (fun i =>
      L.gradNormx (data.getD b []) i * entry1 L.ivar b + L.dvarShift sqrt data b +
        (0 - ∑ j ∈ Finset.range L.len,
          (L.gradNormx (data.getD b []) j * entry1 L.ivar b + L.dvarShift sqrt data b)) /
          ((data.getD b []).length : K)) (data.getD b [])
  rw [hl] at hfull
  rw [hl, hfull]
  apply List.map_congr_left
  intro i _
  exact centered_of_shift L.len hlen _ _ _ i

/-- C20: for a `BatchNormalization` layer with `len ≥ 1` and gradient rows of length
`len`, `backward` returns `dx[b][i] = ivar[b] * (g[i] - mean(g))` with
`g[i] = dy[b][i] * gamma[i]`: the term added through `dvar` is the same for every
feature and the mean step cancels it. Every returned row sums to zero, and the result is
the same whatever the cached `mu` and `mux` hold. -/
theorem BatchNormalization.backward_is_centered_gradient (sqrt : K → K)
    (L : BatchNormalization K) (data : List (List K)) (hlen : 1 ≤ L.len)
    (hrows : ∀ r ∈ data, r.length = L.len) (hg : L.gamma.length = L.len)
    (hc : L.Cached data.length) :
    ∃ dx L', L.backward sqrt data = .ok (dx, L') ∧ dx.length = data.length ∧
      (∀ b, b < data.length →
        (dx.getD b []).length = L.len ∧
        (∀ i, i < L.len →
          entry dx b i = entry1 L.ivar b * (L.gradNormx (data.getD b []) i -
            (∑ j ∈ Finset.range L.len, L.gradNormx (data.getD b []) j) / (L.len : K))) ∧
        (dx.getD b []).sum = 0) ∧
      (∀ mu' mux', mu'.length = data.length → mux'.length = data.length →
        (∀ r ∈ mux', r.length = L.len) →
        ∃ L'', ({ L with mu := mu', mux := mux' }).backward sqrt data = .ok (dx, L'')) := by
  refine ⟨_, _, BatchNormalization.bn_backward_centered sqrt L data hlen hrows hg hc, by simp,
    ?_, ?_⟩
  · intro b hb
    refine ⟨?_, ?_, ?_⟩
    · rw [getD_map_range _ _ _ hb]; simp
    · intro i hi
      rw [entry_map_range _ _ _ _ hb, entry1_map_range _ _ _ hi]
    · rw [getD_map_range _ _ _ hb, sum_map_range]
      exact sum_centered_eq_zero L.len hlen _ _
  · intro mu' mux' h1 h2 h3
    have hc' : BatchNormalization.Cached ({ L with mu := mu', mux := mux' }) data.length :=
      ⟨h1, hc.var_len, hc.sqrtvar_len, hc.ivar_len, hc.normx_len, hc.normx_row, h2, h3⟩
    exact ⟨_, BatchNormalization.bn_backward_centered sqrt { L with mu := mu', mux := mux' }
      data hlen hrows hg hc'⟩

/-- C20 over the reals with the real square root, at `bnCached` and the gradient
`[[1, 4]]`. -/
theorem BatchNormalization.backward_is_centered_gradient_witness :
    (1 ≤ (bnCached Real.sqrt (1 / 100000000)).len ∧
      (∀ r ∈ ([[1, 4]] : List (List ℝ)), r.length = (bnCached Real.sqrt (1 / 100000000)).len) ∧
      (bnCached Real.sqrt (1 / 100000000)).gamma.length =
        (bnCached Real.sqrt (1 / 100000000)).len ∧
      (bnCached Real.sqrt (1 / 100000000)).Cached ([[1, 4]] : List (List ℝ)).length) ∧
    ∃ dx L', (bnCached Real.sqrt (1 / 100000000)).backward Real.sqrt [[1, 4]] = .ok (dx, L') ∧
      dx.length = ([[1, 4]] : List (List ℝ)).length ∧
      (∀ b, b < ([[1, 4]] : List (List ℝ)).length →
        (dx.getD b []).length = (bnCached Real.sqrt (1 / 100000000)).len ∧
        (∀ i, i < (bnCached Real.sqrt (1 / 100000000)).len →
          entry dx b i = entry1 (bnCached Real.sqrt (1 / 100000000)).ivar b *
            ((bnCached Real.sqrt (1 / 100000000)).gradNormx
                (([[1, 4]] : List (List ℝ)).getD b []) i -
              (∑ j ∈ Finset.range (bnCached Real.sqrt (1 / 100000000)).len,
                (bnCached Real.sqrt (1 / 100000000)).gradNormx
                  (([[1, 4]] : List (List ℝ)).getD b []) j) /
                ((bnCached Real.sqrt (1 / 100000000)).len : ℝ))) ∧
        (dx.getD b []).sum = 0) ∧
      (∀ mu' mux', mu'.length = ([[1, 4]] : List (List ℝ)).length →
        mux'.length = ([[1, 4]] : List (List ℝ)).length →
        (∀ r ∈ mux', r.length = (bnCached Real.sqrt (1 / 100000000)).len) →
        ∃ L'', ({ bnCached Real.sqrt (1 / 100000000) with mu := mu', mux := mux' }).backward
          Real.sqrt [[1, 4]] = .ok (dx, L'')) :=
  ⟨⟨by decide, by simp [bnCached], rfl,
      ⟨rfl, rfl, rfl, rfl, rfl, by simp [bnCached], rfl, by simp [bnCached]⟩⟩,
    BatchNormalization.backward_is_centered_gradient Real.sqrt
      (bnCached Real.sqrt (1 / 100000000)) [[1, 4]] (by decide) (by simp [bnCached]) rfl
      ⟨rfl, rfl, rfl, rfl, rfl, by simp [bnCached], rfl, by simp [bnCached]⟩⟩

end BatchNormCentered

section RoundingTheorems

variable {K : Type} [LinearOrderedField K] [FloorRing K]

/-- Rounding to the nearest integer does not step over an integer above. -/
theorem roundEven_le_of_le (t : K) (n : Int) (h : t ≤ (n : K)) : roundEven t ≤ n := by
  have hf : Int.floor t ≤ n := Int.floor_le_iff.mpr (lt_of_le_of_lt h (by simp))
  rcases lt_or_eq_of_le hf with hlt | heq
  · unfold roundEven
    split_ifs <;> omega
  · have ht : t = (n : K) := le_antisymm h (by rw [← heq]; exact Int.floor_le t)
    unfold roundEven
    rw [ht, Int.floor_intCast, sub_self, if_pos (by norm_num)]

/-- Rounding to the nearest integer does not step over an integer below. -/
theorem le_roundEven_of_le (t : K) (n : Int) (h : (n : K) ≤ t) : n ≤ roundEven t := by
  have hf : n ≤ Int.floor t := Int.le_floor.mpr h
  unfold roundEven
  split_ifs <;> omega

/-- A value less than one half away from an integer rounds to that integer. -/
theorem roundEven_eq_of_near (t : K) (n : Int) (h1 : (n : K) - 1 / 2 < t)
    (h2 : t < (n : K) + 1 / 2) : roundEven t = n := by
  have hlo : n - 1 ≤ Int.floor t := by
    apply Int.le_floor.mpr
    push_cast
    linarith
  have hhi : Int.floor t ≤ n := by
    apply Int.floor_le_iff.mpr
    linarith
  have hfl := Int.floor_le t
  have hlt := Int.lt_floor_add_one t
  rcases (by omega : Int.floor t = n ∨ Int.floor t = n - 1) with he | he
  · unfold roundEven
    rw [he, if_pos (by linarith)]
  · unfold roundEven
    rw [he] at hfl hlt ⊢
    push_cast at hfl hlt ⊢
    rw [if_neg (by linarith), if_pos (by linarith)]
    ring

/-- The spacing is positive. -/
theorem ulp_pos (p : Nat) (emin : Int) (x : K) : 0 < ulp p emin x := by
  unfold ulp
  positivity

/-- The binary exponent of a value between two consecutive powers of two. -/
theorem log_two_eq (x : K) (e : Int) (hlo : (2 : K) ^ e ≤ x) (hhi : x < (2 : K) ^ (e + 1)) :
    Int.log 2 x = e := by
  have hx : 0 < x := lt_of_lt_of_le (by positivity) hlo
  have h1 : e ≤ Int.log 2 x := by
    apply (Int.zpow_le_iff_le_log (by norm_num) hx).mp
    simpa using hlo
  have h2 : Int.log 2 x < e + 1 := by
    apply (Int.lt_zpow_iff_log_lt (by norm_num) hx).mp
    simpa using hhi
  omega

/-- The spacing around a value whose binary exponent is `e`. -/
theorem ulp_eq (p : Nat) (emin : Int) (x : K) (e : Int) (hlo : (2 : K) ^ e ≤ |x|)
    (hhi : |x| < (2 : K) ^ (e + 1)) (hemin : emin ≤ e) :
    ulp p emin x = (2 : K) ^ (e - ((p : Int) - 1)) := by
  unfold ulp
  rw [log_two_eq |x| e hlo hhi, max_eq_left hemin]

/-- How a value of binary exponent `e` is rounded when it lies less than half a spacing
from the `n`-th multiple of the spacing. -/
theorem roundFloat_eq (p : Nat) (emin : Int) (x : K) (e n : Int) (hlo : (2 : K) ^ e ≤ |x|)
    (hhi : |x| < (2 : K) ^ (e + 1)) (hemin : emin ≤ e)
    (h1 : ((n : K) - 1 / 2) * (2 : K) ^ (e - ((p : Int) - 1)) < x)
    (h2 : x < ((n : K) + 1 / 2) * (2 : K) ^ (e - ((p : Int) - 1))) :
    roundFloat p emin x = (n : K) * (2 : K) ^ (e - ((p : Int) - 1)) := by
  unfold roundFloat
  rw [ulp_eq p emin x e hlo hhi hemin]
  have hq : (0 : K) < (2 : K) ^ (e - ((p : Int) - 1)) := by positivity
  rw [roundEven_eq_of_near _ n ((lt_div_iff₀ hq).mpr h1) ((div_lt_iff₀ hq).mpr h2)]

/-- Rounding keeps the sign of a non-negative value. -/
theorem roundFloat_nonneg (p : Nat) (emin : Int) (x : K) (hx : 0 ≤ x) :
    0 ≤ roundFloat p emin x := by
  unfold roundFloat
  have hq := ulp_pos p emin x
  have h0 : (0 : Int) ≤ roundEven (x / ulp p emin x) :=
    le_roundEven_of_le _ 0 (by simpa using div_nonneg hx hq.le)
  have h0' : (0 : K) ≤ ((roundEven (x / ulp p emin x) : Int) : K) := by exact_mod_cast h0
  exact mul_nonneg h0' hq.le

/-- Rounding does not step over a power of two above: `x ≤ 2 ^ k` gives
`roundFloat x ≤ 2 ^ k`. -/
theorem roundFloat_le_two_zpow (p : Nat) (emin : Int) (x : K) (k : Int) (hp : 1 ≤ p)
    (hk : emin ≤ k) (hx0 : 0 < x) (hx : x ≤ (2 : K) ^ k) :
    roundFloat p emin x ≤ (2 : K) ^ k := by
  have habs : |x| = x := abs_of_pos hx0
  have hlog : Int.log 2 x ≤ k := by
    have h := Int.zpow_log_le_self (b := 2) (by norm_num) hx0
    have h' : ((2 : Nat) : K) ^ Int.log 2 x ≤ ((2 : Nat) : K) ^ k := le_trans h (by simpa using hx)
    exact (zpow_le_zpow_iff_right₀ (by norm_num)).mp h'
  have he : max (Int.log 2 x) emin ≤ k := max_le hlog hk
  unfold roundFloat
  have hq := ulp_pos p emin x
  obtain ⟨m, hm⟩ : ∃ m : Nat, k - (max (Int.log 2 x) emin - ((p : Int) - 1)) = (m : Int) :=
    ⟨(k - (max (Int.log 2 x) emin - ((p : Int) - 1))).toNat, by omega⟩
  have hpow : (2 : K) ^ k = (((2 : Int) ^ m : Int) : K) * ulp p emin x := by
    unfold ulp
    rw [habs]
    push_cast
    rw [← zpow_natCast, ← hm, ← zpow_add₀ (by norm_num)]
    congr 1
    ring
  have hle : x / ulp p emin x ≤ (((2 : Int) ^ m : Int) : K) := by
    rw [div_le_iff₀ hq, ← hpow]
    exact hx
  have hr := roundEven_le_of_le _ _ hle
  have hr' : ((roundEven (x / ulp p emin x) : Int) : K) ≤ (((2 : Int) ^ m : Int) : K) := by
    exact_mod_cast hr
  rw [hpow]
  exact mul_le_mul_of_nonneg_right hr' hq.le

end RoundingTheorems

section RoundedLayers

variable {K : Type} [LinearOrderedField K]

/-- With no rounding the rounded `Sigmoid::forward` is the exact one. -/
theorem Sigmoid.sigmoid_forwardRounded_id (exp : K → K) (L : Sigmoid K) (data : List (List K)) :
    L.forwardRounded id exp data = L.forward exp data :=
  rfl

/-- With no rounding the rounded `BatchNormalization::forward` is the exact one. -/
theorem BatchNormalization.bn_forwardRounded_id (sqrt : K → K) (L : BatchNormalization K)
    (data : List (List K)) : L.forwardRounded id sqrt data = L.forward sqrt data :=
  rfl

/-- The rounded `Sigmoid::forward` on a batch of one row of one value. -/
theorem Sigmoid.forwardRounded_single (rnd exp : K → K) (L : Sigmoid K) (x : K) :
    L.forwardRounded rnd exp [[x]] =
      .ok ([[rnd (1 / rnd (exp (-x) + 1))]], { lastdata := [[rnd (1 / rnd (exp (-x) + 1))]] }) :=
  rfl

/-- How binary64 rounds a positive value of binary exponent `e` that lies less than half
a spacing from `n * 2 ^ (e - 52)`. -/
theorem binary64_eq_pos (x : ℝ) (e n : Int) (hlo : (2 : ℝ) ^ e ≤ x)
    (hhi : x < (2 : ℝ) ^ (e + 1)) (hemin : -1022 ≤ e)
    (h1 : ((n : ℝ) - 1 / 2) * (2 : ℝ) ^ (e - 52) < x)
    (h2 : x < ((n : ℝ) + 1 / 2) * (2 : ℝ) ^ (e - 52)) :
    binary64 x = (n : ℝ) * (2 : ℝ) ^ (e - 52) := by
  have hx : |x| = x := abs_of_pos (lt_of_lt_of_le (by positivity) hlo)
  have h := roundFloat_eq 53 (-1022) x e n (by rw [hx]; exact hlo) (by rw [hx]; exact hhi)
    hemin (by simpa using h1) (by simpa using h2)
  simpa [binary64] using h

end RoundedLayers

section RoundedCounterexamples

/-- The real exponential of `-40` is below `2 ^ (-54)`, a quarter of the spacing of the
binary64 numbers around 1. -/
theorem exp_neg_forty_le : Real.exp (-40) ≤ (2 : ℝ) ^ (-54 : Int) := by
  have h1 : (2.7 : ℝ) < Real.exp 1 := lt_trans (by norm_num) Real.exp_one_gt_d9
  have h40 : Real.exp 40 = Real.exp 1 ^ 40 := by
    rw [← Real.exp_nat_mul]
    norm_num
  have hge : (2 : ℝ) ^ 54 ≤ Real.exp 40 := by
    rw [h40]
    calc (2 : ℝ) ^ 54 ≤ (2.7 : ℝ) ^ 40 := by norm_num
      _ ≤ Real.exp 1 ^ 40 := pow_le_pow_left₀ (by norm_num) h1.le 40
  have h54 : (2 : ℝ) ^ (-54 : Int) = ((2 : ℝ) ^ 54)⁻¹ := by norm_num
  rw [Real.exp_neg, h54]
  exact inv_anti₀ (by positivity) hge

/-- The binary64 sum of 1 and a non-negative value of at most `2 ^ (-54)` is 1. -/
theorem binary64_one_add_small (t : ℝ) (h0 : 0 ≤ t) (h1 : t ≤ (2 : ℝ) ^ (-54 : Int)) :
    binary64 (t + 1) = 1 := by
  have h54 : (2 : ℝ) ^ (-54 : Int) = 1 / 18014398509481984 := by norm_num
  rw [h54] at h1
  rw [binary64_eq_pos _ 0 4503599627370496 (by norm_num; linarith) (by norm_num; linarith)
    (by norm_num) (by norm_num; linarith) (by norm_num; linarith)]
  norm_num

/-- C13, counterexample: in binary64 arithmetic `Sigmoid::forward` returns exactly 1 at
`x = 40`, outside the open interval `(0, 1)`: `exp(-40) + 1` rounds to 1. Here `std::exp`
is the rounded real exponential. -/
theorem Sigmoid.forward_rounded_reaches_one :
    (Sigmoid.mk [] : Sigmoid ℝ).forwardRounded binary64 (fun x => binary64 (Real.exp x))
      [[40]] = .ok ([[1]], { lastdata := [[1]] }) := by
  have he0 : 0 ≤ binary64 (Real.exp (-40)) :=
    roundFloat_nonneg 53 (-1022) _ (Real.exp_pos _).le
  have he1 : binary64 (Real.exp (-40)) ≤ (2 : ℝ) ^ (-54 : Int) :=
    roundFloat_le_two_zpow 53 (-1022) _ (-54) (by norm_num) (by norm_num) (Real.exp_pos _)
      exp_neg_forty_le
  have hone : binary64 (1 / 1 : ℝ) = 1 := by
    rw [binary64_eq_pos _ 0 4503599627370496 (by norm_num) (by norm_num) (by norm_num)
      (by norm_num) (by norm_num)]
    norm_num
  rw [Sigmoid.forwardRounded_single]
  rw [binary64_one_add_small _ he0 he1, hone]

end RoundedCounterexamples

end Cppdnn
